import Mathlib

/-!
# deposit2transfer: a shallow embedding of the deposit watcher

Embeds `pkg/types/deposit.go`, `pkg/types/ticker.go` and
`pkg/strategy/deposit2transfer/strategy.go`.

Conventions of the embedding

* `time.Time` / `types.Time` values are instants, embedded as `Int`
  (`Before` is `<`, `After` is `>`).
* `fixedpoint.Value` is a scaled integer, embedded as `Int`
  (`Min`, `IsZero`, `Sign` are the integer operations).
* Go `int` is the 64 bit machine integer; the only place where its range
  matters is `strconv.Atoi`.
* Go strings are embedded as `String`; `DepositStatus` is a string type.
* `watchingDeposits` (a Go map that is iterated) is an association list,
  `lastAssetDepositTimes` (a Go map that is only read and written by key) is a
  function `String → Option Int`.
-/

namespace Deposit2Transfer

/-! ## pkg/types/deposit.go -/

/-- The constant `types.DepositPending`. -/
def DepositPending : String := "pending"

/-- The constant `types.DepositRejected`. -/
def DepositRejected : String := "rejected"

/-- The constant `types.DepositSuccess`. -/
def DepositSuccess : String := "success"

/-- The constant `types.DepositCancelled`. -/
def DepositCancelled : String := "canceled"

/-- The constant `types.DepositCredited`. -/
def DepositCredited : String := "credited"

/-- The struct `types.Deposit`. -/
structure Deposit where
  GID : Int := 0
  Exchange : String := ""
  Time : Int := 0
  Amount : Int := 0
  Asset : String := ""
  Address : String := ""
  AddressTag : String := ""
  TransactionID : String := ""
  Status : String := ""
  UnlockConfirm : Int := 0
  Confirmation : String := ""
deriving DecidableEq, Repr

/-- The byte test `ch -= 48; ch > 9` of `strconv.Atoi`, negated. -/
def isDecimalDigit (c : Char) : Bool :=
  decide (48 ≤ c.toNat) && decide (c.toNat ≤ 57)

/-- The length `len(s)` of a Go string: the number of bytes of its UTF-8
encoding. -/
def byteLen (s : List Char) : Nat :=
  (s.map Char.utf8Size).sum

/-- The errors of package `strconv` that matter here: `ErrSyntax` and
`ErrRange`. -/
inductive NumError where
  | ErrSyntax
  | ErrRange
deriving DecidableEq, Repr

/-- The digit loop of the fast path of `strconv.Atoi`: `none` on the first
byte that is not a decimal digit (a syntax error), otherwise the value read. -/
def parseDigits : List Char → Nat → Option Nat
  | [], n => some n
  | c :: cs, n =>
    if isDecimalDigit c then parseDigits cs (n * 10 + (c.toNat - 48)) else none

/-- The fast path of `strconv.Atoi`, taken for texts of 1 to 18 bytes: an
optional sign, then decimal digits only. -/
def atoiFast (s : List Char) : Int × Option NumError :=
  match s with
  | [] => (0, some NumError.ErrSyntax)
  | c :: rest =>
    let s1 : List Char := if c = '-' ∨ c = '+' then rest else s
    match s1 with
    | [] => (0, some NumError.ErrSyntax)
    | _ :: _ =>
      match parseDigits s1 0 with
      | none => (0, some NumError.ErrSyntax)
      | some n => (if c = '-' then -(n : Int) else (n : Int), none)

/-- The constant `maxUint64`. -/
def maxUint64 : Nat := 18446744073709551615

/-- The loop of `strconv.ParseUint(s, 10, 0)`: a byte that is no decimal digit
is a syntax error; a digit that takes the value beyond `maxUint64` ends the
loop at once with `maxUint64` and a range error, the bytes after it unread. -/
def parseUintLoop : List Char → Nat → Nat × Option NumError
  | [], n => (n, none)
  | c :: cs, n =>
    if isDecimalDigit c = false then (0, some NumError.ErrSyntax)
    else if n ≥ maxUint64 / 10 + 1 then (maxUint64, some NumError.ErrRange)
    else if n * 10 + (c.toNat - 48) > maxUint64 then (maxUint64, some NumError.ErrRange)
    else parseUintLoop cs (n * 10 + (c.toNat - 48))

/-- The function `strconv.ParseUint(s, 10, 0)` on a 64 bit platform. -/
def ParseUint (s : List Char) : Nat × Option NumError :=
  match s with
  | [] => (0, some NumError.ErrSyntax)
  | _ :: _ => parseUintLoop s 0

/-- The function `strconv.ParseInt(s, 10, 0)` on a 64 bit platform: the sign
is picked off, the rest goes through `ParseUint`, a syntax error gives 0 and a
value out of the `int64` range gives the nearest bound with a range error. -/
def ParseInt (s : List Char) : Int × Option NumError :=
  match s with
  | [] => (0, some NumError.ErrSyntax)
  | c :: rest =>
    let s1 : List Char := if c = '+' ∨ c = '-' then rest else s
    let un := ParseUint s1
    if un.2 = some NumError.ErrSyntax then (0, some NumError.ErrSyntax)
    else if ¬ c = '-' ∧ un.1 ≥ 2 ^ 63 then ((2 ^ 63 - 1 : Int), some NumError.ErrRange)
    else if c = '-' ∧ un.1 > 2 ^ 63 then (-(2 ^ 63 : Int), some NumError.ErrRange)
    else (if c = '-' then -(un.1 : Int) else (un.1 : Int), none)

/-- The function `strconv.Atoi` on a 64 bit platform: the fast path for texts
of 1 to 18 bytes, `ParseInt` for the others. -/
def Atoi (s : List Char) : Int × Option NumError :=
  if 0 < byteLen s ∧ byteLen s < 19 then atoiFast s else ParseInt s

/-- The text that `ParseInt` hands to `ParseUint`: the text without its
leading sign, if it has one. -/
def unsigned (s : List Char) : List Char :=
  match s with
  | [] => []
  | c :: rest => if c = '+' ∨ c = '-' then rest else s

/-- The call `strings.Split(s, "/")`: the pieces of `s` between slashes. -/
def splitSlash : List Char → List (List Char)
  | [] => [[]]
  | c :: cs =>
    if c = '/' then [] :: splitSlash cs
    else
      match splitSlash cs with
      | [] => [[c]]
      | p :: ps => (c :: p) :: ps

/-- The method `Deposit.GetCurrentConfirmation`; both `strconv.Atoi` errors
are dropped (`current, _ = strconv.Atoi(strs[0])`). -/
def Deposit.GetCurrentConfirmation (d : Deposit) : Int × Int :=
  if d.Confirmation.length = 0 then (0, 0)
  else
    match splitSlash d.Confirmation.toList with
    | s0 :: s1 :: _ => ((Atoi s0).1, (Atoi s1).1)
    | _ => (0, 0)

/-! ## pkg/strategy/deposit2transfer/strategy.go: the state -/

/-- The Go type `map[string]types.Deposit` of the field `watchingDeposits`,
as the list of its entries. The Go runtime fixes no iteration order; the list
order stands for the order one run of `range` happens to take. -/
abbrev Watchlist := List (String × Deposit)

/-- The map read `m[k]` with its `ok` flag. -/
def mapLookup : Watchlist → String → Option Deposit
  | [], _ => none
  | (k', d) :: rest, k => if k' = k then some d else mapLookup rest k

/-- The builtin `delete(m, k)`. -/
def mapDelete (w : Watchlist) (k : String) : Watchlist :=
  w.filter (fun e => decide (e.1 ≠ k))

/-- The map write `m[k] = d`. The entry is put in front; its place is
immaterial, as Go fixes no order. -/
def mapStore (w : Watchlist) (k : String) (d : Deposit) : Watchlist :=
  (k, d) :: mapDelete w k

/-- The fields of `Strategy` that `scanDepositHistory` and `checkDeposits`
read and write. -/
structure Strategy where
  Assets : List String := []
  watchingDeposits : Watchlist := []
  lastAssetDepositTimes : String → Option Int := fun _ => none

/-- The state `Run` sets up: both maps freshly made. -/
def Strategy.init (assets : List String) : Strategy :=
  { Assets := assets, watchingDeposits := [], lastAssetDepositTimes := fun _ => none }

/-- The function `later`. -/
def later (a b : Int) : Int :=
  if a > b then a else b

/-! ## scanDepositHistory -/

/-- The inner loop of `insertionSortLessFunc`, the sort that `sort.Slice`
runs on a slice of at most twelve elements: the new element moves left past
every neighbour it is `Before`. The sorted prefix is held nearest element
first. -/
def insertLeft (x : Deposit) : List Deposit → List Deposit
  | [] => [x]
  | y :: ys => if x.Time < y.Time then y :: insertLeft x ys else x :: y :: ys

/-- The call `sort.Slice(deposits, func(i, j) { deposits[i].Time.Before(deposits[j].Time) })`
of line 235, as the insertion sort of the Go library. On longer slices the
library switches to a pattern defeating quicksort, whose result is an
ascending permutation as well and can differ from this one only in the order
of records with equal time; every lemma below that speaks of all batches uses
nothing but `sortSlice_perm` and `sortSlice_sorted`, and every batch that is
evaluated has at most twelve records. -/
def sortSlice (deposits : List Deposit) : List Deposit :=
  (deposits.foldl (fun acc x => insertLeft x acc) []).reverse

/-- The body of the loop of lines 242 to 272, for one deposit. -/
def reconcileStep (asset : String) (lastTimes : String → Option Int)
    (w : Watchlist) (deposit : Deposit) : Watchlist :=
  if deposit.Asset ≠ asset then w
  else if (mapLookup w deposit.TransactionID).isSome then
    mapStore w deposit.TransactionID deposit
  else if deposit.Status = DepositSuccess then
    match lastTimes asset with
    | some depositTime =>
      if deposit.Time > depositTime then mapStore w deposit.TransactionID deposit else w
    | none => w
  else if deposit.Status = DepositCredited ∨ deposit.Status = DepositPending then
    mapStore w deposit.TransactionID deposit
  else w

/-- The loop of lines 242 to 272 over the sorted records. -/
def reconcileLoop (asset : String) (lastTimes : String → Option Int)
    (w : Watchlist) (deposits : List Deposit) : Watchlist :=
  deposits.foldl (reconcileStep asset lastTimes) w

/-- The watermark update of lines 274 to 281. -/
def updateLastTime (asset : String) (lastTimes : String → Option Int)
    (deposits : List Deposit) : String → Option Int :=
  match deposits.getLast? with
  | none => lastTimes
  | some lastDeposit =>
    match lastTimes asset with
    | some lastTime =>
      fun a => if a = asset then some (later lastDeposit.Time lastTime) else lastTimes a
    | none =>
      fun a => if a = asset then some lastDeposit.Time else lastTimes a

/-- The condition of line 289 under which a success record is skipped for
this round. -/
def unlockNotReached (deposit : Deposit) : Bool :=
  decide (deposit.GetCurrentConfirmation.2 > 0 ∧ deposit.UnlockConfirm > 0 ∧
    deposit.GetCurrentConfirmation.1 < deposit.UnlockConfirm)

/-- The test that sends a watched record to `succeededDeposits`
(lines 285 to 295). -/
def released (deposit : Deposit) : Bool :=
  decide (deposit.Status = DepositSuccess) && !unlockNotReached deposit

/-- The loop of lines 284 to 297: `entries` are the entries `range` has still
to visit, `w` is the map as it stands, `acc` is `succeededDeposits`. An entry
whose key has been deleted meanwhile is not visited. -/
def gateLoop : List (String × Deposit) → Watchlist → List Deposit → Watchlist × List Deposit
  | [], w, acc => (w, acc)
  | (k, deposit) :: entries, w, acc =>
    if (mapLookup w k).isSome then
      if released deposit then
        gateLoop entries (mapDelete w deposit.TransactionID) (acc ++ [deposit])
      else gateLoop entries w acc
    else gateLoop entries w acc

/-- The method `Strategy.scanDepositHistory` from line 234 on, given the
records the history query returned; the failing query returns before touching
the state (see `checkDeposits`). The result is the new state and
`succeededDeposits`. -/
def scanDepositHistory (s : Strategy) (asset : String) (deposits : List Deposit) :
    Strategy × List Deposit :=
  let sorted := sortSlice deposits
  let w := reconcileLoop asset s.lastAssetDepositTimes s.watchingDeposits sorted
  let lastTimes := updateLastTime asset s.lastAssetDepositTimes sorted
  let g := gateLoop w w []
  ({ s with watchingDeposits := g.1, lastAssetDepositTimes := lastTimes }, g.2)

/-- A run of scans, one `(asset, records)` pair per call: the final state and
the released batch of every call, in call order. -/
def scanAll (s : Strategy) : List (String × List Deposit) → Strategy × List (List Deposit)
  | [] => (s, [])
  | (asset, deposits) :: rest =>
    let r := scanDepositHistory s asset deposits
    let rs := scanAll r.1 rest
    (rs.1, r.2 :: rs.2)

/-! ## Derived notions used to state the properties -/

/-- What every value of `watchingDeposits` satisfies: it is a map (no key
twice) and each record is stored under its own `TransactionID`, the key of
all three writes in `scanDepositHistory`. -/
def WellFormed (w : Watchlist) : Prop :=
  (w.map Prod.fst).Nodup ∧ ∀ e ∈ w, e.1 = e.2.TransactionID

/-- The first sighting rule of lines 253 to 270, as a test on the record: a
record whose `TransactionID` is not tracked is stored exactly when this holds. -/
def firstSightingAdds (asset : String) (lastTimes : String → Option Int) (e : Deposit) : Bool :=
  (decide (e.Status = DepositSuccess) &&
      (match lastTimes asset with
       | some t => decide (e.Time > t)
       | none => false)) ||
    decide (e.Status = DepositCredited) || decide (e.Status = DepositPending)

/-- The loop body seen from one key `k`: what `watchingDeposits[k]` is after
the body has run on `e`, given what it was before (`mapLookup_reconcileStep`
proves that this is what `reconcileStep` does). -/
def keyStep (asset : String) (lastTimes : String → Option Int) (k : String)
    (cur : Option Deposit) (e : Deposit) : Option Deposit :=
  if e.Asset = asset ∧ e.TransactionID = k ∧
      (cur.isSome = true ∨ firstSightingAdds asset lastTimes e = true) then some e
  else cur

/-! ## Runs of scans and what the source may report -/

/-- No batch of `rest` reports the transaction of the released record `d` in
a way that lets the watcher take it up again: a report of it under the asset
being scanned is not pending and not credited, and if it is a success report
it has the asset of `d` and a time not after the time of `d`. -/
def staysSettled (d : Deposit) (rest : List (String × List Deposit)) : Prop :=
  ∀ sc ∈ rest, ∀ e ∈ sc.2, e.TransactionID = d.TransactionID → e.Asset = sc.1 →
    e.Status ≠ DepositPending ∧ e.Status ≠ DepositCredited ∧
      (e.Status = DepositSuccess → e.Asset = d.Asset ∧ e.Time ≤ d.Time)

instance (d : Deposit) (rest : List (String × List Deposit)) :
    Decidable (staysSettled d rest) :=
  inferInstanceAs (Decidable (∀ sc ∈ rest, ∀ e ∈ sc.2, e.TransactionID = d.TransactionID →
    e.Asset = sc.1 →
    e.Status ≠ DepositPending ∧ e.Status ≠ DepositCredited ∧
      (e.Status = DepositSuccess → e.Asset = d.Asset ∧ e.Time ≤ d.Time)))

/-- A run of scans from state `s` in which the source leaves released
transactions alone: `staysSettled` holds for every record a scan of the run
releases, against the batches of the scans after it. -/
def SettledAfterRelease (s : Strategy) : List (String × List Deposit) → Prop
  | [] => True
  | sc :: rest =>
    (∀ d ∈ (scanDepositHistory s sc.1 sc.2).2, staysSettled d rest) ∧
      SettledAfterRelease (scanDepositHistory s sc.1 sc.2).1 rest

/-- The property `SettledAfterRelease` can be computed. -/
def SettledAfterRelease.dec :
    (l : List (String × List Deposit)) → (s : Strategy) → Decidable (SettledAfterRelease s l)
  | [], _ => isTrue trivial
  | sc :: rest, s =>
    have : Decidable (SettledAfterRelease (scanDepositHistory s sc.1 sc.2).1 rest) :=
      SettledAfterRelease.dec rest (scanDepositHistory s sc.1 sc.2).1
    inferInstanceAs (Decidable ((∀ d ∈ (scanDepositHistory s sc.1 sc.2).2, staysSettled d rest) ∧
      SettledAfterRelease (scanDepositHistory s sc.1 sc.2).1 rest))

instance (s : Strategy) (l : List (String × List Deposit)) : Decidable (SettledAfterRelease s l) :=
  SettledAfterRelease.dec l s

/-- The transaction ids of all released batches of a run, in release order. -/
def releasedIDs (batches : List (List Deposit)) : List String :=
  batches.flatten.map Deposit.TransactionID

/-- A record of transaction `tx1`, asset `USDT`, with the given time and status. -/
def tx1 (time : Int) (status : String) : Deposit :=
  { TransactionID := "tx1", Asset := "USDT", Time := time, Amount := 100, Status := status }

/-- A record of transaction `tx0`, asset `USDT`, pending at time 0. -/
def tx0 : Deposit :=
  { TransactionID := "tx0", Asset := "USDT", Time := 0, Amount := 5, Status := DepositPending }

/-- Four polls in which the source reports `tx1` pending, success, pending
again and success again. -/
def regressRun : List (String × List Deposit) :=
  [("USDT", [tx1 1 DepositPending]), ("USDT", [tx1 1 DepositSuccess]),
   ("USDT", [tx1 1 DepositPending]), ("USDT", [tx1 1 DepositSuccess])]

/-- Three polls in which the source reports `tx1` as success under two
different times. -/
def retimedRun : List (String × List Deposit) :=
  [("USDT", [tx0]), ("USDT", [tx1 1 DepositSuccess]), ("USDT", [tx1 2 DepositSuccess])]

/-- A pending `BTC` record of transaction `tx9` at time 0. -/
def tx9 : Deposit :=
  { TransactionID := "tx9", Asset := "BTC", Time := 0, Amount := 1, Status := DepositPending }

/-- Four polls, two per asset, in which the source reports the id `tx1` as a
success deposit of `USDT` and as a success deposit of `BTC`. -/
def reassignedRun : List (String × List Deposit) :=
  [("USDT", [tx0]), ("BTC", [tx9]), ("USDT", [tx1 1 DepositSuccess]),
   ("BTC", [{ tx1 1 DepositSuccess with Asset := "BTC" }])]

/-- Four polls in which the source reports `tx1` pending, success, credited
and success again. -/
def recreditedRun : List (String × List Deposit) :=
  [("USDT", [tx1 1 DepositPending]), ("USDT", [tx1 1 DepositSuccess]),
   ("USDT", [tx1 1 DepositCredited]), ("USDT", [tx1 1 DepositSuccess])]

/-- Three polls in which `tx1` is pending at time 1, is reported as success
with time 2 and is then reported as success with time 2 once more. -/
def steadyRun : List (String × List Deposit) :=
  [("USDT", [tx1 1 DepositPending]), ("USDT", [tx1 2 DepositSuccess]),
   ("USDT", [tx1 2 DepositSuccess])]

/-- Four polls in which `tx1` is first reported as success while the asset
has no watermark (so it is not taken up), then as pending, as success and,
after its release, as rejected. -/
def lateStartRun : List (String × List Deposit) :=
  [("USDT", [tx1 1 DepositSuccess]), ("USDT", [tx1 3 DepositPending]),
   ("USDT", [tx1 3 DepositSuccess]), ("USDT", [tx1 4 DepositRejected])]

/-- The states the watcher can be in: the results of runs of scans from the
state `Run` sets up. -/
def Reachable (s : Strategy) : Prop :=
  ∃ assets scans, (scanAll (Strategy.init assets) scans).1 = s

/-- The records of a batch that the loop body does not skip for key `k`:
those of the scanned asset with `TransactionID` equal to `k`. -/
def reportsOf (asset k : String) (l : List Deposit) : List Deposit :=
  l.filter (fun e => decide (e.Asset = asset ∧ e.TransactionID = k))

/-- The batch of the two identical polls that release `tx1` twice. -/
def twoStageBatch : List Deposit :=
  [tx1 1 DepositPending, tx1 2 DepositSuccess]

/-- A success record of `tx1` with the given confirmation text and unlock
threshold. -/
def tx1Confirm (confirmation : String) (unlock : Int) : Deposit :=
  { TransactionID := "tx1", Asset := "USDT", Time := 1, Amount := 100,
    Status := DepositSuccess, UnlockConfirm := unlock, Confirmation := confirmation }

/-! ## checkDeposits

The calls that leave the strategy are recorded in a trace; what the exchange
answers is given by a `World`, each answer a function of the trace so far (so
an answer may depend on everything that happened before). A call wrapped in
`retry.GeneralBackoff` stands for its result after the retries.
`time.Sleep(TransferDelay)` has no effect on state or calls and is left out. -/

/-- The fields of `types.Balance` that `checkDeposits` reads. -/
structure Balance where
  Currency : String := ""
  Available : Int := 0
deriving DecidableEq, Repr

/-- A value of `*types.Account`, of which only the method `Balance(currency)`
is called; the method is not in the sources at hand and is taken as given: it
returns a balance and the flag `ok`. -/
abbrev Account := String → Balance × Bool

/-- The calls `checkDeposits` makes to the outside, in order of occurrence:
the exchange and limiter calls, the two `bbgo.Notify` messages and the
`Errorf` log lines (by their message). -/
inductive Call where
  | queryDepositHistory (asset : String)
  | limiterWait
  | querySpotAccount
  | notifyInsufficient (deposit : Deposit) (bal : Balance)
  | notifyTransfer (deposit : Deposit) (amount : Int)
  | transferMarginAccountAsset (asset : String) (amount : Int)
  | logError (message : String)
deriving DecidableEq, Repr

/-- The answers of the outside world. `QueryDepositHistory` is `none` when the
query fails; `Wait` is `false` when `accountLimiter.Wait` returns an error;
`spotAccountQueryService` says whether the exchange implements the interface;
`QuerySpotAccount` is `none` when the query fails or returns a nil account;
`TransferMarginAccountAsset` is `false` when the transfer fails. -/
structure World where
  QueryDepositHistory : List Call → String → Option (List Deposit)
  Wait : List Call → Bool
  spotAccountQueryService : Bool
  QuerySpotAccount : List Call → Option Account
  TransferMarginAccountAsset : List Call → String → Int → Bool

/-- Lines 203 to 212: the notification and the transfer call; a failed
transfer is only logged. -/
def transferIn (w : World) (d : Deposit) (amount : Int) (trace : List Call) : List Call :=
  let trace1 := trace ++ [Call.notifyTransfer d amount]
  let trace2 := trace1 ++ [Call.transferMarginAccountAsset d.Asset amount]
  if w.TransferMarginAccountAsset trace1 d.Asset amount then trace2
  else trace2 ++ [Call.logError "unable to transfer deposit asset into the margin account"]

/-- The body of the loop of lines 165 to 213 for one released deposit: the
trace after it, and `false` when the body ends `checkDeposits` by `return`. -/
def transferDeposit (w : World) (d : Deposit) (trace : List Call) : List Call × Bool :=
  let trace1 := trace ++ [Call.limiterWait]
  if w.Wait trace = false then (trace1 ++ [Call.logError "rate limiter error"], false)
  else if w.spotAccountQueryService then
    let trace2 := trace1 ++ [Call.querySpotAccount]
    match w.QuerySpotAccount trace1 with
    | none => (trace2 ++ [Call.logError "unable to query spot account"], true)
    | some account =>
      let bal := (account d.Asset).1
      let ok := (account d.Asset).2
      let amount := if ok then min bal.Available d.Amount else d.Amount
      let trace3 := if ok then trace2 else trace2 ++ [Call.logError "balance not found"]
      if amount = 0 ∨ amount < 0 then (trace3 ++ [Call.notifyInsufficient d bal], true)
      else (transferIn w d amount trace3, true)
  else (transferIn w d d.Amount trace1, true)

/-- The loop of lines 165 to 213 over `succeededDeposits`. -/
def transferLoop (w : World) : List Deposit → List Call → List Call × Bool
  | [], trace => (trace, true)
  | d :: ds, trace =>
    let r := transferDeposit w d trace
    if r.2 then transferLoop w ds r.1 else (r.1, false)

/-- The loop of lines 142 to 214 over the assets still to check. -/
def checkAssets (w : World) : List String → Strategy → List Call → Strategy × List Call
  | [], s, trace => (s, trace)
  | asset :: rest, s, trace =>
    let trace1 := trace ++ [Call.queryDepositHistory asset]
    match w.QueryDepositHistory trace asset with
    | none => (s, trace1 ++ [Call.logError "unable to scan deposit history"])
    | some deposits =>
      let r := scanDepositHistory s asset deposits
      if r.2.length = 0 then checkAssets w rest r.1 trace1
      else
        let t := transferLoop w r.2 trace1
        if t.2 then checkAssets w rest r.1 t.1 else (r.1, t.1)

/-- The method `Strategy.checkDeposits`: one poll. -/
def checkDeposits (w : World) (s : Strategy) (trace : List Call) : Strategy × List Call :=
  checkAssets w s.Assets s trace

/-- An account that lists 40 available `USDT`. -/
def account40 : Account :=
  fun c => if c = "USDT" then ({ Currency := "USDT", Available := 40 }, true) else ({}, false)

/-- An account that lists no balance at all: `Balance` returns the zero
balance and `ok = false`. -/
def accountEmpty : Account :=
  fun _ => ({}, false)

/-- A world in which every call succeeds, the spot account being `account`
and an asset's history being `history asset`. -/
def calmWorld (account : Account) (history : String → Option (List Deposit)) : World :=
  { QueryDepositHistory := fun _ asset => history asset,
    Wait := fun _ => true,
    spotAccountQueryService := true,
    QuerySpotAccount := fun _ => some account,
    TransferMarginAccountAsset := fun _ _ _ => true }

/-- A history source that fails for `BTC` and reports for `USDT` one pending
and one new success deposit. -/
def btcFails : String → Option (List Deposit) :=
  fun asset => if asset = "BTC" then none else some [tx0, tx1 1 DepositSuccess]

/-- The state after one earlier poll of `USDT` that saw `tx0` pending. -/
def afterFirstPoll : Strategy :=
  (scanDepositHistory (Strategy.init ["BTC", "USDT"]) "USDT" [tx0]).1

/-- The transfer calls of a trace, as `(asset, amount)` pairs in call order. -/
def transferCalls (trace : List Call) : List (String × Int) :=
  trace.filterMap (fun c =>
    match c with
    | Call.transferMarginAccountAsset asset amount => some (asset, amount)
    | _ => none)

/-- The history queries of a trace: the scanned assets in call order. -/
def scannedAssets (trace : List Call) : List String :=
  trace.filterMap (fun c =>
    match c with
    | Call.queryDepositHistory asset => some asset
    | _ => none)

/-- A pending `BTC` record at time 5. -/
def btcRecord : Deposit :=
  { TransactionID := "txB", Asset := "BTC", Time := 5, Amount := 1, Status := DepositPending }

/-- A success record of transaction `tx2`, asset `USDT`, at time 3. -/
def tx2 : Deposit :=
  { TransactionID := "tx2", Asset := "USDT", Time := 3, Amount := 7, Status := DepositSuccess }

/-- The order under which a batch without clashing ties has one sorted
arrangement: strictly earlier, or the same record. -/
def beforeOrSame (x y : Deposit) : Prop :=
  x.Time < y.Time ∨ x = y

instance : IsAntisymm Deposit beforeOrSame where
  antisymm := fun x y hxy hyx => by
    rcases hxy with h1 | h1
    · rcases hyx with h2 | h2
      · exact absurd h1 (not_lt.2 (le_of_lt h2))
      · exact h2.symm
    · exact h1

/-- No clashing ties under asset `a`: two records of the batch that the loop
does not skip, carry the same `TransactionID` and have the same time are the
same record. -/
def NoClashingTies (asset : String) (evs : List Deposit) : Prop :=
  ∀ e1 ∈ evs, ∀ e2 ∈ evs, e1.Asset = asset → e2.Asset = asset →
    e1.TransactionID = e2.TransactionID → e1.Time = e2.Time → e1 = e2

instance (asset : String) (evs : List Deposit) : Decidable (NoClashingTies asset evs) :=
  inferInstanceAs (Decidable (∀ e1 ∈ evs, ∀ e2 ∈ evs, e1.Asset = asset → e2.Asset = asset →
    e1.TransactionID = e2.TransactionID → e1.Time = e2.Time → e1 = e2))

/-- The record `A` at time 1 of the ordering example. -/
def recordA : Deposit :=
  { TransactionID := "A", Asset := "USDT", Time := 1, Amount := 1, Status := DepositPending }

/-- The record `B` at time 2 of the ordering example. -/
def recordB : Deposit :=
  { TransactionID := "B", Asset := "USDT", Time := 2, Amount := 2, Status := DepositPending }

/-- Three polls in which `tx1` is first seen as success (and ignored), then
reported as pending, then as success again with the same time. -/
def ignoredRun : List (String × List Deposit) :=
  [("USDT", [tx1 1 DepositSuccess]), ("USDT", [tx1 1 DepositPending]),
   ("USDT", [tx1 1 DepositSuccess])]

/-- The records of a batch that belong to the scanned asset. -/
def ofAsset (asset : String) (evs : List Deposit) : List Deposit :=
  evs.filter (fun e => decide (e.Asset = asset))

/-- A rejected record of transaction `tx3`, asset `USDT`, at time 4. -/
def tx3 : Deposit :=
  { TransactionID := "tx3", Asset := "USDT", Time := 4, Amount := 9, Status := DepositRejected }

/-- The record of the refresh scenario as first seen: `tx1` pending with
confirmation `3/16` and threshold 16. -/
def tx1FirstSeen : Deposit :=
  { tx1Confirm "3/16" 16 with Status := DepositPending }

/-- The world as it answers once the calls of `t` have been made: each answer
as a function of the calls made since. -/
def World.after (w : World) (t : List Call) : World :=
  { QueryDepositHistory := fun tr => w.QueryDepositHistory (t ++ tr),
    Wait := fun tr => w.Wait (t ++ tr),
    spotAccountQueryService := w.spotAccountQueryService,
    QuerySpotAccount := fun tr => w.QuerySpotAccount (t ++ tr),
    TransferMarginAccountAsset := fun tr => w.TransferMarginAccountAsset (t ++ tr) }

/-- The calls the loop body adds to the trace for the deposit `d`. -/
def callsOf (w : World) (d : Deposit) (trace : List Call) : List Call :=
  (transferDeposit w d trace).1.drop trace.length

/-- A world in which the first spot account query fails and the later ones
return `account40`, and every transfer fails. -/
def firstQueryFailsWorld : World :=
  { QueryDepositHistory := fun _ _ => none,
    Wait := fun _ => true,
    spotAccountQueryService := true,
    QuerySpotAccount := fun tr =>
      if tr.count Call.querySpotAccount = 0 then none else some account40,
    TransferMarginAccountAsset := fun _ _ _ => false }

/-! ## pkg/types/ticker.go -/

/-- The struct `types.Ticker`; prices and volume are `fixedpoint.Value`. -/
structure Ticker where
  Symbol : String := ""
  Time : Int := 0
  Volume : Int := 0
  Last : Int := 0
  Open : Int := 0
  High : Int := 0
  Low : Int := 0
  Buy : Int := 0
  Sell : Int := 0
deriving DecidableEq, Repr

/-- The method `Ticker.GetValidPrice`. -/
def Ticker.GetValidPrice (t : Ticker) : Int :=
  if ¬ t.Last = 0 then t.Last
  else if ¬ t.Buy = 0 then t.Buy
  else if ¬ t.Sell = 0 then t.Sell
  else t.Open

/-! # Lemmas -/

/-! ## The map operations -/

theorem mapLookup_delete (w : Watchlist) (k k' : String) :
    mapLookup (mapDelete w k) k' = if k' = k then none else mapLookup w k' := by
  induction w with
  | nil => simp [mapDelete, mapLookup]
  | cons e rest ih =>
    obtain ⟨k0, d0⟩ := e
    unfold mapDelete at ih ⊢
    by_cases h0 : k0 = k
    · subst h0
      simp only [List.filter_cons, ne_eq, not_true_eq_false, decide_False, Bool.false_eq_true, if_false, ih]
      by_cases h1 : k' = k0
      · simp [h1]
      · have : ¬ k0 = k' := fun h => h1 h.symm
        simp [h1, mapLookup, this]
    · simp only [List.filter_cons, ne_eq, h0, not_false_eq_true, decide_True, if_true, mapLookup, ih]
      by_cases h1 : k0 = k'
      · subst h1; simp [h0]
      · simp [h1]

theorem mapLookup_store (w : Watchlist) (k k' : String) (d : Deposit) :
    mapLookup (mapStore w k d) k' = if k' = k then some d else mapLookup w k' := by
  unfold mapStore
  by_cases h : k' = k
  · subst h; simp [mapLookup]
  · have : ¬ k = k' := fun h1 => h h1.symm
    simp [mapLookup, this, h, mapLookup_delete]

theorem mapLookup_eq_none_iff (w : Watchlist) (k : String) :
    mapLookup w k = none ↔ k ∉ w.map Prod.fst := by
  induction w with
  | nil => simp [mapLookup]
  | cons e rest ih =>
    obtain ⟨k0, d0⟩ := e
    by_cases h : k0 = k
    · simp [mapLookup, h]
    · have : ¬ k = k0 := fun h1 => h h1.symm
      simp only [mapLookup, h, if_false, ih, List.map_cons, List.mem_cons, this, false_or]

theorem mem_of_mapLookup {w : Watchlist} {k : String} {d : Deposit}
    (h : mapLookup w k = some d) : (k, d) ∈ w := by
  induction w with
  | nil => simp [mapLookup] at h
  | cons e rest ih =>
    obtain ⟨k0, d0⟩ := e
    by_cases h0 : k0 = k
    · simp [mapLookup, h0] at h; simp [h0, h]
    · simp only [mapLookup, h0, if_false] at h
      exact List.mem_cons_of_mem _ (ih h)

theorem mapLookup_of_mem {w : Watchlist} (hw : (w.map Prod.fst).Nodup) {k : String} {d : Deposit}
    (h : (k, d) ∈ w) : mapLookup w k = some d := by
  induction w with
  | nil => simp at h
  | cons e rest ih =>
    obtain ⟨k0, d0⟩ := e
    simp only [List.map_cons, List.nodup_cons] at hw
    rcases List.mem_cons.1 h with h1 | h1
    · injection h1 with h2 h3; subst h2; subst h3; simp [mapLookup]
    · have hk : k ∈ rest.map Prod.fst := List.mem_map.2 ⟨(k, d), h1, rfl⟩
      have : ¬ k0 = k := fun h2 => hw.1 (h2 ▸ hk)
      simp only [mapLookup, this, if_false]
      exact ih hw.2 h1

theorem wellFormed_nil : WellFormed [] := by
  simp [WellFormed]

theorem wellFormed_delete {w : Watchlist} (hw : WellFormed w) (k : String) :
    WellFormed (mapDelete w k) := by
  refine ⟨?_, ?_⟩
  · unfold mapDelete
    exact (hw.1.sublist ((List.filter_sublist w).map Prod.fst))
  · intro e he
    exact hw.2 e (List.mem_of_mem_filter he)

theorem wellFormed_store {w : Watchlist} (hw : WellFormed w) (d : Deposit) :
    WellFormed (mapStore w d.TransactionID d) := by
  have hd := wellFormed_delete hw d.TransactionID
  refine ⟨?_, ?_⟩
  · unfold mapStore
    simp only [List.map_cons, List.nodup_cons]
    refine ⟨?_, hd.1⟩
    rw [← mapLookup_eq_none_iff, mapLookup_delete]; simp
  · intro e he
    rcases List.mem_cons.1 he with h | h
    · subst h; rfl
    · exact hd.2 e h


theorem mapDelete_of_not_mem (w : Watchlist) (k : String) (h : k ∉ w.map Prod.fst) :
    mapDelete w k = w := by
  unfold mapDelete
  rw [List.filter_eq_self]
  intro e he
  have : e.1 ≠ k := fun h1 => h (List.mem_map.2 ⟨e, he, h1⟩)
  simpa using this

theorem gateLoop_append (rest pre : Watchlist) (acc : List Deposit)
    (hnd : ((pre ++ rest).map Prod.fst).Nodup)
    (hk : ∀ e ∈ rest, e.1 = e.2.TransactionID) :
    gateLoop rest (pre ++ rest) acc =
      (pre ++ rest.filter (fun e => !released e.2),
        acc ++ (rest.filter (fun e => released e.2)).map Prod.snd) := by
  induction rest generalizing pre acc with
  | nil => simp [gateLoop]
  | cons e rest ih =>
    obtain ⟨k, d⟩ := e
    have hkd : k = d.TransactionID := hk (k, d) (List.mem_cons_self _ _)
    have hlook : mapLookup (pre ++ (k, d) :: rest) k = some d :=
      mapLookup_of_mem hnd (by simp)
    have hrest : ∀ e ∈ rest, e.1 = e.2.TransactionID :=
      fun e he => hk e (List.mem_cons_of_mem _ he)
    have hnd2 : ((pre ++ rest).map Prod.fst).Nodup := by
      refine hnd.sublist (List.Sublist.map _ ?_)
      exact List.Sublist.append (List.Sublist.refl _) (List.sublist_cons_self _ _)
    have hnotin : k ∉ (pre ++ rest).map Prod.fst := by
      have h1 : ((pre ++ (k, d) :: rest).map Prod.fst).Perm (k :: (pre ++ rest).map Prod.fst) := by
        simp only [List.map_append, List.map_cons]
        exact List.perm_middle
      exact (List.nodup_cons.1 (h1.nodup_iff.1 hnd)).1
    simp only [gateLoop, hlook, Option.isSome_some, if_true]
    by_cases hr : released d = true
    · have hdel : mapDelete (pre ++ (k, d) :: rest) d.TransactionID = pre ++ rest := by
        rw [← hkd]
        unfold mapDelete
        rw [List.filter_append, List.filter_cons]
        simp only [ne_eq, not_true_eq_false, decide_False, Bool.false_eq_true, if_false]
        rw [← List.filter_append]
        exact mapDelete_of_not_mem _ _ hnotin
      simp only [hr, if_true, hdel, List.filter_cons, Bool.not_true, Bool.false_eq_true, if_false,
        List.map_cons]
      rw [ih pre (acc ++ [d]) hnd2 hrest]
      simp
    · have hr2 : released d = false := by simpa using hr
      simp only [hr2, Bool.false_eq_true, if_false, List.filter_cons, Bool.not_false, if_true]
      have := ih (pre ++ [(k, d)]) acc (by simpa using hnd) hrest
      simpa using this

theorem gateLoop_wellFormed {w : Watchlist} (hw : WellFormed w) :
    gateLoop w w [] =
      (w.filter (fun e => !released e.2), (w.filter (fun e => released e.2)).map Prod.snd) := by
  have := gateLoop_append w [] [] (by simpa using hw.1) hw.2
  simpa using this

theorem mapLookup_filter {w : Watchlist} (hw : (w.map Prod.fst).Nodup) (p : Deposit → Bool)
    (k : String) :
    mapLookup (w.filter (fun e => p e.2)) k = (mapLookup w k).filter p := by
  induction w with
  | nil => simp [mapLookup]
  | cons e rest ih =>
    obtain ⟨k0, d0⟩ := e
    simp only [List.map_cons, List.nodup_cons] at hw
    by_cases h0 : k0 = k
    · subst h0
      have hnone : mapLookup rest k0 = none := (mapLookup_eq_none_iff _ _).2 hw.1
      by_cases hp : p d0 = true
      · simp [List.filter_cons, hp, mapLookup, Option.filter]
      · have hp2 : p d0 = false := by simpa using hp
        simp [List.filter_cons, hp2, mapLookup, Option.filter, ih hw.2, hnone]
    · by_cases hp : p d0 = true
      · simp [List.filter_cons, hp, mapLookup, h0, ih hw.2]
      · have hp2 : p d0 = false := by simpa using hp
        simp [List.filter_cons, hp2, mapLookup, h0, ih hw.2]

theorem wellFormed_filter {w : Watchlist} (hw : WellFormed w) (p : String × Deposit → Bool) :
    WellFormed (w.filter p) :=
  ⟨hw.1.sublist ((List.filter_sublist w).map Prod.fst), fun e he => hw.2 e (List.mem_of_mem_filter he)⟩


theorem reconcileStep_eq (asset : String) (lastTimes : String → Option Int)
    (w : Watchlist) (e : Deposit) :
    reconcileStep asset lastTimes w e =
      if e.Asset = asset ∧ ((mapLookup w e.TransactionID).isSome = true ∨
          firstSightingAdds asset lastTimes e = true)
      then mapStore w e.TransactionID e else w := by
  unfold reconcileStep firstSightingAdds
  have h1 : DepositSuccess ≠ DepositCredited := by decide
  have h2 : DepositSuccess ≠ DepositPending := by decide
  by_cases ha : e.Asset = asset
  · by_cases ht : (mapLookup w e.TransactionID).isSome = true
    · simp [ha, ht]
    · by_cases hs : e.Status = DepositSuccess
      · cases hl : lastTimes asset with
        | none => simp [ha, ht, hs, hl, h1, h2]
        | some t =>
          by_cases hlt : t < e.Time
          · simp [ha, ht, hs, hl, hlt]
          · simp [ha, ht, hs, hl, hlt, h1, h2]
      · by_cases hc : e.Status = DepositCredited ∨ e.Status = DepositPending
        · rcases hc with hc | hc
          · simp [ha, ht, hc, h1.symm]
          · simp [ha, ht, hc, h2.symm]
        · have hc1 : ¬ e.Status = DepositCredited := fun h => hc (Or.inl h)
          have hc2 : ¬ e.Status = DepositPending := fun h => hc (Or.inr h)
          simp [ha, ht, hs, hc1, hc2]
  · simp [ha]

theorem mapLookup_reconcileStep (asset : String) (lastTimes : String → Option Int)
    (w : Watchlist) (e : Deposit) (k : String) :
    mapLookup (reconcileStep asset lastTimes w e) k =
      keyStep asset lastTimes k (mapLookup w k) e := by
  rw [reconcileStep_eq]
  unfold keyStep
  by_cases hk : e.TransactionID = k
  · subst hk
    by_cases hc : e.Asset = asset ∧ ((mapLookup w e.TransactionID).isSome = true ∨
          firstSightingAdds asset lastTimes e = true)
    · have hc2 : e.Asset = asset ∧ e.TransactionID = e.TransactionID ∧
          ((mapLookup w e.TransactionID).isSome = true ∨
            firstSightingAdds asset lastTimes e = true) := ⟨hc.1, rfl, hc.2⟩
      rw [if_pos hc, if_pos hc2, mapLookup_store]; simp
    · have hc2 : ¬ (e.Asset = asset ∧ e.TransactionID = e.TransactionID ∧
          ((mapLookup w e.TransactionID).isSome = true ∨
            firstSightingAdds asset lastTimes e = true)) := fun h => hc ⟨h.1, h.2.2⟩
      rw [if_neg hc, if_neg hc2]
  · have hc2 : ¬ (e.Asset = asset ∧ e.TransactionID = k ∧
          ((mapLookup w k).isSome = true ∨
            firstSightingAdds asset lastTimes e = true)) := fun h => hk h.2.1
    rw [if_neg hc2]
    by_cases hc : e.Asset = asset ∧ ((mapLookup w e.TransactionID).isSome = true ∨
          firstSightingAdds asset lastTimes e = true)
    · rw [if_pos hc, mapLookup_store, if_neg (fun h => hk h.symm)]
    · rw [if_neg hc]

theorem mapLookup_reconcileLoop (asset : String) (lastTimes : String → Option Int)
    (evs : List Deposit) (w : Watchlist) (k : String) :
    mapLookup (reconcileLoop asset lastTimes w evs) k =
      evs.foldl (keyStep asset lastTimes k) (mapLookup w k) := by
  induction evs generalizing w with
  | nil => rfl
  | cons e rest ih =>
    simp only [reconcileLoop, List.foldl_cons] at ih ⊢
    rw [ih, mapLookup_reconcileStep]

theorem wellFormed_reconcileStep (asset : String) (lastTimes : String → Option Int)
    {w : Watchlist} (hw : WellFormed w) (e : Deposit) :
    WellFormed (reconcileStep asset lastTimes w e) := by
  rw [reconcileStep_eq]
  split
  · exact wellFormed_store hw e
  · exact hw

theorem wellFormed_reconcileLoop (asset : String) (lastTimes : String → Option Int)
    (evs : List Deposit) {w : Watchlist} (hw : WellFormed w) :
    WellFormed (reconcileLoop asset lastTimes w evs) := by
  induction evs generalizing w with
  | nil => exact hw
  | cons e rest ih =>
    simp only [reconcileLoop, List.foldl_cons] at ih ⊢
    exact ih (wellFormed_reconcileStep asset lastTimes hw e)

/-! ## Sorting -/

theorem insertLeft_perm (x : Deposit) (l : List Deposit) : (insertLeft x l).Perm (x :: l) := by
  induction l with
  | nil => simp [insertLeft]
  | cons y ys ih =>
    unfold insertLeft
    split
    · exact ((List.Perm.cons y ih).trans (List.Perm.swap x y ys))
    · exact List.Perm.refl _

theorem foldl_insertLeft_perm (l acc : List Deposit) :
    (l.foldl (fun acc x => insertLeft x acc) acc).Perm (l ++ acc) := by
  induction l generalizing acc with
  | nil => simp
  | cons x xs ih =>
    simp only [List.foldl_cons]
    refine (ih _).trans ?_
    refine (List.Perm.append_left xs (insertLeft_perm x acc)).trans ?_
    exact List.perm_middle

theorem sortSlice_perm (l : List Deposit) : (sortSlice l).Perm l := by
  unfold sortSlice
  refine (List.reverse_perm _).trans ?_
  simpa using foldl_insertLeft_perm l []

theorem insertLeft_pairwise (x : Deposit) (l : List Deposit)
    (h : l.Pairwise (fun a b => b.Time ≤ a.Time)) :
    (insertLeft x l).Pairwise (fun a b => b.Time ≤ a.Time) := by
  induction l with
  | nil => simp [insertLeft]
  | cons y ys ih =>
    rw [List.pairwise_cons] at h
    unfold insertLeft
    split
    · rename_i hlt
      rw [List.pairwise_cons]
      refine ⟨?_, ih h.2⟩
      intro b hb
      rcases (List.mem_cons.1 ((insertLeft_perm x ys).mem_iff.1 hb)) with h1 | h1
      · subst h1; exact le_of_lt hlt
      · exact h.1 b h1
    · rename_i hlt
      have hxy : y.Time ≤ x.Time := not_lt.1 hlt
      rw [List.pairwise_cons]
      refine ⟨?_, List.pairwise_cons.2 h⟩
      intro b hb
      rcases List.mem_cons.1 hb with h1 | h1
      · subst h1; exact hxy
      · exact le_trans (h.1 b h1) hxy

theorem foldl_insertLeft_pairwise (l acc : List Deposit)
    (h : acc.Pairwise (fun a b => b.Time ≤ a.Time)) :
    (l.foldl (fun acc x => insertLeft x acc) acc).Pairwise (fun a b => b.Time ≤ a.Time) := by
  induction l generalizing acc with
  | nil => exact h
  | cons x xs ih => exact ih _ (insertLeft_pairwise x acc h)

theorem sortSlice_sorted (l : List Deposit) :
    (sortSlice l).Pairwise (fun a b => a.Time ≤ b.Time) := by
  unfold sortSlice
  rw [List.pairwise_reverse]
  exact foldl_insertLeft_pairwise l [] List.Pairwise.nil

theorem sortSlice_getLast (l : List Deposit) :
    (sortSlice l).getLast? = none ∧ l = [] ∨
      ∃ d, (sortSlice l).getLast? = some d ∧ d ∈ l ∧ ∀ e ∈ l, e.Time ≤ d.Time := by
  have hp := sortSlice_perm l
  have hs := foldl_insertLeft_pairwise l [] List.Pairwise.nil
  unfold sortSlice at hp ⊢
  rw [List.getLast?_reverse]
  have hp2 : (l.foldl (fun acc x => insertLeft x acc) []).Perm l := (List.reverse_perm _).symm.trans hp
  cases hf : l.foldl (fun acc x => insertLeft x acc) [] with
  | nil =>
    left
    rw [hf] at hp2
    exact ⟨rfl, (List.nil_perm.1 hp2)⟩
  | cons d ds =>
    right
    rw [hf] at hp2 hs
    refine ⟨d, rfl, hp2.mem_iff.1 (List.mem_cons_self _ _), ?_⟩
    intro e he
    rcases List.mem_cons.1 (hp2.mem_iff.2 he) with h1 | h1
    · subst h1; exact le_refl _
    · exact (List.pairwise_cons.1 hs).1 e h1


/-! ## One scan -/

theorem scan_watchingDeposits (s : Strategy) (asset : String) (evs : List Deposit)
    (hw : WellFormed s.watchingDeposits) :
    (scanDepositHistory s asset evs).1.watchingDeposits =
      (reconcileLoop asset s.lastAssetDepositTimes s.watchingDeposits (sortSlice evs)).filter
        (fun e => !released e.2) := by
  have h := gateLoop_wellFormed (wellFormed_reconcileLoop asset s.lastAssetDepositTimes
    (sortSlice evs) hw)
  simp only [scanDepositHistory, h]

theorem scan_succeeded (s : Strategy) (asset : String) (evs : List Deposit)
    (hw : WellFormed s.watchingDeposits) :
    (scanDepositHistory s asset evs).2 =
      ((reconcileLoop asset s.lastAssetDepositTimes s.watchingDeposits (sortSlice evs)).filter
        (fun e => released e.2)).map Prod.snd := by
  have h := gateLoop_wellFormed (wellFormed_reconcileLoop asset s.lastAssetDepositTimes
    (sortSlice evs) hw)
  simp only [scanDepositHistory, h]

theorem scan_lastTimes (s : Strategy) (asset : String) (evs : List Deposit) :
    (scanDepositHistory s asset evs).1.lastAssetDepositTimes =
      updateLastTime asset s.lastAssetDepositTimes (sortSlice evs) := rfl

theorem scan_wellFormed (s : Strategy) (asset : String) (evs : List Deposit)
    (hw : WellFormed s.watchingDeposits) :
    WellFormed (scanDepositHistory s asset evs).1.watchingDeposits := by
  rw [scan_watchingDeposits s asset evs hw]
  exact wellFormed_filter (wellFormed_reconcileLoop asset _ _ hw) _

theorem scan_lookup (s : Strategy) (asset : String) (evs : List Deposit)
    (hw : WellFormed s.watchingDeposits) (k : String) :
    mapLookup (scanDepositHistory s asset evs).1.watchingDeposits k =
      ((sortSlice evs).foldl (keyStep asset s.lastAssetDepositTimes k)
        (mapLookup s.watchingDeposits k)).filter (fun d => !released d) := by
  rw [scan_watchingDeposits s asset evs hw,
    mapLookup_filter (wellFormed_reconcileLoop asset _ _ hw).1 (fun d => !released d),
    mapLookup_reconcileLoop]

theorem scan_mem_succeeded (s : Strategy) (asset : String) (evs : List Deposit)
    (hw : WellFormed s.watchingDeposits) (d : Deposit) :
    d ∈ (scanDepositHistory s asset evs).2 ↔
      (sortSlice evs).foldl (keyStep asset s.lastAssetDepositTimes d.TransactionID)
        (mapLookup s.watchingDeposits d.TransactionID) = some d ∧ released d = true := by
  have hw1 := wellFormed_reconcileLoop asset s.lastAssetDepositTimes (sortSlice evs) hw
  rw [scan_succeeded s asset evs hw, ← mapLookup_reconcileLoop]
  constructor
  · intro h
    obtain ⟨e, he, hed⟩ := List.mem_map.1 h
    obtain ⟨he1, he2⟩ := List.mem_filter.1 he
    obtain ⟨k, d0⟩ := e
    simp only at hed he2
    subst hed
    have hk : k = d0.TransactionID := hw1.2 _ he1
    subst hk
    exact ⟨mapLookup_of_mem hw1.1 he1, he2⟩
  · intro h
    refine List.mem_map.2 ⟨(d.TransactionID, d), List.mem_filter.2 ⟨mem_of_mapLookup h.1, h.2⟩, rfl⟩

theorem scan_succeeded_nodup (s : Strategy) (asset : String) (evs : List Deposit)
    (hw : WellFormed s.watchingDeposits) :
    ((scanDepositHistory s asset evs).2.map Deposit.TransactionID).Nodup := by
  have hw1 := wellFormed_reconcileLoop asset s.lastAssetDepositTimes (sortSlice evs) hw
  have hw2 := wellFormed_filter hw1 (fun e => released e.2)
  rw [scan_succeeded s asset evs hw, List.map_map]
  have : List.map (Deposit.TransactionID ∘ Prod.snd)
      (List.filter (fun e => released e.2)
        (reconcileLoop asset s.lastAssetDepositTimes s.watchingDeposits (sortSlice evs))) =
      List.map Prod.fst (List.filter (fun e => released e.2)
        (reconcileLoop asset s.lastAssetDepositTimes s.watchingDeposits (sortSlice evs))) := by
    apply List.map_congr_left
    intro e he
    exact (hw2.2 e he).symm
  rw [this]
  exact hw2.1

theorem scan_not_released (s : Strategy) (asset : String) (evs : List Deposit)
    (hw : WellFormed s.watchingDeposits) :
    ∀ e ∈ (scanDepositHistory s asset evs).1.watchingDeposits, released e.2 = false := by
  rw [scan_watchingDeposits s asset evs hw]
  intro e he
  simpa using (List.mem_filter.1 he).2

/-! ## The loop seen from one key -/

theorem foldl_keyStep_cases (asset : String) (lastTimes : String → Option Int) (k : String)
    (l : List Deposit) (cur : Option Deposit) :
    l.foldl (keyStep asset lastTimes k) cur = cur ∨
      ∃ e ∈ l, e.Asset = asset ∧ e.TransactionID = k ∧
        l.foldl (keyStep asset lastTimes k) cur = some e := by
  induction l generalizing cur with
  | nil => exact Or.inl rfl
  | cons x xs ih =>
    simp only [List.foldl_cons]
    rcases ih (keyStep asset lastTimes k cur x) with h | ⟨e, he, h1, h2, h3⟩
    · by_cases hc : x.Asset = asset ∧ x.TransactionID = k ∧
          (cur.isSome = true ∨ firstSightingAdds asset lastTimes x = true)
      · have hx : keyStep asset lastTimes k cur x = some x := by
          unfold keyStep; rw [if_pos hc]
        exact Or.inr ⟨x, List.mem_cons_self _ _, hc.1, hc.2.1, by rw [h, hx]⟩
      · have hx : keyStep asset lastTimes k cur x = cur := by
          unfold keyStep; rw [if_neg hc]
        exact Or.inl (by rw [h, hx])
    · exact Or.inr ⟨e, List.mem_cons_of_mem _ he, h1, h2, h3⟩

theorem foldl_keyStep_none (asset : String) (lastTimes : String → Option Int) (k : String)
    (l : List Deposit)
    (h : ∀ e ∈ l, e.Asset = asset → e.TransactionID = k →
      firstSightingAdds asset lastTimes e = false) :
    l.foldl (keyStep asset lastTimes k) none = none := by
  induction l with
  | nil => rfl
  | cons x xs ih =>
    simp only [List.foldl_cons]
    have hx : keyStep asset lastTimes k none x = none := by
      unfold keyStep
      rw [if_neg]
      rintro ⟨h1, h2, h3⟩
      have := h x (List.mem_cons_self _ _) h1 h2
      simp [this] at h3
    rw [hx]
    exact ih (fun e he => h e (List.mem_cons_of_mem _ he))


/-! ## The watermark -/

theorem updateLastTime_other (asset : String) (lastTimes : String → Option Int)
    (l : List Deposit) (b : String) (hb : b ≠ asset) :
    updateLastTime asset lastTimes l b = lastTimes b := by
  unfold updateLastTime
  cases l.getLast? with
  | none => rfl
  | some d =>
    cases lastTimes asset with
    | none => simp [hb]
    | some t => simp [hb]

theorem updateLastTime_mono (asset : String) (lastTimes : String → Option Int)
    (l : List Deposit) (b : String) (t : Int) (h : lastTimes b = some t) :
    ∃ t', updateLastTime asset lastTimes l b = some t' ∧ t ≤ t' := by
  by_cases hb : b = asset
  · subst hb
    unfold updateLastTime
    cases l.getLast? with
    | none => exact ⟨t, h, le_refl _⟩
    | some d =>
      simp only [h, if_true]
      refine ⟨later d.Time t, rfl, ?_⟩
      unfold later
      split
      · rename_i hgt; exact le_of_lt hgt
      · exact le_refl _
  · rw [updateLastTime_other asset lastTimes l b hb]
    exact ⟨t, h, le_refl _⟩

theorem updateLastTime_getLast (asset : String) (lastTimes : String → Option Int)
    (l : List Deposit) (d : Deposit) (h : l.getLast? = some d) :
    ∃ t, updateLastTime asset lastTimes l asset = some t ∧ d.Time ≤ t := by
  unfold updateLastTime
  rw [h]
  cases hl : lastTimes asset with
  | none => exact ⟨d.Time, by simp, le_refl _⟩
  | some t0 =>
    refine ⟨later d.Time t0, by simp, ?_⟩
    unfold later
    split
    · exact le_refl _
    · rename_i hgt; exact not_lt.1 hgt

theorem scan_lastTimes_ge (s : Strategy) (asset : String) (evs : List Deposit)
    (e : Deposit) (he : e ∈ evs) :
    ∃ t, (scanDepositHistory s asset evs).1.lastAssetDepositTimes asset = some t ∧ e.Time ≤ t := by
  rw [scan_lastTimes]
  rcases sortSlice_getLast evs with ⟨_, h⟩ | ⟨d, hd, _, hmax⟩
  · rw [h] at he; simp at he
  · obtain ⟨t, ht, hle⟩ := updateLastTime_getLast asset s.lastAssetDepositTimes _ d hd
    exact ⟨t, ht, le_trans (hmax e he) hle⟩

theorem firstSightingAdds_false_of_le (asset : String) (lastTimes : String → Option Int)
    (e : Deposit) (h1 : e.Status ≠ DepositPending) (h2 : e.Status ≠ DepositCredited)
    (h3 : ∃ t, lastTimes asset = some t ∧ e.Time ≤ t) :
    firstSightingAdds asset lastTimes e = false := by
  obtain ⟨t, ht, hle⟩ := h3
  unfold firstSightingAdds
  simp [h1, h2, ht, not_lt.2 hle]

theorem released_status {d : Deposit} (h : released d = true) : d.Status = DepositSuccess := by
  unfold released at h
  simp at h
  exact h.1

/-- a released record was reported by the scanned batch, under the scanned asset -/
theorem scan_succeeded_source (s : Strategy) (asset : String) (evs : List Deposit)
    (hw : WellFormed s.watchingDeposits)
    (hn : ∀ e ∈ s.watchingDeposits, released e.2 = false)
    (d : Deposit) (hd : d ∈ (scanDepositHistory s asset evs).2) :
    d ∈ evs ∧ d.Asset = asset ∧ released d = true := by
  obtain ⟨h1, h2⟩ := (scan_mem_succeeded s asset evs hw d).1 hd
  rcases foldl_keyStep_cases asset s.lastAssetDepositTimes d.TransactionID (sortSlice evs)
    (mapLookup s.watchingDeposits d.TransactionID) with h | ⟨e, he, ha, _, h⟩
  · rw [h] at h1
    have := hn _ (mem_of_mapLookup h1)
    simp [h2] at this
  · rw [h] at h1
    injection h1 with h1
    subst h1
    exact ⟨(sortSlice_perm evs).mem_iff.1 he, ha, h2⟩

/-! # Claims

## C1: no deposit is released twice -/

theorem firstSightingAdds_false_of_settled (asset : String) (lastTimes : String → Option Int)
    (e : Deposit) (h1 : e.Status ≠ DepositPending) (h2 : e.Status ≠ DepositCredited)
    (h3 : e.Status = DepositSuccess → ∃ t, lastTimes asset = some t ∧ e.Time ≤ t) :
    firstSightingAdds asset lastTimes e = false := by
  by_cases hs : e.Status = DepositSuccess
  · exact firstSightingAdds_false_of_le asset lastTimes e h1 h2 (h3 hs)
  · unfold firstSightingAdds
    simp [h1, h2, hs]

/-- The invariant behind C1, for a run that starts in any well formed state
without a releasable record: `F` are the ids that must not be released again. -/
theorem scanAll_nodup_aux (rest : List (String × List Deposit)) :
    ∀ (s : Strategy) (F : List String),
      WellFormed s.watchingDeposits →
      (∀ e ∈ s.watchingDeposits, released e.2 = false) →
      (∀ X ∈ F, mapLookup s.watchingDeposits X = none) →
      (∀ X ∈ F, ∀ sc ∈ rest, ∀ e ∈ sc.2, e.TransactionID = X → e.Asset = sc.1 →
        e.Status ≠ DepositPending ∧ e.Status ≠ DepositCredited ∧
          (e.Status = DepositSuccess →
            ∃ t, s.lastAssetDepositTimes sc.1 = some t ∧ e.Time ≤ t)) →
      SettledAfterRelease s rest →
      (releasedIDs (scanAll s rest).2).Nodup ∧
        ∀ X ∈ F, X ∉ releasedIDs (scanAll s rest).2 := by
  induction rest with
  | nil =>
    intro s F _ _ _ _ _
    simp [scanAll, releasedIDs]
  | cons sc rest ih =>
    obtain ⟨a, evs⟩ := sc
    intro s F hw hn hF hfut hsc
    -- facts about this scan
    have hFnone : ∀ X ∈ F, (sortSlice evs).foldl (keyStep a s.lastAssetDepositTimes X)
        (mapLookup s.watchingDeposits X) = none := by
      intro X hX
      rw [hF X hX]
      apply foldl_keyStep_none
      intro e he hea hek
      obtain ⟨h1, h2, h3⟩ := hfut X hX (a, evs) (List.mem_cons_self _ _) e
        ((sortSlice_perm evs).mem_iff.1 he) hek hea
      exact firstSightingAdds_false_of_settled a _ e h1 h2 h3
    have hFbatch : ∀ X ∈ F, X ∉ (scanDepositHistory s a evs).2.map Deposit.TransactionID := by
      intro X hX hmem
      obtain ⟨d, hd, hdX⟩ := List.mem_map.1 hmem
      have h1 := ((scan_mem_succeeded s a evs hw d).1 hd).1
      rw [hdX, hFnone X hX] at h1
      exact Option.noConfusion h1
    have hih := ih (scanDepositHistory s a evs).1
      (F ++ (scanDepositHistory s a evs).2.map Deposit.TransactionID)
      (scan_wellFormed s a evs hw) (scan_not_released s a evs hw)
      (by
        intro X hX
        rw [scan_lookup s a evs hw]
        rcases List.mem_append.1 hX with h | h
        · rw [hFnone X h]; rfl
        · obtain ⟨d, hd, hdX⟩ := List.mem_map.1 h
          obtain ⟨h1, h2⟩ := (scan_mem_succeeded s a evs hw d).1 hd
          rw [← hdX, h1]
          simp [Option.filter, h2])
      (by
        intro X hX sc hscm e he hek hea
        rcases List.mem_append.1 hX with h | h
        · obtain ⟨h1, h2, h3⟩ := hfut X h sc (List.mem_cons_of_mem _ hscm) e he hek hea
          refine ⟨h1, h2, fun hs => ?_⟩
          obtain ⟨t, ht, hle⟩ := h3 hs
          obtain ⟨t', ht', hle'⟩ := updateLastTime_mono a s.lastAssetDepositTimes
            (sortSlice evs) sc.1 t ht
          exact ⟨t', by rw [scan_lastTimes]; exact ht', le_trans hle hle'⟩
        · obtain ⟨d, hd, hdX⟩ := List.mem_map.1 h
          obtain ⟨hdevs, hda, _⟩ := scan_succeeded_source s a evs hw hn d hd
          obtain ⟨g1, g2, g3⟩ := hsc.1 d hd sc hscm e he (by rw [hek, hdX]) hea
          refine ⟨g1, g2, fun hs => ?_⟩
          obtain ⟨g4, g5⟩ := g3 hs
          obtain ⟨t, ht, hle⟩ := scan_lastTimes_ge s a evs d hdevs
          have hsa : sc.1 = a := by rw [← hea, g4, hda]
          exact ⟨t, by rw [hsa]; exact ht, le_trans g5 hle⟩)
      hsc.2
    obtain ⟨ih1, ih2⟩ := hih
    have hsplit : releasedIDs (scanAll s ((a, evs) :: rest)).2 =
        (scanDepositHistory s a evs).2.map Deposit.TransactionID ++
          releasedIDs (scanAll (scanDepositHistory s a evs).1 rest).2 := by
      simp [scanAll, releasedIDs]
    rw [hsplit]
    refine ⟨?_, ?_⟩
    · rw [List.nodup_append]
      refine ⟨scan_succeeded_nodup s a evs hw, ih1, ?_⟩
      intro X hX1 hX2
      exact ih2 X (List.mem_append_right _ hX1) hX2
    · intro X hX hmem
      rcases List.mem_append.1 hmem with h | h
      · exact hFbatch X hX h
      · exact ih2 X (List.mem_append_left _ hX) h

/-- C1 (as amended): in every run of scans from the empty state in which the
source leaves released transactions alone (once a scan has released a
transaction id, no later batch reports that id under the asset then scanned as
pending or credited, nor as success under another asset than the released
record or with a later time than it), every transaction id occurs at most
once in all released batches together: in at most one batch, and once in
it. -/
theorem C1_released_at_most_once (assets : List String)
    (scans : List (String × List Deposit))
    (h : SettledAfterRelease (Strategy.init assets) scans) :
    (releasedIDs (scanAll (Strategy.init assets) scans).2).Nodup :=
  (scanAll_nodup_aux scans (Strategy.init assets) [] wellFormed_nil
    (by intro e he; cases he) (by intro X hX; cases hX) (by intro X hX; cases hX) h).1

/-- C1 witness: the run pending at time 1, success at time 2, success at
time 2 again releases `tx1` once, in the second scan. The run success (not
taken up, the asset has no watermark yet), pending, success, rejected meets
the condition as well and releases `tx1` once. -/
theorem C1_released_at_most_once_witness :
    SettledAfterRelease (Strategy.init ["USDT"]) steadyRun ∧
      (scanAll (Strategy.init ["USDT"]) steadyRun).2 = [[], [tx1 2 DepositSuccess], []] ∧
      (releasedIDs (scanAll (Strategy.init ["USDT"]) steadyRun).2).Nodup ∧
      SettledAfterRelease (Strategy.init ["USDT"]) lateStartRun ∧
      (scanAll (Strategy.init ["USDT"]) lateStartRun).2 = [[], [], [tx1 3 DepositSuccess], []] :=
  ⟨by decide, by decide, C1_released_at_most_once ["USDT"] steadyRun (by decide),
    by decide, by decide⟩

/-- C1 counterexample: with arbitrary batches a transaction id is released in
two scans. When the source reports `tx1` pending, success, pending, success,
the second and the fourth scan both release it, and so they do when the third
report is credited; when the source reports `tx1` as success under a later
time, or under another asset, after its release, it is released again as
well. -/
theorem C1_counterexample :
    (scanAll (Strategy.init ["USDT"]) regressRun).2 =
        [[], [tx1 1 DepositSuccess], [], [tx1 1 DepositSuccess]] ∧
      ¬ (releasedIDs (scanAll (Strategy.init ["USDT"]) regressRun).2).Nodup ∧
      (scanAll (Strategy.init ["USDT"]) recreditedRun).2 =
        [[], [tx1 1 DepositSuccess], [], [tx1 1 DepositSuccess]] ∧
      (scanAll (Strategy.init ["USDT"]) retimedRun).2 =
        [[], [tx1 1 DepositSuccess], [tx1 2 DepositSuccess]] ∧
      ¬ (releasedIDs (scanAll (Strategy.init ["USDT"]) retimedRun).2).Nodup ∧
      releasedIDs (scanAll (Strategy.init ["USDT", "BTC"]) reassignedRun).2 = ["tx1", "tx1"] := by
  decide

/-! ## C2: scanning the same batch twice -/

theorem scanAll_invariant (scans : List (String × List Deposit)) :
    ∀ s : Strategy, WellFormed s.watchingDeposits →
      (∀ e ∈ s.watchingDeposits, released e.2 = false) →
      WellFormed (scanAll s scans).1.watchingDeposits ∧
        ∀ e ∈ (scanAll s scans).1.watchingDeposits, released e.2 = false := by
  induction scans with
  | nil => intro s hw hn; exact ⟨hw, hn⟩
  | cons sc rest ih =>
    intro s hw hn
    exact ih _ (scan_wellFormed s sc.1 sc.2 hw) (scan_not_released s sc.1 sc.2 hw)

theorem reachable_invariant {s : Strategy} (h : Reachable s) :
    WellFormed s.watchingDeposits ∧ ∀ e ∈ s.watchingDeposits, released e.2 = false := by
  obtain ⟨assets, scans, rfl⟩ := h
  exact scanAll_invariant scans (Strategy.init assets) wellFormed_nil (by intro e he; cases he)

theorem reachable_init (assets : List String) : Reachable (Strategy.init assets) :=
  ⟨assets, [], rfl⟩

theorem scanAll_append (l1 l2 : List (String × List Deposit)) (s : Strategy) :
    (scanAll s (l1 ++ l2)).1 = (scanAll (scanAll s l1).1 l2).1 := by
  induction l1 generalizing s with
  | nil => rfl
  | cons sc rest ih =>
    simp only [List.cons_append, scanAll]
    exact ih _

theorem reachable_scan {s : Strategy} (h : Reachable s) (asset : String) (evs : List Deposit) :
    Reachable (scanDepositHistory s asset evs).1 := by
  obtain ⟨assets, scans, rfl⟩ := h
  refine ⟨assets, scans ++ [(asset, evs)], ?_⟩
  rw [scanAll_append]
  rfl

theorem scan_mem_ids (s : Strategy) (asset : String) (evs : List Deposit)
    (hw : WellFormed s.watchingDeposits) (k : String) :
    k ∈ (scanDepositHistory s asset evs).2.map Deposit.TransactionID ↔
      ∃ d, (sortSlice evs).foldl (keyStep asset s.lastAssetDepositTimes k)
        (mapLookup s.watchingDeposits k) = some d ∧ released d = true := by
  constructor
  · intro h
    obtain ⟨d, hd, hdk⟩ := List.mem_map.1 h
    subst hdk
    exact ⟨d, (scan_mem_succeeded s asset evs hw d).1 hd⟩
  · rintro ⟨d, h1, h2⟩
    have hw1 := wellFormed_reconcileLoop asset s.lastAssetDepositTimes (sortSlice evs) hw
    have hk : k = d.TransactionID := by
      rw [← mapLookup_reconcileLoop] at h1
      exact hw1.2 _ (mem_of_mapLookup h1)
    subst hk
    exact List.mem_map.2 ⟨d, (scan_mem_succeeded s asset evs hw d).2 ⟨h1, h2⟩, rfl⟩

theorem reportsOf_cons (asset k : String) (x : Deposit) (xs : List Deposit) :
    reportsOf asset k (x :: xs) =
      if x.Asset = asset ∧ x.TransactionID = k then x :: reportsOf asset k xs
      else reportsOf asset k xs := by
  unfold reportsOf
  by_cases h : x.Asset = asset ∧ x.TransactionID = k
  · simp [List.filter_cons, h]
  · rw [if_neg h, List.filter_cons]
    simp [h]

theorem getLast?_cons_getD {α : Type} (x : α) (l : List α) :
    (x :: l).getLast? = some (l.getLast?.getD x) := by
  induction l generalizing x with
  | nil => rfl
  | cons y ys ih =>
    rw [List.getLast?_cons_cons, ih]
    simp [ih]

theorem foldl_keyStep_some (asset : String) (lastTimes : String → Option Int) (k : String)
    (l : List Deposit) (x : Deposit) :
    l.foldl (keyStep asset lastTimes k) (some x) =
      some ((reportsOf asset k l).getLast?.getD x) := by
  induction l generalizing x with
  | nil => rfl
  | cons y ys ih =>
    rw [List.foldl_cons, reportsOf_cons]
    by_cases h : y.Asset = asset ∧ y.TransactionID = k
    · have hy : keyStep asset lastTimes k (some x) y = some y := by
        unfold keyStep
        rw [if_pos ⟨h.1, h.2, Or.inl rfl⟩]
      rw [hy, ih, if_pos h, getLast?_cons_getD]
      rfl
    · have hy : keyStep asset lastTimes k (some x) y = some x := by
        unfold keyStep
        rw [if_neg (fun hc => h ⟨hc.1, hc.2.1⟩)]
      rw [hy, ih, if_neg h]

theorem foldl_keyStep_of_adds (asset : String) (lastTimes : String → Option Int) (k : String)
    (l : List Deposit)
    (h : ∃ e ∈ l, e.Asset = asset ∧ e.TransactionID = k ∧
      firstSightingAdds asset lastTimes e = true) :
    l.foldl (keyStep asset lastTimes k) none = (reportsOf asset k l).getLast? ∧
      (reportsOf asset k l).getLast? ≠ none := by
  induction l with
  | nil => obtain ⟨e, he, _⟩ := h; cases he
  | cons y ys ih =>
    rw [List.foldl_cons, reportsOf_cons]
    by_cases hy : y.Asset = asset ∧ y.TransactionID = k
    · rw [if_pos hy, getLast?_cons_getD]
      refine ⟨?_, by simp⟩
      by_cases hadd : firstSightingAdds asset lastTimes y = true
      · have : keyStep asset lastTimes k none y = some y := by
          unfold keyStep
          rw [if_pos ⟨hy.1, hy.2, Or.inr hadd⟩]
        rw [this, foldl_keyStep_some]
      · have : keyStep asset lastTimes k none y = none := by
          unfold keyStep
          rw [if_neg]
          rintro ⟨_, _, h3⟩
          rcases h3 with h3 | h3
          · simp at h3
          · exact hadd h3
        rw [this]
        have hex : ∃ e ∈ ys, e.Asset = asset ∧ e.TransactionID = k ∧
            firstSightingAdds asset lastTimes e = true := by
          obtain ⟨e, he, h1, h2, h3⟩ := h
          rcases List.mem_cons.1 he with heq | hmem
          · subst heq; exact absurd h3 hadd
          · exact ⟨e, hmem, h1, h2, h3⟩
        obtain ⟨i1, i2⟩ := ih hex
        rw [i1]
        cases hl : (reportsOf asset k ys).getLast? with
        | none => exact absurd hl i2
        | some z => rfl
    · rw [if_neg hy]
      have : keyStep asset lastTimes k none y = none := by
        unfold keyStep
        rw [if_neg (fun hc => hy ⟨hc.1, hc.2.1⟩)]
      rw [this]
      apply ih
      obtain ⟨e, he, h1, h2, h3⟩ := h
      rcases List.mem_cons.1 he with heq | hmem
      · subst heq; exact absurd ⟨h1, h2⟩ hy
      · exact ⟨e, hmem, h1, h2, h3⟩

theorem foldl_keyStep_shape (asset : String) (lastTimes : String → Option Int) (k : String)
    (l : List Deposit) (cur : Option Deposit) (d : Deposit)
    (h : l.foldl (keyStep asset lastTimes k) cur = some d) :
    ((reportsOf asset k l).getLast? = none ∧ cur = some d) ∨
      (reportsOf asset k l).getLast? = some d := by
  cases cur with
  | some x =>
    rw [foldl_keyStep_some] at h
    cases hl : (reportsOf asset k l).getLast? with
    | none =>
      rw [hl] at h
      exact Or.inl ⟨rfl, h⟩
    | some y =>
      rw [hl] at h
      exact Or.inr h
  | none =>
    by_cases hex : ∃ e ∈ l, e.Asset = asset ∧ e.TransactionID = k ∧
        firstSightingAdds asset lastTimes e = true
    · rw [(foldl_keyStep_of_adds asset lastTimes k l hex).1] at h
      exact Or.inr h
    · rw [foldl_keyStep_none] at h
      · exact Option.noConfusion h
      · intro e he h1 h2
        by_contra h3
        exact hex ⟨e, he, h1, h2, by simpa using h3⟩

theorem firstSightingAdds_of_status (asset : String) (lastTimes : String → Option Int)
    (e : Deposit) (h : e.Status = DepositPending ∨ e.Status = DepositCredited) :
    firstSightingAdds asset lastTimes e = true := by
  unfold firstSightingAdds
  rcases h with h | h <;> simp [h]

theorem firstSightingAdds_after_scan (s : Strategy) (asset : String) (evs : List Deposit)
    (e : Deposit) (he : e ∈ evs) :
    firstSightingAdds asset (scanDepositHistory s asset evs).1.lastAssetDepositTimes e = true ↔
      (e.Status = DepositPending ∨ e.Status = DepositCredited) := by
  constructor
  · intro h
    by_contra hc
    have h1 : e.Status ≠ DepositPending := fun h1 => hc (Or.inl h1)
    have h2 : e.Status ≠ DepositCredited := fun h2 => hc (Or.inr h2)
    rw [firstSightingAdds_false_of_le asset _ e h1 h2 (scan_lastTimes_ge s asset evs e he)] at h
    exact Bool.noConfusion h
  · exact firstSightingAdds_of_status asset _ e

/-- The per key core of C2: the cell of key `k` after the loop of the first
scan (`c1`) and after the loop of the second scan of the same batch. -/
theorem rescan_cell (s : Strategy) (asset : String) (evs : List Deposit) (k : String)
    (hn : ∀ d, mapLookup s.watchingDeposits k = some d → released d = false)
    (c1 : Option Deposit)
    (hc1 : (sortSlice evs).foldl (keyStep asset s.lastAssetDepositTimes k)
      (mapLookup s.watchingDeposits k) = c1) :
    ((sortSlice evs).foldl
        (keyStep asset (scanDepositHistory s asset evs).1.lastAssetDepositTimes k)
        (c1.filter (fun d => !released d))).filter (fun d => !released d) =
      c1.filter (fun d => !released d) ∧
    ((∃ d, c1 = some d ∧ released d = true) →
      ((∃ d, (sortSlice evs).foldl
          (keyStep asset (scanDepositHistory s asset evs).1.lastAssetDepositTimes k)
          (c1.filter (fun d => !released d)) = some d ∧ released d = true) ↔
        ∃ e ∈ evs, e.Asset = asset ∧ e.TransactionID = k ∧
          (e.Status = DepositPending ∨ e.Status = DepositCredited))) := by
  have hmem : ∀ e, e ∈ sortSlice evs ↔ e ∈ evs := fun e => (sortSlice_perm evs).mem_iff
  cases hc : c1 with
  | none =>
    rw [hc] at hc1
    have hnone : (sortSlice evs).foldl
        (keyStep asset (scanDepositHistory s asset evs).1.lastAssetDepositTimes k) none = none := by
      apply foldl_keyStep_none
      intro e he h1 h2
      by_contra h3
      have h4 : firstSightingAdds asset (scanDepositHistory s asset evs).1.lastAssetDepositTimes e
          = true := by simpa using h3
      have h5 := (firstSightingAdds_after_scan s asset evs e ((hmem e).1 he)).1 h4
      have h6 := firstSightingAdds_of_status asset s.lastAssetDepositTimes e h5
      cases hl : mapLookup s.watchingDeposits k with
      | none =>
        rw [hl, (foldl_keyStep_of_adds asset s.lastAssetDepositTimes k (sortSlice evs)
          ⟨e, he, h1, h2, h6⟩).1] at hc1
        exact (foldl_keyStep_of_adds asset s.lastAssetDepositTimes k (sortSlice evs)
          ⟨e, he, h1, h2, h6⟩).2 hc1
      | some x =>
        rw [hl, foldl_keyStep_some] at hc1
        exact Option.noConfusion hc1
    refine ⟨?_, ?_⟩
    · simp only [Option.filter]
      rw [hnone]
    · rintro ⟨d, hd, _⟩
      exact Option.noConfusion hd
  | some d =>
    rw [hc] at hc1
    have hshape := foldl_keyStep_shape asset s.lastAssetDepositTimes k (sortSlice evs) _ d hc1
    by_cases hr : released d = true
    · have hfil : (some d : Option Deposit).filter (fun d => !released d) = none := by
        simp [Option.filter, hr]
      have hlast : (reportsOf asset k (sortSlice evs)).getLast? = some d := by
        rcases hshape with ⟨_, h2⟩ | h
        · have := hn d h2
          rw [hr] at this
          exact Bool.noConfusion this
        · exact h
      rw [hfil]
      by_cases hex : ∃ e ∈ sortSlice evs, e.Asset = asset ∧ e.TransactionID = k ∧
          firstSightingAdds asset (scanDepositHistory s asset evs).1.lastAssetDepositTimes e = true
      · have h2 := (foldl_keyStep_of_adds asset
          (scanDepositHistory s asset evs).1.lastAssetDepositTimes k (sortSlice evs) hex).1
        rw [h2, hlast]
        refine ⟨by simp [Option.filter, hr], fun _ => ?_⟩
        constructor
        · intro _
          obtain ⟨e, he, h3, h4, h5⟩ := hex
          exact ⟨e, (hmem e).1 he, h3, h4,
            (firstSightingAdds_after_scan s asset evs e ((hmem e).1 he)).1 h5⟩
        · intro _
          exact ⟨d, rfl, hr⟩
      · have h2 : (sortSlice evs).foldl
            (keyStep asset (scanDepositHistory s asset evs).1.lastAssetDepositTimes k) none
            = none := by
          apply foldl_keyStep_none
          intro e he h3 h4
          by_contra h5
          exact hex ⟨e, he, h3, h4, by simpa using h5⟩
        rw [h2]
        refine ⟨rfl, fun _ => ?_⟩
        constructor
        · rintro ⟨d', hd', _⟩
          exact Option.noConfusion hd'
        · rintro ⟨e, he, h3, h4, h5⟩
          exact absurd ⟨e, (hmem e).2 he, h3, h4,
            (firstSightingAdds_after_scan s asset evs e he).2 h5⟩ hex
    · have hr2 : released d = false := by simpa using hr
      have hfil : (some d : Option Deposit).filter (fun d => !released d) = some d := by
        simp [Option.filter, hr2]
      rw [hfil, foldl_keyStep_some]
      have hd : (reportsOf asset k (sortSlice evs)).getLast?.getD d = d := by
        rcases hshape with ⟨h1, _⟩ | h
        · rw [h1]; rfl
        · rw [h]; rfl
      rw [hd, hfil]
      refine ⟨rfl, ?_⟩
      rintro ⟨d', hd', hr'⟩
      injection hd' with hd'
      subst hd'
      exact absurd hr' hr

/-- C2 (as amended): in every reachable state, scanning a batch for an asset
and then scanning the same batch again leaves the watchlist after the second
scan exactly as it was after the first (the same records, hence the same set
of transaction ids), and a transaction id released by the first scan is
released again by the second exactly when the batch holds a pending or credited
record of the scanned asset for that id. -/
theorem C2_rescan_same_batch (s : Strategy) (hs : Reachable s) (asset : String)
    (evs : List Deposit) :
    (∀ k, mapLookup
        (scanDepositHistory (scanDepositHistory s asset evs).1 asset evs).1.watchingDeposits k =
      mapLookup (scanDepositHistory s asset evs).1.watchingDeposits k) ∧
    (∀ k ∈ (scanDepositHistory s asset evs).2.map Deposit.TransactionID,
      (k ∈ (scanDepositHistory (scanDepositHistory s asset evs).1 asset evs).2.map
          Deposit.TransactionID ↔
        ∃ e ∈ evs, e.Asset = asset ∧ e.TransactionID = k ∧
          (e.Status = DepositPending ∨ e.Status = DepositCredited))) := by
  obtain ⟨hw, hn⟩ := reachable_invariant hs
  have hw1 := scan_wellFormed s asset evs hw
  have hcell : ∀ k, _ := fun k => rescan_cell s asset evs k
    (fun d hd => hn _ (mem_of_mapLookup hd)) _ rfl
  refine ⟨?_, ?_⟩
  · intro k
    rw [scan_lookup _ asset evs hw1, scan_lookup s asset evs hw]
    exact (hcell k).1
  · intro k hk
    rw [scan_mem_ids _ asset evs hw1, scan_lookup s asset evs hw]
    exact (hcell k).2 ((scan_mem_ids s asset evs hw k).1 hk)

/-- C2 witness: from the empty state on the batch pending then success of
`tx1`; the id is released by the first scan. -/
theorem C2_rescan_same_batch_witness :
    Reachable (Strategy.init ["USDT"]) ∧
    "tx1" ∈ (scanDepositHistory (Strategy.init ["USDT"]) "USDT" twoStageBatch).2.map
      Deposit.TransactionID ∧
    (∀ k, mapLookup (scanDepositHistory (scanDepositHistory (Strategy.init ["USDT"]) "USDT"
        twoStageBatch).1 "USDT" twoStageBatch).1.watchingDeposits k =
      mapLookup (scanDepositHistory (Strategy.init ["USDT"]) "USDT"
        twoStageBatch).1.watchingDeposits k) :=
  ⟨reachable_init _, by decide,
    (C2_rescan_same_batch (Strategy.init ["USDT"]) (reachable_init _) "USDT" twoStageBatch).1⟩

/-- C2 counterexample: from the empty state, the batch that reports `tx1`
pending at time 1 and success at time 2 releases `tx1` in the first scan and
releases it again when the same batch is scanned a second time. -/
theorem C2_counterexample :
    (scanDepositHistory (Strategy.init ["USDT"]) "USDT" twoStageBatch).2 =
        [tx1 2 DepositSuccess] ∧
      (scanDepositHistory (scanDepositHistory (Strategy.init ["USDT"]) "USDT"
        twoStageBatch).1 "USDT" twoStageBatch).2 = [tx1 2 DepositSuccess] := by
  decide

/-! ## C3: watermark gating of a first sighted success record -/

theorem reconcileLoop_append (asset : String) (lastTimes : String → Option Int)
    (w : Watchlist) (l1 l2 : List Deposit) :
    reconcileLoop asset lastTimes w (l1 ++ l2) =
      reconcileLoop asset lastTimes (reconcileLoop asset lastTimes w l1) l2 := by
  unfold reconcileLoop
  rw [List.foldl_append]

theorem firstSightingAdds_success (asset : String) (lastTimes : String → Option Int)
    (e : Deposit) (h : e.Status = DepositSuccess) :
    firstSightingAdds asset lastTimes e = true ↔
      ∃ t, lastTimes asset = some t ∧ t < e.Time := by
  have h1 : DepositSuccess ≠ DepositCredited := by decide
  have h2 : DepositSuccess ≠ DepositPending := by decide
  unfold firstSightingAdds
  cases hl : lastTimes asset with
  | none => simp [h, h1, h2]
  | some t => simp [h, h1, h2]

theorem option_filter_eq_some {α : Type} (p : α → Bool) (c : Option α) (d : α)
    (h : c.filter p = some d) : c = some d ∧ p d = true := by
  cases c with
  | none => simp [Option.filter] at h
  | some x =>
    simp only [Option.filter] at h
    split at h
    · rename_i hp
      injection h with h
      subst h
      exact ⟨rfl, hp⟩
    · exact Option.noConfusion h

/-- C3: in a scan of asset `a` the sorted batch is `pre ++ e :: post`, with
`e` a success record of asset `a` whose `TransactionID` is not tracked when
the loop reaches it. Then the loop body stores `e` if and only if
`lastAssetDepositTimes[a]` had a value before the scan and the time of `e` is
strictly after it. When there is no watermark (first scan of the asset) or the
time of `e` is not after it, the body leaves the watchlist as it was, and
whatever the scan ends up watching or releasing under that id is a later
report of the batch (a record of `post`), never this sighting of `e`; so when
no later record of the batch reports the id, it is neither watched nor
released. -/
theorem C3_watermark_gating (s : Strategy) (hw : WellFormed s.watchingDeposits)
    (asset : String) (evs pre post : List Deposit) (e : Deposit)
    (hsplit : sortSlice evs = pre ++ e :: post)
    (hasset : e.Asset = asset) (hstatus : e.Status = DepositSuccess)
    (huntracked : mapLookup
      (reconcileLoop asset s.lastAssetDepositTimes s.watchingDeposits pre)
      e.TransactionID = none) :
    (mapLookup (reconcileLoop asset s.lastAssetDepositTimes s.watchingDeposits (pre ++ [e]))
        e.TransactionID = some e ↔
      ∃ t, s.lastAssetDepositTimes asset = some t ∧ t < e.Time) ∧
    ((s.lastAssetDepositTimes asset = none ∨
        ∃ t, s.lastAssetDepositTimes asset = some t ∧ e.Time ≤ t) →
      reconcileLoop asset s.lastAssetDepositTimes s.watchingDeposits (pre ++ [e]) =
        reconcileLoop asset s.lastAssetDepositTimes s.watchingDeposits pre ∧
      (∀ d, (mapLookup (scanDepositHistory s asset evs).1.watchingDeposits e.TransactionID
            = some d ∨
          (d ∈ (scanDepositHistory s asset evs).2 ∧ d.TransactionID = e.TransactionID)) →
        d ∈ post ∧ d.Asset = asset ∧ d.TransactionID = e.TransactionID) ∧
      ((∀ e' ∈ post, e'.Asset = asset → e'.TransactionID ≠ e.TransactionID) →
        mapLookup (scanDepositHistory s asset evs).1.watchingDeposits e.TransactionID = none ∧
        ∀ d ∈ (scanDepositHistory s asset evs).2, d.TransactionID ≠ e.TransactionID)) := by
  have hadds := firstSightingAdds_success asset s.lastAssetDepositTimes e hstatus
  have hstep : reconcileLoop asset s.lastAssetDepositTimes s.watchingDeposits (pre ++ [e]) =
      reconcileStep asset s.lastAssetDepositTimes
        (reconcileLoop asset s.lastAssetDepositTimes s.watchingDeposits pre) e := by
    rw [reconcileLoop_append]; rfl
  refine ⟨?_, ?_⟩
  · rw [hstep, mapLookup_reconcileStep, huntracked]
    unfold keyStep
    constructor
    · intro h
      by_cases hc : e.Asset = asset ∧ e.TransactionID = e.TransactionID ∧
          ((none : Option Deposit).isSome = true ∨
            firstSightingAdds asset s.lastAssetDepositTimes e = true)
      · rcases hc.2.2 with h1 | h1
        · simp at h1
        · exact hadds.1 h1
      · rw [if_neg hc] at h
        exact Option.noConfusion h
    · intro h
      rw [if_pos ⟨hasset, rfl, Or.inr (hadds.2 h)⟩]
  · intro hgate
    have hno : ¬ firstSightingAdds asset s.lastAssetDepositTimes e = true := by
      intro h
      obtain ⟨t, ht, hlt⟩ := hadds.1 h
      rcases hgate with h1 | ⟨t', ht', hle⟩
      · rw [h1] at ht; exact Option.noConfusion ht
      · rw [ht'] at ht
        injection ht with ht
        subst ht
        exact absurd hlt (not_lt.2 hle)
    have hunchanged : reconcileLoop asset s.lastAssetDepositTimes s.watchingDeposits
        (pre ++ [e]) = reconcileLoop asset s.lastAssetDepositTimes s.watchingDeposits pre := by
      rw [hstep, reconcileStep_eq, if_neg]
      rintro ⟨_, h | h⟩
      · rw [huntracked] at h; simp at h
      · exact hno h
    have hcell : (sortSlice evs).foldl (keyStep asset s.lastAssetDepositTimes e.TransactionID)
        (mapLookup s.watchingDeposits e.TransactionID) =
        post.foldl (keyStep asset s.lastAssetDepositTimes e.TransactionID) none := by
      have h1 : pre ++ e :: post = (pre ++ [e]) ++ post := by simp
      rw [hsplit, h1, List.foldl_append, ← mapLookup_reconcileLoop, hunchanged, huntracked]
    have hsrc : ∀ d, post.foldl (keyStep asset s.lastAssetDepositTimes e.TransactionID) none
        = some d → d ∈ post ∧ d.Asset = asset ∧ d.TransactionID = e.TransactionID := by
      intro d hd
      rcases foldl_keyStep_cases asset s.lastAssetDepositTimes e.TransactionID post none with
        h | ⟨e', he', h1, h2, h3⟩
      · rw [h] at hd; exact Option.noConfusion hd
      · rw [h3] at hd
        injection hd with hd
        subst hd
        exact ⟨he', h1, h2⟩
    have hall : ∀ d, (mapLookup (scanDepositHistory s asset evs).1.watchingDeposits
          e.TransactionID = some d ∨
        (d ∈ (scanDepositHistory s asset evs).2 ∧ d.TransactionID = e.TransactionID)) →
        d ∈ post ∧ d.Asset = asset ∧ d.TransactionID = e.TransactionID := by
      intro d hd
      rcases hd with h | ⟨h1, h2⟩
      · rw [scan_lookup s asset evs hw, hcell] at h
        exact hsrc d (option_filter_eq_some _ _ d h).1
      · have h3 := ((scan_mem_succeeded s asset evs hw d).1 h1).1
        rw [h2, hcell] at h3
        exact hsrc d h3
    refine ⟨hunchanged, hall, ?_⟩
    intro hpost
    refine ⟨?_, ?_⟩
    · cases hl : mapLookup (scanDepositHistory s asset evs).1.watchingDeposits e.TransactionID with
      | none => rfl
      | some d =>
        obtain ⟨h1, h2, h3⟩ := hall d (Or.inl hl)
        exact absurd h3 (hpost d h1 h2)
    · intro d hd hdk
      obtain ⟨h1, h2, h3⟩ := hall d (Or.inr ⟨hd, hdk⟩)
      exact hpost d h1 h2 h3

/-- C3 witness: the first scan of `USDT` sees `tx1` as success; it is ignored. -/
theorem C3_watermark_gating_witness :
    mapLookup (scanDepositHistory (Strategy.init ["USDT"]) "USDT"
        [tx1 1 DepositSuccess]).1.watchingDeposits "tx1" = none ∧
      ∀ d ∈ (scanDepositHistory (Strategy.init ["USDT"]) "USDT" [tx1 1 DepositSuccess]).2,
        d.TransactionID ≠ "tx1" :=
  ((C3_watermark_gating (Strategy.init ["USDT"]) wellFormed_nil "USDT"
    [tx1 1 DepositSuccess] [] [] (tx1 1 DepositSuccess) (by decide) (by decide) (by decide)
    (by decide)).2 (Or.inl rfl)).2.2 (by intro e he; cases he)

/-! ## C4: the confirmation gate -/

theorem released_iff (d : Deposit) :
    released d = true ↔
      d.Status = DepositSuccess ∧
        ¬ (d.GetCurrentConfirmation.2 > 0 ∧ d.UnlockConfirm > 0 ∧
          d.GetCurrentConfirmation.1 < d.UnlockConfirm) := by
  unfold released unlockNotReached
  rw [Bool.and_eq_true, decide_eq_true_eq, Bool.not_eq_true', decide_eq_false_iff_not]

/-- C4: at the end of a scan the released batch holds exactly the records
that the watchlist holds after the loop over the batch and that have status
success and do not satisfy `required > 0 ∧ UnlockConfirm > 0 ∧ current <
UnlockConfirm`; each such record is in the batch once; exactly these records
are gone from the watchlist and every other record is still there. -/
theorem C4_confirmation_gate (s : Strategy) (hw : WellFormed s.watchingDeposits)
    (asset : String) (evs : List Deposit) :
    (∀ d, d ∈ (scanDepositHistory s asset evs).2 ↔
      (∃ k, mapLookup (reconcileLoop asset s.lastAssetDepositTimes s.watchingDeposits
          (sortSlice evs)) k = some d) ∧
        d.Status = DepositSuccess ∧
        ¬ (d.GetCurrentConfirmation.2 > 0 ∧ d.UnlockConfirm > 0 ∧
          d.GetCurrentConfirmation.1 < d.UnlockConfirm)) ∧
    (scanDepositHistory s asset evs).2.Nodup ∧
    (∀ k d, mapLookup (scanDepositHistory s asset evs).1.watchingDeposits k = some d ↔
      mapLookup (reconcileLoop asset s.lastAssetDepositTimes s.watchingDeposits
          (sortSlice evs)) k = some d ∧
        ¬ (d.Status = DepositSuccess ∧
          ¬ (d.GetCurrentConfirmation.2 > 0 ∧ d.UnlockConfirm > 0 ∧
            d.GetCurrentConfirmation.1 < d.UnlockConfirm))) := by
  have hw1 := wellFormed_reconcileLoop asset s.lastAssetDepositTimes (sortSlice evs) hw
  refine ⟨?_, ?_, ?_⟩
  · intro d
    rw [scan_mem_succeeded s asset evs hw d, ← mapLookup_reconcileLoop, released_iff]
    constructor
    · rintro ⟨h1, h2⟩
      exact ⟨⟨_, h1⟩, h2⟩
    · rintro ⟨⟨k, h1⟩, h2⟩
      have hk : k = d.TransactionID := hw1.2 _ (mem_of_mapLookup h1)
      subst hk
      exact ⟨h1, h2⟩
  · exact List.Nodup.of_map _ (scan_succeeded_nodup s asset evs hw)
  · intro k d
    rw [scan_lookup s asset evs hw, ← mapLookup_reconcileLoop, ← released_iff]
    constructor
    · intro h
      obtain ⟨h1, h2⟩ := option_filter_eq_some _ _ d h
      exact ⟨h1, by simpa using h2⟩
    · rintro ⟨h1, h2⟩
      rw [h1]
      have h3 : released d = false := by simpa using h2
      simp [Option.filter, h3]

/-- C4 witness: `tx1` pending is watched, then reported as success with
confirmation `16/16` and threshold 16; the second scan releases it. -/
theorem C4_confirmation_gate_witness :
    WellFormed (scanDepositHistory (Strategy.init ["USDT"]) "USDT"
        [tx1 1 DepositPending]).1.watchingDeposits ∧
      (scanDepositHistory (scanDepositHistory (Strategy.init ["USDT"]) "USDT"
        [tx1 1 DepositPending]).1 "USDT" [tx1Confirm "16/16" 16]).2.Nodup :=
  ⟨scan_wellFormed _ _ _ wellFormed_nil,
    (C4_confirmation_gate (scanDepositHistory (Strategy.init ["USDT"]) "USDT"
      [tx1 1 DepositPending]).1 (scan_wellFormed _ _ _ wellFormed_nil) "USDT"
      [tx1Confirm "16/16" 16]).2.1⟩

/-! ## C5: confirmation texts that are empty or malformed -/

theorem splitSlash_cons_of_ne (c : Char) (cs : List Char) (hc : c ≠ '/') :
    splitSlash (c :: cs) =
      match splitSlash cs with
      | [] => [[c]]
      | p :: ps => (c :: p) :: ps := by
  simp only [splitSlash, hc, if_false]

theorem splitSlash_no_slash (l : List Char) (h : '/' ∉ l) : splitSlash l = [l] := by
  induction l with
  | nil => rfl
  | cons c cs ih =>
    have hc : c ≠ '/' := fun hc => h (hc ▸ List.mem_cons_self _ _)
    have hcs : '/' ∉ cs := fun hm => h (List.mem_cons_of_mem _ hm)
    simp only [splitSlash, hc, if_false, ih hcs]

theorem splitSlash_append (p t : List Char) (h : '/' ∉ p) :
    splitSlash (p ++ '/' :: t) = p :: splitSlash t := by
  induction p with
  | nil => simp [splitSlash]
  | cons c cs ih =>
    have hc : c ≠ '/' := fun hc => h (hc ▸ List.mem_cons_self _ _)
    have hcs : '/' ∉ cs := fun hm => h (List.mem_cons_of_mem _ hm)
    rw [List.cons_append, splitSlash_cons_of_ne c _ hc, ih hcs]

theorem parseDigits_some (ds : List Char) (n m : Nat) (h : parseDigits ds n = some m) :
    ∀ c ∈ ds, isDecimalDigit c = true := by
  induction ds generalizing n with
  | nil => intro c hc; cases hc
  | cons x xs ih =>
    unfold parseDigits at h
    by_cases hx : isDecimalDigit x = true
    · rw [if_pos hx] at h
      intro c hc
      rcases List.mem_cons.1 hc with h1 | h1
      · rw [h1]; exact hx
      · exact ih _ h c h1
    · rw [if_neg hx] at h
      exact Option.noConfusion h

theorem parseDigits_le (l : List Char) (n m : Nat) (h : parseDigits l n = some m) : n ≤ m := by
  induction l generalizing n with
  | nil =>
    simp only [parseDigits] at h
    injection h with h
    omega
  | cons x xs ih =>
    unfold parseDigits at h
    by_cases hx : isDecimalDigit x = true
    · rw [if_pos hx] at h
      have := ih _ h
      omega
    · rw [if_neg hx] at h
      exact Option.noConfusion h

theorem parseDigits_bound (l : List Char) (n m : Nat) (h : parseDigits l n = some m) :
    m + 1 ≤ (n + 1) * 10 ^ l.length := by
  induction l generalizing n with
  | nil =>
    simp only [parseDigits] at h
    injection h with h
    simp [h]
  | cons x xs ih =>
    unfold parseDigits at h
    by_cases hx : isDecimalDigit x = true
    · rw [if_pos hx] at h
      have h1 := ih _ h
      have hd : x.toNat - 48 ≤ 9 := by
        unfold isDecimalDigit at hx
        simp at hx
        omega
      have h2 : (n * 10 + (x.toNat - 48) + 1) * 10 ^ xs.length ≤
          ((n + 1) * 10) * 10 ^ xs.length :=
        Nat.mul_le_mul_right _ (by omega)
      rw [List.length_cons, pow_succ]
      calc m + 1 ≤ (n * 10 + (x.toNat - 48) + 1) * 10 ^ xs.length := h1
        _ ≤ ((n + 1) * 10) * 10 ^ xs.length := h2
        _ = (n + 1) * (10 ^ xs.length * 10) := by ring
    · rw [if_neg hx] at h
      exact Option.noConfusion h

theorem parseDigits_none_split (l : List Char) (n : Nat) (h : parseDigits l n = none) :
    ∃ pre c post v, l = pre ++ c :: post ∧ parseDigits pre n = some v ∧
      isDecimalDigit c = false := by
  induction l generalizing n with
  | nil => simp [parseDigits] at h
  | cons x xs ih =>
    unfold parseDigits at h
    by_cases hx : isDecimalDigit x = true
    · rw [if_pos hx] at h
      obtain ⟨pre, c, post, v, h1, h2, h3⟩ := ih _ h
      refine ⟨x :: pre, c, post, v, by rw [h1]; rfl, ?_, h3⟩
      unfold parseDigits
      rw [if_pos hx]
      exact h2
    · exact ⟨[], x, xs, n, rfl, rfl, by simpa using hx⟩

theorem parseUintLoop_of_parseDigits (l : List Char) (n m : Nat)
    (h : parseDigits l n = some m) (hm : m ≤ maxUint64) :
    parseUintLoop l n = (m, none) := by
  induction l generalizing n with
  | nil =>
    simp only [parseDigits] at h
    injection h with h
    simp [parseUintLoop, h]
  | cons x xs ih =>
    unfold parseDigits at h
    by_cases hx : isDecimalDigit x = true
    · rw [if_pos hx] at h
      have hle := parseDigits_le _ _ _ h
      have h1 : ¬ (n * 10 + (x.toNat - 48) > maxUint64) := by omega
      have h2 : ¬ (n ≥ maxUint64 / 10 + 1) := by
        unfold maxUint64 at hm h1 ⊢
        omega
      unfold parseUintLoop
      rw [if_neg (by simp [hx]), if_neg h2, if_neg h1]
      exact ih _ h
    · rw [if_neg hx] at h
      exact Option.noConfusion h

theorem parseUintLoop_syntax (pre : List Char) (c : Char) (post : List Char) (n v : Nat)
    (h : parseDigits pre n = some v) (hv : v ≤ maxUint64) (hc : isDecimalDigit c = false) :
    parseUintLoop (pre ++ c :: post) n = (0, some NumError.ErrSyntax) := by
  induction pre generalizing n with
  | nil =>
    rw [List.nil_append]
    unfold parseUintLoop
    rw [if_pos hc]
  | cons x xs ih =>
    unfold parseDigits at h
    by_cases hx : isDecimalDigit x = true
    · rw [if_pos hx] at h
      have hle := parseDigits_le _ _ _ h
      have h1 : ¬ (n * 10 + (x.toNat - 48) > maxUint64) := by omega
      have h2 : ¬ (n ≥ maxUint64 / 10 + 1) := by
        unfold maxUint64 at hv h1 ⊢
        omega
      rw [List.cons_append]
      unfold parseUintLoop
      rw [if_neg (by simp [hx]), if_neg h2, if_neg h1]
      exact ih _ h
    · rw [if_neg hx] at h
      exact Option.noConfusion h

theorem parseUintLoop_range (pre rest : List Char) (n v : Nat) (hn : n ≤ maxUint64)
    (h : parseDigits pre n = some v) (hv : maxUint64 < v) :
    parseUintLoop (pre ++ rest) n = (maxUint64, some NumError.ErrRange) := by
  induction pre generalizing n with
  | nil =>
    simp only [parseDigits] at h
    injection h with h
    omega
  | cons x xs ih =>
    unfold parseDigits at h
    by_cases hx : isDecimalDigit x = true
    · rw [if_pos hx] at h
      rw [List.cons_append]
      unfold parseUintLoop
      rw [if_neg (by simp [hx])]
      by_cases h2 : n ≥ maxUint64 / 10 + 1
      · rw [if_pos h2]
      · rw [if_neg h2]
        by_cases h1 : n * 10 + (x.toNat - 48) > maxUint64
        · rw [if_pos h1]
        · rw [if_neg h1]
          exact ih _ (by omega) h
    · rw [if_neg hx] at h
      exact Option.noConfusion h

theorem length_le_byteLen (l : List Char) : l.length ≤ byteLen l := by
  induction l with
  | nil => simp [byteLen]
  | cons x xs ih =>
    have := Char.utf8Size_pos x
    unfold byteLen at ih ⊢
    simp only [List.map_cons, List.sum_cons, List.length_cons]
    omega

theorem ParseInt_unsigned (s : List Char) :
    (ParseInt s).1 =
      if (ParseUint (unsigned s)).2 = some NumError.ErrSyntax then 0
      else if ¬ s.head? = some '-' ∧ (ParseUint (unsigned s)).1 ≥ 2 ^ 63 then (2 ^ 63 - 1 : Int)
      else if s.head? = some '-' ∧ (ParseUint (unsigned s)).1 > 2 ^ 63 then -(2 ^ 63 : Int)
      else if s.head? = some '-' then -((ParseUint (unsigned s)).1 : Int)
      else ((ParseUint (unsigned s)).1 : Int) := by
  cases s with
  | nil => simp [ParseInt, unsigned, ParseUint]
  | cons c rest =>
    have hh : ((c :: rest).head? = some '-') = (c = '-') := by simp
    unfold ParseInt unsigned
    simp only [hh]
    split <;> simp only [apply_ite Prod.fst]

theorem atoiFast_eq_ParseInt (s : List Char) (hlen : s.length < 19) :
    (atoiFast s).1 = (ParseInt s).1 := by
  cases s with
  | nil => rfl
  | cons c rest =>
    have hpow : ∀ l : List Char, l.length < 19 → 10 ^ l.length ≤ 10 ^ 18 :=
      fun l hl => Nat.pow_le_pow_right (by norm_num) (by omega)
    have key : ∀ s1 : List Char, s1.length < 19 →
        (match s1 with
          | [] => ((0 : Int), some NumError.ErrSyntax)
          | _ :: _ =>
            match parseDigits s1 0 with
            | none => (0, some NumError.ErrSyntax)
            | some n => (if c = '-' then -(n : Int) else (n : Int), none)).1 =
        (if (ParseUint s1).2 = some NumError.ErrSyntax then ((0 : Int), some NumError.ErrSyntax)
          else if ¬ c = '-' ∧ (ParseUint s1).1 ≥ 2 ^ 63 then
            ((2 ^ 63 - 1 : Int), some NumError.ErrRange)
          else if c = '-' ∧ (ParseUint s1).1 > 2 ^ 63 then (-(2 ^ 63 : Int), some NumError.ErrRange)
          else (if c = '-' then -((ParseUint s1).1 : Int) else ((ParseUint s1).1 : Int),
            none)).1 := by
      intro s1 hs1
      cases s1 with
      | nil => simp [ParseUint]
      | cons y ys =>
        have hu : ParseUint (y :: ys) = parseUintLoop (y :: ys) 0 := rfl
        rw [hu]
        cases hp : parseDigits (y :: ys) 0 with
        | none =>
          obtain ⟨pre, x, post, v, h1, h2, h3⟩ := parseDigits_none_split _ _ hp
          have hb := parseDigits_bound _ _ _ h2
          have hpre : pre.length < 19 := by
            have : (y :: ys).length = pre.length + (post.length + 1) := by
              rw [h1]; simp
            omega
          have hv : v ≤ maxUint64 := by
            have := hpow pre hpre
            unfold maxUint64
            omega
          have hloop : parseUintLoop (y :: ys) 0 = (0, some NumError.ErrSyntax) := by
            rw [h1]; exact parseUintLoop_syntax pre x post 0 v h2 hv h3
          rw [hloop]
          simp
        | some m =>
          have hb := parseDigits_bound _ _ _ hp
          have h10 := hpow (y :: ys) hs1
          have hm : m < 10 ^ 18 := by omega
          have hmax : m ≤ maxUint64 := by unfold maxUint64; omega
          rw [parseUintLoop_of_parseDigits _ _ _ hp hmax]
          have h63 : ¬ m ≥ 2 ^ 63 := by
            have : (10 : Nat) ^ 18 < 2 ^ 63 := by norm_num
            omega
          have h63b : ¬ m > 2 ^ 63 := by omega
          have hne : ¬ ((m, (none : Option NumError)).2 = some NumError.ErrSyntax) := by simp
          rw [if_neg hne, if_neg (fun h => h63 h.2), if_neg (fun h => h63b h.2)]
    unfold atoiFast ParseInt
    simp only
    by_cases hsign : c = '-' ∨ c = '+'
    · have hsign2 : c = '+' ∨ c = '-' := hsign.symm
      rw [if_pos hsign, if_pos hsign2]
      exact key rest (by simp at hlen; omega)
    · have hsign2 : ¬ (c = '+' ∨ c = '-') := fun h => hsign h.symm
      rw [if_neg hsign, if_neg hsign2]
      exact key (c :: rest) hlen

theorem Atoi_fst (s : List Char) : (Atoi s).1 = (ParseInt s).1 := by
  unfold Atoi
  split
  · rename_i h
    exact atoiFast_eq_ParseInt s (lt_of_le_of_lt (length_le_byteLen s) h.2)
  · rfl

theorem Atoi_unsigned_nil (s : List Char) (h : unsigned s = []) : (Atoi s).1 = 0 := by
  rw [Atoi_fst, ParseInt_unsigned, h]
  simp [ParseUint]

theorem Atoi_junk (s pre : List Char) (c : Char) (post : List Char) (v : Nat)
    (hs : unsigned s = pre ++ c :: post) (hp : parseDigits pre 0 = some v)
    (hc : isDecimalDigit c = false) :
    (v ≤ maxUint64 → (Atoi s).1 = 0) ∧
    (maxUint64 < v →
      (Atoi s).1 = if s.head? = some '-' then -(2 ^ 63 : Int) else (2 ^ 63 - 1 : Int)) := by
  have hu : ParseUint (pre ++ c :: post) = parseUintLoop (pre ++ c :: post) 0 := by
    cases pre <;> rfl
  refine ⟨?_, ?_⟩
  · intro hv
    rw [Atoi_fst, ParseInt_unsigned, hs, hu, parseUintLoop_syntax pre c post 0 v hp hv hc]
    simp
  · intro hv
    rw [Atoi_fst, ParseInt_unsigned, hs, hu,
      parseUintLoop_range pre (c :: post) 0 v (Nat.zero_le _) hp hv]
    have h1 : maxUint64 ≥ 2 ^ 63 := by unfold maxUint64; norm_num
    have h2 : maxUint64 > 2 ^ 63 := by unfold maxUint64; norm_num
    have hne : ¬ ((maxUint64, some NumError.ErrRange).2 = some NumError.ErrSyntax) := by simp
    rw [if_neg hne]
    by_cases hneg : s.head? = some '-'
    · rw [if_neg (fun h => h.1 hneg), if_pos ⟨hneg, h2⟩, if_pos hneg]
    · rw [if_pos ⟨hneg, h1⟩, if_neg hneg]

theorem getCurrentConfirmation_parts (d : Deposit) (p q : List Char) (t : List (List Char))
    (h : splitSlash d.Confirmation.toList = p :: q :: t) :
    d.GetCurrentConfirmation = ((Atoi p).1, (Atoi q).1) := by
  unfold Deposit.GetCurrentConfirmation
  have hlen : ¬ d.Confirmation.length = 0 := by
    intro h0
    have : d.Confirmation.toList = [] := List.length_eq_zero.1 h0
    rw [this] at h
    simp [splitSlash] at h
  rw [if_neg hlen, h]

/-- C5 (as amended): a confirmation text that is empty or has no slash gives
`(0, 0)`. A text with a slash is read part by part: the result is the value
`strconv.Atoi` returns for the text before the first slash and for the text
between the first and the second slash (or the end). A part that, after an
optional sign, is empty counts as 0; a part that, after an optional sign, has
a byte that is not a decimal digit counts as 0 when the digits before that
byte stay within `maxUint64`, and as the 64 bit bound of its sign when they
exceed it (the parse stops with a range error before it reads the byte).
Whenever `required` comes out as 0 or less, a success record that carries the
text is released. -/
theorem C5_malformed_confirmation (d : Deposit) :
    ('/' ∉ d.Confirmation.toList → d.GetCurrentConfirmation = (0, 0)) ∧
    (∀ p q r : List Char, '/' ∉ p → '/' ∉ q →
      (d.Confirmation.toList = p ++ '/' :: q ∨
        d.Confirmation.toList = p ++ '/' :: (q ++ '/' :: r)) →
      d.GetCurrentConfirmation = ((Atoi p).1, (Atoi q).1)) ∧
    (∀ s : List Char,
      (unsigned s = [] → (Atoi s).1 = 0) ∧
      (∀ (pre : List Char) (c : Char) (post : List Char) (v : Nat),
        unsigned s = pre ++ c :: post → parseDigits pre 0 = some v →
        isDecimalDigit c = false →
        (v ≤ maxUint64 → (Atoi s).1 = 0) ∧
        (maxUint64 < v →
          (Atoi s).1 = if s.head? = some '-' then -(2 ^ 63 : Int) else (2 ^ 63 - 1 : Int)))) ∧
    (d.GetCurrentConfirmation.2 ≤ 0 → d.Status = DepositSuccess → released d = true) := by
  refine ⟨?_, ?_, ?_, ?_⟩
  · intro h
    unfold Deposit.GetCurrentConfirmation
    rw [splitSlash_no_slash _ h]
    split <;> rfl
  · intro p q r hp hq hsplit
    rcases hsplit with h | h
    · exact getCurrentConfirmation_parts d p q []
        (by rw [h, splitSlash_append p q hp, splitSlash_no_slash q hq])
    · exact getCurrentConfirmation_parts d p q (splitSlash r)
        (by rw [h, splitSlash_append p _ hp, splitSlash_append q r hq])
  · intro s
    exact ⟨Atoi_unsigned_nil s, fun pre c post v hs hp hc => Atoi_junk s pre c post v hs hp hc⟩
  · intro h hs
    rw [released_iff]
    exact ⟨hs, fun hc => absurd hc.1 (not_lt.2 h)⟩

/-- C5 counterexample: the malformed text `abc/16` does not give `(0, 0)` but
`(0, 16)`, and a success record that carries it with `UnlockConfirm` 16 is not
released. The malformed text `3/99999999999999999999x` gives
`(3, 2^63 - 1)`: the required part overflows before its last byte is read,
and the record is not released either. -/
theorem C5_counterexample :
    (tx1Confirm "abc/16" 16).GetCurrentConfirmation = (0, 16) ∧
      (tx1Confirm "abc/16" 16).GetCurrentConfirmation ≠ (0, 0) ∧
      released (tx1Confirm "abc/16" 16) = false ∧
      (tx1Confirm "3/99999999999999999999x" 16).GetCurrentConfirmation =
        (3, 9223372036854775807) ∧
      released (tx1Confirm "3/99999999999999999999x" 16) = false := by
  decide

/-- C5 witness: the text `7/x` is read as the pair of the values of `7` and
`x`, the part `x` counts as 0, and a success record with `UnlockConfirm` 16
that carries the text is released. -/
theorem C5_malformed_confirmation_witness :
    (tx1Confirm "7/x" 16).GetCurrentConfirmation = ((Atoi ['7']).1, (Atoi ['x']).1) ∧
      (Atoi ['x']).1 = 0 ∧
      released (tx1Confirm "7/x" 16) = true :=
  ⟨(C5_malformed_confirmation (tx1Confirm "7/x" 16)).2.1 ['7'] ['x'] [] (by decide)
      (by decide) (Or.inl (by decide)),
    ((((C5_malformed_confirmation (tx1Confirm "7/x" 16)).2.2.1 ['x']).2 [] 'x' [] 0
      (by decide) (by decide) (by decide)).1 (by decide)),
    (C5_malformed_confirmation (tx1Confirm "7/x" 16)).2.2.2 (by decide) (by decide)⟩

/-! ## C6: balance capping -/

theorem transferCalls_append (l1 l2 : List Call) :
    transferCalls (l1 ++ l2) = transferCalls l1 ++ transferCalls l2 := by
  unfold transferCalls
  rw [List.filterMap_append]

theorem transferCalls_transferIn (w : World) (d : Deposit) (amount : Int) (trace : List Call) :
    transferCalls (transferIn w d amount trace) = transferCalls trace ++ [(d.Asset, amount)] := by
  unfold transferIn
  simp only
  split
  · simp [transferCalls_append, transferCalls]
  · simp [transferCalls_append, transferCalls]

/-- C6 (as amended): for a released deposit whose limiter wait and spot
account query succeed, when the account lists a balance for the asset of the
deposit (`Balance` returns `ok`) the body makes one transfer call with amount
`min(Available, Amount)` if that minimum is positive and no transfer call if it
is zero or negative, so the amount passed never exceeds the available balance;
when the account lists no balance for the asset, the amount of the deposit is
passed uncapped (no call if it is zero or negative). -/
theorem C6_balance_capping (w : World) (d : Deposit) (trace : List Call) (account : Account)
    (hwait : w.Wait trace = true) (hsvc : w.spotAccountQueryService = true)
    (hq : w.QuerySpotAccount (trace ++ [Call.limiterWait]) = some account) :
    ((account d.Asset).2 = true →
      transferCalls (transferDeposit w d trace).1 =
          transferCalls trace ++
            (if 0 < min (account d.Asset).1.Available d.Amount
             then [(d.Asset, min (account d.Asset).1.Available d.Amount)] else []) ∧
        min (account d.Asset).1.Available d.Amount ≤ (account d.Asset).1.Available) ∧
    ((account d.Asset).2 = false →
      transferCalls (transferDeposit w d trace).1 =
        transferCalls trace ++ (if 0 < d.Amount then [(d.Asset, d.Amount)] else [])) ∧
    (transferDeposit w d trace).2 = true := by
  have hwait2 : ¬ w.Wait trace = false := by rw [hwait]; exact Bool.noConfusion
  refine ⟨?_, ?_, ?_⟩
  · intro hok
    refine ⟨?_, min_le_left _ _⟩
    unfold transferDeposit
    simp only [if_neg hwait2, hsvc, if_true, hq, hok]
    by_cases hpos : 0 < min (account d.Asset).1.Available d.Amount
    · have hc : ¬ (min (account d.Asset).1.Available d.Amount = 0 ∨
          min (account d.Asset).1.Available d.Amount < 0) := by
        rintro (h | h)
        · rw [h] at hpos; exact absurd hpos (lt_irrefl _)
        · exact absurd hpos (not_lt.2 (le_of_lt h))
      rw [if_neg hc, if_pos hpos, transferCalls_transferIn]
      simp [transferCalls_append, transferCalls]
    · have hc : min (account d.Asset).1.Available d.Amount = 0 ∨
          min (account d.Asset).1.Available d.Amount < 0 := by
        rcases lt_or_eq_of_le (not_lt.1 hpos) with h | h
        · exact Or.inr h
        · exact Or.inl h
      rw [if_pos hc, if_neg hpos]
      simp [transferCalls_append, transferCalls]
  · intro hok
    unfold transferDeposit
    simp only [if_neg hwait2, hsvc, if_true, hq, hok]
    by_cases hpos : 0 < d.Amount
    · have hc : ¬ (d.Amount = 0 ∨ d.Amount < 0) := by
        rintro (h | h)
        · rw [h] at hpos; exact absurd hpos (lt_irrefl _)
        · exact absurd hpos (not_lt.2 (le_of_lt h))
      simp only [Bool.false_eq_true, if_false]
      rw [if_neg hc, if_pos hpos, transferCalls_transferIn]
      simp [transferCalls_append, transferCalls]
    · have hc : d.Amount = 0 ∨ d.Amount < 0 := by
        rcases lt_or_eq_of_le (not_lt.1 hpos) with h | h
        · exact Or.inr h
        · exact Or.inl h
      simp only [Bool.false_eq_true, if_false]
      rw [if_pos hc, if_neg hpos]
      simp [transferCalls_append, transferCalls]
  · unfold transferDeposit
    simp only [if_neg hwait2, hsvc, if_true, hq]
    split <;> split <;> rfl

/-- C6 witness: a deposit of 100 against 40 available is transferred as 40. -/
theorem C6_balance_capping_witness :
    transferCalls (transferDeposit (calmWorld account40 btcFails) (tx1 1 DepositSuccess) []).1 =
      [("USDT", 40)] :=
  ((C6_balance_capping (calmWorld account40 btcFails) (tx1 1 DepositSuccess) [] account40
    rfl rfl rfl).1 rfl).1

/-- C6 counterexample: the spot account query succeeds but the account lists
no `USDT` balance (`Balance` returns the zero balance and `ok = false`); the
deposit of 100 is transferred in full, although the minimum of 100 and the
available 0 is 0. -/
theorem C6_counterexample :
    (calmWorld accountEmpty btcFails).QuerySpotAccount [Call.limiterWait] = some accountEmpty ∧
      (accountEmpty "USDT").1.Available = 0 ∧
      min (tx1 1 DepositSuccess).Amount (accountEmpty "USDT").1.Available = 0 ∧
      transferCalls
        (transferDeposit (calmWorld accountEmpty btcFails) (tx1 1 DepositSuccess) []).1 =
        [("USDT", 100)] := by
  refine ⟨rfl, rfl, by decide, by decide⟩

/-! ## C7: a failing history scan -/

/-- A failing history query ends the poll: whatever assets are still to be
checked, `checkAssets` returns with the state unchanged and nothing but the
failed query and its log line added to the trace. -/
theorem checkAssets_scan_failure (w : World) (asset : String) (rest : List String)
    (s : Strategy) (trace : List Call) (h : w.QueryDepositHistory trace asset = none) :
    checkAssets w (asset :: rest) s trace =
      (s, trace ++ [Call.queryDepositHistory asset,
        Call.logError "unable to scan deposit history"]) := by
  unfold checkAssets
  simp [h]

/-- C7 (the code at the failing input): the assets are `BTC`, `USDT`; the
history query for `BTC` fails while `USDT` has a new success deposit to
release. The poll stops at `BTC`: `USDT` is not scanned and nothing is
transferred. With the assets in the other order the same world has `USDT`
scanned and its deposit transferred before `BTC` fails. -/
theorem C7_scan_failure_aborts_poll :
    afterFirstPoll.Assets = ["BTC", "USDT"] ∧
    (checkDeposits (calmWorld account40 btcFails) afterFirstPoll []).2 =
      [Call.queryDepositHistory "BTC", Call.logError "unable to scan deposit history"] ∧
    scannedAssets (checkDeposits (calmWorld account40 btcFails) afterFirstPoll []).2 = ["BTC"] ∧
    transferCalls (checkDeposits (calmWorld account40 btcFails) afterFirstPoll []).2 = [] ∧
    scannedAssets (checkDeposits (calmWorld account40 btcFails)
      { afterFirstPoll with Assets := ["USDT", "BTC"] } []).2 = ["USDT", "BTC"] ∧
    transferCalls (checkDeposits (calmWorld account40 btcFails)
      { afterFirstPoll with Assets := ["USDT", "BTC"] } []).2 = [("USDT", 40)] := by
  decide

/-! ## C8 and C9: the watermark -/

/-- The watermark of the scanned asset after a scan of a non-empty batch: the
later of its old value and the largest time of the batch, records of other
assets included. -/
theorem scan_lastTimes_value (s : Strategy) (asset : String) (evs : List Deposit)
    (hne : evs ≠ []) :
    ∃ d ∈ evs, (∀ e ∈ evs, e.Time ≤ d.Time) ∧
      (scanDepositHistory s asset evs).1.lastAssetDepositTimes asset =
        some (match s.lastAssetDepositTimes asset with
          | some t => later d.Time t
          | none => d.Time) := by
  rcases sortSlice_getLast evs with ⟨_, h⟩ | ⟨d, hd, hmem, hmax⟩
  · exact absurd h hne
  · refine ⟨d, hmem, hmax, ?_⟩
    rw [scan_lastTimes]
    unfold updateLastTime
    rw [hd]
    cases s.lastAssetDepositTimes asset with
    | none => simp
    | some t => simp

/-- C8 (the code at the failing input): the first scan of `USDT` gets a batch
with a `USDT` record at time 1 and a `BTC` record at time 5. The watermark of
`USDT` becomes 5, not 1, which is what it becomes without the `BTC` record;
as a result the next scan ignores a new `USDT` success deposit at time 3
that it releases otherwise. -/
theorem C8_foreign_record_moves_watermark :
    (scanDepositHistory (Strategy.init ["USDT"]) "USDT"
        [tx1 1 DepositPending, btcRecord]).1.lastAssetDepositTimes "USDT" = some 5 ∧
    (scanDepositHistory (Strategy.init ["USDT"]) "USDT"
        [tx1 1 DepositPending]).1.lastAssetDepositTimes "USDT" = some 1 ∧
    (scanDepositHistory (scanDepositHistory (Strategy.init ["USDT"]) "USDT"
        [tx1 1 DepositPending, btcRecord]).1 "USDT" [tx2]).2 = [] ∧
    mapLookup (scanDepositHistory (scanDepositHistory (Strategy.init ["USDT"]) "USDT"
        [tx1 1 DepositPending, btcRecord]).1 "USDT" [tx2]).1.watchingDeposits "tx2" = none ∧
    (scanDepositHistory (scanDepositHistory (Strategy.init ["USDT"]) "USDT"
        [tx1 1 DepositPending]).1 "USDT" [tx2]).2 = [tx2] := by
  decide

/-- C9: a scan of asset `a` never lowers or removes a watermark: an asset that
had the value `t` before the scan has a value `t' ≥ t` after it, and the
watermark of every asset other than `a` is left as it was. -/
theorem C9_watermark_monotone (s : Strategy) (asset : String) (evs : List Deposit) (b : String) :
    (∀ t, s.lastAssetDepositTimes b = some t →
      ∃ t', (scanDepositHistory s asset evs).1.lastAssetDepositTimes b = some t' ∧ t ≤ t') ∧
    (b ≠ asset →
      (scanDepositHistory s asset evs).1.lastAssetDepositTimes b = s.lastAssetDepositTimes b) := by
  rw [scan_lastTimes]
  exact ⟨fun t ht => updateLastTime_mono asset s.lastAssetDepositTimes _ b t ht,
    fun hb => updateLastTime_other asset s.lastAssetDepositTimes _ b hb⟩

/-- C9 witness: after a poll that set the `USDT` watermark to 5, a scan of an
older batch keeps a value of at least 5, and a scan of `BTC` leaves the `USDT`
watermark as it was. -/
theorem C9_watermark_monotone_witness :
    (∃ t', (scanDepositHistory (scanDepositHistory (Strategy.init ["USDT"]) "USDT"
        [tx1 1 DepositPending, btcRecord]).1 "USDT" [tx2]).1.lastAssetDepositTimes "USDT"
          = some t' ∧ 5 ≤ t') ∧
    (scanDepositHistory (scanDepositHistory (Strategy.init ["USDT"]) "USDT"
        [tx1 1 DepositPending, btcRecord]).1 "BTC" [btcRecord]).1.lastAssetDepositTimes "USDT" =
      (scanDepositHistory (Strategy.init ["USDT"]) "USDT"
        [tx1 1 DepositPending, btcRecord]).1.lastAssetDepositTimes "USDT" :=
  ⟨(C9_watermark_monotone (scanDepositHistory (Strategy.init ["USDT"]) "USDT"
      [tx1 1 DepositPending, btcRecord]).1 "USDT" [tx2] "USDT").1 5 (by decide),
    (C9_watermark_monotone (scanDepositHistory (Strategy.init ["USDT"]) "USDT"
      [tx1 1 DepositPending, btcRecord]).1 "BTC" [btcRecord] "USDT").2 (by decide)⟩

/-! ## C10: the order in which the source returns the batch -/

theorem foldl_keyStep_reportsOf (asset : String) (lastTimes : String → Option Int) (k : String)
    (l : List Deposit) (cur : Option Deposit) :
    l.foldl (keyStep asset lastTimes k) cur =
      (reportsOf asset k l).foldl (keyStep asset lastTimes k) cur := by
  induction l generalizing cur with
  | nil => rfl
  | cons x xs ih =>
    rw [reportsOf_cons]
    by_cases h : x.Asset = asset ∧ x.TransactionID = k
    · rw [if_pos h, List.foldl_cons, List.foldl_cons, ih]
    · have hx : keyStep asset lastTimes k cur x = cur := by
        unfold keyStep
        rw [if_neg (fun hc => h ⟨hc.1, hc.2.1⟩)]
      rw [if_neg h, List.foldl_cons, hx, ih]

theorem reportsOf_sorted (asset k : String) (evs : List Deposit)
    (h : NoClashingTies asset evs) :
    (reportsOf asset k (sortSlice evs)).Pairwise beforeOrSame := by
  have hs : (reportsOf asset k (sortSlice evs)).Pairwise (fun a b => a.Time ≤ b.Time) :=
    (sortSlice_sorted evs).filter _
  refine hs.imp_of_mem ?_
  intro x y hx hy hxy
  unfold reportsOf at hx hy
  obtain ⟨hx1, hx2⟩ := List.mem_filter.1 hx
  obtain ⟨hy1, hy2⟩ := List.mem_filter.1 hy
  have hx3 : x.Asset = asset ∧ x.TransactionID = k := by simpa using hx2
  have hy3 : y.Asset = asset ∧ y.TransactionID = k := by simpa using hy2
  rcases lt_or_eq_of_le hxy with hlt | heq
  · exact Or.inl hlt
  · exact Or.inr (h x ((sortSlice_perm evs).mem_iff.1 hx1) y ((sortSlice_perm evs).mem_iff.1 hy1)
      hx3.1 hy3.1 (hx3.2.trans hy3.2.symm) heq)

theorem noClashingTies_perm (asset : String) {b1 b2 : List Deposit} (hp : b1.Perm b2)
    (h : NoClashingTies asset b1) : NoClashingTies asset b2 :=
  fun e1 h1 e2 h2 => h e1 (hp.mem_iff.2 h1) e2 (hp.mem_iff.2 h2)

theorem reportsOf_sortSlice_perm (asset k : String) {b1 b2 : List Deposit} (hp : b1.Perm b2)
    (h : NoClashingTies asset b1) :
    reportsOf asset k (sortSlice b1) = reportsOf asset k (sortSlice b2) := by
  have hperm : (sortSlice b1).Perm (sortSlice b2) :=
    ((sortSlice_perm b1).trans hp).trans (sortSlice_perm b2).symm
  exact List.eq_of_perm_of_sorted (hperm.filter _) (reportsOf_sorted asset k b1 h)
    (reportsOf_sorted asset k b2 (noClashingTies_perm asset hp h))

theorem scan_lastTimes_perm (s : Strategy) (asset : String) {b1 b2 : List Deposit}
    (hp : b1.Perm b2) :
    (scanDepositHistory s asset b1).1.lastAssetDepositTimes =
      (scanDepositHistory s asset b2).1.lastAssetDepositTimes := by
  funext b
  by_cases hb : b = asset
  · subst hb
    by_cases hne : b1 = []
    · subst hne
      have : b2 = [] := List.perm_nil.1 hp.symm
      subst this
      rfl
    · have hne2 : b2 ≠ [] := fun h => hne (List.perm_nil.1 (h ▸ hp))
      obtain ⟨d1, hd1, hmax1, hv1⟩ := scan_lastTimes_value s b b1 hne
      obtain ⟨d2, hd2, hmax2, hv2⟩ := scan_lastTimes_value s b b2 hne2
      have ht : d1.Time = d2.Time :=
        le_antisymm (hmax2 d1 (hp.mem_iff.1 hd1)) (hmax1 d2 (hp.mem_iff.2 hd2))
      rw [hv1, hv2, ht]
  · rw [scan_lastTimes, scan_lastTimes, updateLastTime_other _ _ _ _ hb,
      updateLastTime_other _ _ _ _ hb]

/-- C10 (as amended): the loop runs over the batch in ascending time order
whatever order the source returned, and two orders of the same batch give
the same watermark; when the batch has no clashing ties (no two different
records of the scanned asset with the same `TransactionID` and the same time)
they also give the same final watchlist and the same released set. -/
theorem C10_order_independence (s : Strategy) (hw : WellFormed s.watchingDeposits)
    (asset : String) (b1 b2 : List Deposit) (hp : b1.Perm b2)
    (hties : NoClashingTies asset b1) :
    ((sortSlice b2).Pairwise (fun x y => x.Time ≤ y.Time) ∧ (sortSlice b2).Perm b1) ∧
    (∀ k, mapLookup (scanDepositHistory s asset b2).1.watchingDeposits k =
      mapLookup (scanDepositHistory s asset b1).1.watchingDeposits k) ∧
    (scanDepositHistory s asset b2).1.lastAssetDepositTimes =
      (scanDepositHistory s asset b1).1.lastAssetDepositTimes ∧
    (∀ d, d ∈ (scanDepositHistory s asset b2).2 ↔ d ∈ (scanDepositHistory s asset b1).2) := by
  have hcell : ∀ k (c : Option Deposit),
      (sortSlice b2).foldl (keyStep asset s.lastAssetDepositTimes k) c =
        (sortSlice b1).foldl (keyStep asset s.lastAssetDepositTimes k) c := by
    intro k c
    rw [foldl_keyStep_reportsOf _ _ _ (sortSlice b2), foldl_keyStep_reportsOf _ _ _ (sortSlice b1),
      reportsOf_sortSlice_perm asset k hp hties]
  refine ⟨⟨sortSlice_sorted b2, (sortSlice_perm b2).trans hp.symm⟩, ?_, ?_, ?_⟩
  · intro k
    rw [scan_lookup s asset b2 hw, scan_lookup s asset b1 hw, hcell]
  · exact (scan_lastTimes_perm s asset hp).symm
  · intro d
    rw [scan_mem_succeeded s asset b2 hw, scan_mem_succeeded s asset b1 hw, hcell]

/-- C10 witness: the batch `[B at 2, A at 1]` against `[A at 1, B at 2]`. -/
theorem C10_order_independence_witness :
    sortSlice [recordB, recordA] = [recordA, recordB] ∧
    (∀ k, mapLookup (scanDepositHistory (Strategy.init ["USDT"]) "USDT"
        [recordB, recordA]).1.watchingDeposits k =
      mapLookup (scanDepositHistory (Strategy.init ["USDT"]) "USDT"
        [recordA, recordB]).1.watchingDeposits k) :=
  ⟨by decide,
    (C10_order_independence (Strategy.init ["USDT"]) wellFormed_nil "USDT"
      [recordA, recordB] [recordB, recordA] (List.Perm.swap _ _ _) (by decide)).2.1⟩

/-- C10 counterexample: two records of `tx1` with the same time 1, one
pending and one success. Both orders of the batch are in ascending time
order and the sort leaves each as it is; from the empty state the order
pending, success releases `tx1` and leaves the watchlist empty, the order
success, pending releases nothing and leaves `tx1` watched. -/
theorem C10_counterexample :
    sortSlice [tx1 1 DepositPending, tx1 1 DepositSuccess] =
      [tx1 1 DepositPending, tx1 1 DepositSuccess] ∧
    sortSlice [tx1 1 DepositSuccess, tx1 1 DepositPending] =
      [tx1 1 DepositSuccess, tx1 1 DepositPending] ∧
    (scanDepositHistory (Strategy.init ["USDT"]) "USDT"
      [tx1 1 DepositPending, tx1 1 DepositSuccess]).2 = [tx1 1 DepositSuccess] ∧
    (scanDepositHistory (Strategy.init ["USDT"]) "USDT"
      [tx1 1 DepositPending, tx1 1 DepositSuccess]).1.watchingDeposits = [] ∧
    (scanDepositHistory (Strategy.init ["USDT"]) "USDT"
      [tx1 1 DepositSuccess, tx1 1 DepositPending]).2 = [] ∧
    (scanDepositHistory (Strategy.init ["USDT"]) "USDT"
      [tx1 1 DepositSuccess, tx1 1 DepositPending]).1.watchingDeposits =
        [("tx1", tx1 1 DepositPending)] := by
  decide

/-! ## C11: holding back and releasing a watched success record -/

/-- The cell of a tracked key after the loop: the last report of the batch
for that key, or the old record when the batch has none. -/
theorem scan_cell_tracked (s : Strategy) (asset : String) (evs : List Deposit) (k : String)
    (d : Deposit) (h : mapLookup s.watchingDeposits k = some d) :
    (sortSlice evs).foldl (keyStep asset s.lastAssetDepositTimes k)
        (mapLookup s.watchingDeposits k) =
      some ((reportsOf asset k (sortSlice evs)).getLast?.getD d) := by
  rw [h, foldl_keyStep_some]

/-- What a scan does with a key whose cell after the loop is known. -/
theorem scan_of_cell (s : Strategy) (asset : String) (evs : List Deposit)
    (hw : WellFormed s.watchingDeposits) (k : String) (c : Deposit)
    (hc : (sortSlice evs).foldl (keyStep asset s.lastAssetDepositTimes k)
      (mapLookup s.watchingDeposits k) = some c) :
    (released c = false →
      mapLookup (scanDepositHistory s asset evs).1.watchingDeposits k = some c ∧
        k ∉ (scanDepositHistory s asset evs).2.map Deposit.TransactionID) ∧
    (released c = true →
      mapLookup (scanDepositHistory s asset evs).1.watchingDeposits k = none ∧
        c ∈ (scanDepositHistory s asset evs).2 ∧ c.TransactionID = k) := by
  have hw1 := wellFormed_reconcileLoop asset s.lastAssetDepositTimes (sortSlice evs) hw
  have hk : k = c.TransactionID := by
    rw [← mapLookup_reconcileLoop] at hc
    exact hw1.2 _ (mem_of_mapLookup hc)
  refine ⟨?_, ?_⟩
  · intro hr
    refine ⟨?_, ?_⟩
    · rw [scan_lookup s asset evs hw, hc]
      simp [Option.filter, hr]
    · rw [scan_mem_ids s asset evs hw k, hc]
      rintro ⟨d, hd, hrd⟩
      injection hd with hd
      subst hd
      rw [hr] at hrd
      exact Bool.noConfusion hrd
  · intro hr
    refine ⟨?_, ?_, hk.symm⟩
    · rw [scan_lookup s asset evs hw, hc]
      simp [Option.filter, hr]
    · rw [scan_mem_succeeded s asset evs hw c, ← hk]
      exact ⟨hc, hr⟩

/-- C11 (as amended): let a transaction be tracked before a scan and let `d'`
be its record after the loop over the batch (the last report of the batch for
it, or the stored record when the batch has none). If `d'` is a success
record with `required > 0`, `UnlockConfirm > 0` and `current < UnlockConfirm`,
the scan keeps it on the watchlist and does not release it; if `d'` is a
success record with `current ≥ UnlockConfirm`, the scan removes it from the
watchlist and puts it in its released batch. -/
theorem C11_gate_monotonicity (s : Strategy) (hw : WellFormed s.watchingDeposits)
    (asset : String) (evs : List Deposit) (k : String) (d : Deposit)
    (htracked : mapLookup s.watchingDeposits k = some d) :
    (((reportsOf asset k (sortSlice evs)).getLast?.getD d).Status = DepositSuccess →
      ((reportsOf asset k (sortSlice evs)).getLast?.getD d).GetCurrentConfirmation.2 > 0 →
      ((reportsOf asset k (sortSlice evs)).getLast?.getD d).UnlockConfirm > 0 →
      ((reportsOf asset k (sortSlice evs)).getLast?.getD d).GetCurrentConfirmation.1 <
        ((reportsOf asset k (sortSlice evs)).getLast?.getD d).UnlockConfirm →
      mapLookup (scanDepositHistory s asset evs).1.watchingDeposits k =
          some ((reportsOf asset k (sortSlice evs)).getLast?.getD d) ∧
        k ∉ (scanDepositHistory s asset evs).2.map Deposit.TransactionID) ∧
    (((reportsOf asset k (sortSlice evs)).getLast?.getD d).Status = DepositSuccess →
      ((reportsOf asset k (sortSlice evs)).getLast?.getD d).UnlockConfirm ≤
        ((reportsOf asset k (sortSlice evs)).getLast?.getD d).GetCurrentConfirmation.1 →
      mapLookup (scanDepositHistory s asset evs).1.watchingDeposits k = none ∧
        (reportsOf asset k (sortSlice evs)).getLast?.getD d ∈
          (scanDepositHistory s asset evs).2) := by
  have hcell := scan_cell_tracked s asset evs k d htracked
  have hscan := scan_of_cell s asset evs hw k _ hcell
  refine ⟨?_, ?_⟩
  · intro h1 h2 h3 h4
    apply hscan.1
    cases hr : released ((reportsOf asset k (sortSlice evs)).getLast?.getD d) with
    | false => rfl
    | true => exact absurd ⟨h2, h3, h4⟩ ((released_iff _).1 hr).2
  · intro h1 h2
    have hr : released ((reportsOf asset k (sortSlice evs)).getLast?.getD d) = true :=
      (released_iff _).2 ⟨h1, fun hc => absurd hc.2.2 (not_lt.2 h2)⟩
    exact ⟨(hscan.2 hr).1, (hscan.2 hr).2.1⟩

/-- C11 witness: `tx1` is watched, a scan reports it as success with `3/16`
and threshold 16 and it stays; the next scan reports `16/16` and it is
released. -/
theorem C11_gate_monotonicity_witness :
    (mapLookup (scanDepositHistory (scanDepositHistory (Strategy.init ["USDT"]) "USDT"
        [tx1 1 DepositPending]).1 "USDT" [tx1Confirm "3/16" 16]).1.watchingDeposits "tx1" =
        some (tx1Confirm "3/16" 16) ∧
      "tx1" ∉ (scanDepositHistory (scanDepositHistory (Strategy.init ["USDT"]) "USDT"
        [tx1 1 DepositPending]).1 "USDT" [tx1Confirm "3/16" 16]).2.map Deposit.TransactionID) ∧
    (mapLookup (scanDepositHistory (scanDepositHistory (Strategy.init ["USDT"]) "USDT"
        [tx1 1 DepositPending]).1 "USDT" [tx1Confirm "16/16" 16]).1.watchingDeposits "tx1" =
        none ∧
      tx1Confirm "16/16" 16 ∈ (scanDepositHistory (scanDepositHistory (Strategy.init ["USDT"])
        "USDT" [tx1 1 DepositPending]).1 "USDT" [tx1Confirm "16/16" 16]).2) :=
  ⟨(C11_gate_monotonicity (scanDepositHistory (Strategy.init ["USDT"]) "USDT"
      [tx1 1 DepositPending]).1 (scan_wellFormed _ _ _ wellFormed_nil) "USDT"
      [tx1Confirm "3/16" 16] "tx1" (tx1 1 DepositPending) (by decide)).1
      (by decide) (by decide) (by decide) (by decide),
    (C11_gate_monotonicity (scanDepositHistory (Strategy.init ["USDT"]) "USDT"
      [tx1 1 DepositPending]).1 (scan_wellFormed _ _ _ wellFormed_nil) "USDT"
      [tx1Confirm "16/16" 16] "tx1" (tx1 1 DepositPending) (by decide)).2
      (by decide) (by decide)⟩

/-- C11 counterexample: `tx1` is watched and then reported as success with
threshold 16 and a confirmation text without a required count (empty, or
`3/0`). Its current count (0, or 3) is below the threshold, yet the scan
releases it and the watchlist no longer holds it. The same happens with a
required count when the threshold is not positive (`-5/16` against -3). -/
theorem C11_counterexample :
    (tx1Confirm "" 16).GetCurrentConfirmation.1 < (tx1Confirm "" 16).UnlockConfirm ∧
    (scanDepositHistory (scanDepositHistory (Strategy.init ["USDT"]) "USDT"
      [tx1 1 DepositPending]).1 "USDT" [tx1Confirm "" 16]).2 = [tx1Confirm "" 16] ∧
    (tx1Confirm "3/0" 16).GetCurrentConfirmation.1 < (tx1Confirm "3/0" 16).UnlockConfirm ∧
    (scanDepositHistory (scanDepositHistory (Strategy.init ["USDT"]) "USDT"
      [tx1 1 DepositPending]).1 "USDT" [tx1Confirm "3/0" 16]).2 = [tx1Confirm "3/0" 16] ∧
    (scanDepositHistory (scanDepositHistory (Strategy.init ["USDT"]) "USDT"
      [tx1 1 DepositPending]).1 "USDT" [tx1Confirm "3/0" 16]).1.watchingDeposits = [] ∧
    (tx1Confirm "-5/16" (-3)).GetCurrentConfirmation.1 <
      (tx1Confirm "-5/16" (-3)).UnlockConfirm ∧
    (scanDepositHistory (scanDepositHistory (Strategy.init ["USDT"]) "USDT"
      [tx1 1 DepositPending]).1 "USDT" [tx1Confirm "-5/16" (-3)]).2 =
        [tx1Confirm "-5/16" (-3)] := by
  decide

/-! ## C12: a record seen by an earlier scan is not taken up as new -/

theorem foldl_keyStep_none_source (asset : String) (lastTimes : String → Option Int)
    (k : String) (post : List Deposit) (d : Deposit)
    (h : post.foldl (keyStep asset lastTimes k) none = some d) :
    d ∈ post ∧ d.Asset = asset ∧ d.TransactionID = k := by
  rcases foldl_keyStep_cases asset lastTimes k post none with h1 | ⟨e, he, h1, h2, h3⟩
  · rw [h1] at h; exact Option.noConfusion h
  · rw [h3] at h
    injection h with h
    subst h
    exact ⟨he, h1, h2⟩

/-- A record that the loop reaches while its key is not tracked and that the
body does not store (it is of another asset, or the first sighting rule
rejects it): the body leaves the watchlist as it is, and whatever the scan
ends up watching or releasing under that key is a later report of the batch. -/
theorem scan_unadmitted (s : Strategy) (hw : WellFormed s.watchingDeposits)
    (asset : String) (evs pre post : List Deposit) (e : Deposit)
    (hsplit : sortSlice evs = pre ++ e :: post)
    (huntracked : mapLookup
      (reconcileLoop asset s.lastAssetDepositTimes s.watchingDeposits pre)
      e.TransactionID = none)
    (hskip : e.Asset ≠ asset ∨ firstSightingAdds asset s.lastAssetDepositTimes e = false) :
    reconcileLoop asset s.lastAssetDepositTimes s.watchingDeposits (pre ++ [e]) =
        reconcileLoop asset s.lastAssetDepositTimes s.watchingDeposits pre ∧
    (∀ d, (mapLookup (scanDepositHistory s asset evs).1.watchingDeposits e.TransactionID
          = some d ∨
        (d ∈ (scanDepositHistory s asset evs).2 ∧ d.TransactionID = e.TransactionID)) →
      d ∈ post ∧ d.Asset = asset ∧ d.TransactionID = e.TransactionID) ∧
    ((∀ e' ∈ post, e'.Asset = asset → e'.TransactionID ≠ e.TransactionID) →
      mapLookup (scanDepositHistory s asset evs).1.watchingDeposits e.TransactionID = none ∧
      ∀ d ∈ (scanDepositHistory s asset evs).2, d.TransactionID ≠ e.TransactionID) := by
  have hunchanged : reconcileLoop asset s.lastAssetDepositTimes s.watchingDeposits
      (pre ++ [e]) = reconcileLoop asset s.lastAssetDepositTimes s.watchingDeposits pre := by
    have hstep : reconcileLoop asset s.lastAssetDepositTimes s.watchingDeposits (pre ++ [e]) =
        reconcileStep asset s.lastAssetDepositTimes
          (reconcileLoop asset s.lastAssetDepositTimes s.watchingDeposits pre) e := by
      rw [reconcileLoop_append]; rfl
    rw [hstep, reconcileStep_eq, if_neg]
    rintro ⟨ha, h | h⟩
    · rw [huntracked] at h; simp at h
    · rcases hskip with h1 | h1
      · exact h1 ha
      · rw [h1] at h; exact Bool.noConfusion h
  have hcell : (sortSlice evs).foldl (keyStep asset s.lastAssetDepositTimes e.TransactionID)
      (mapLookup s.watchingDeposits e.TransactionID) =
      post.foldl (keyStep asset s.lastAssetDepositTimes e.TransactionID) none := by
    have h1 : pre ++ e :: post = (pre ++ [e]) ++ post := by simp
    rw [hsplit, h1, List.foldl_append, ← mapLookup_reconcileLoop, hunchanged, huntracked]
  have hall : ∀ d, (mapLookup (scanDepositHistory s asset evs).1.watchingDeposits
        e.TransactionID = some d ∨
      (d ∈ (scanDepositHistory s asset evs).2 ∧ d.TransactionID = e.TransactionID)) →
      d ∈ post ∧ d.Asset = asset ∧ d.TransactionID = e.TransactionID := by
    intro d hd
    rcases hd with h | ⟨h1, h2⟩
    · rw [scan_lookup s asset evs hw, hcell] at h
      exact foldl_keyStep_none_source _ _ _ _ d (option_filter_eq_some _ _ d h).1
    · have h3 := ((scan_mem_succeeded s asset evs hw d).1 h1).1
      rw [h2, hcell] at h3
      exact foldl_keyStep_none_source _ _ _ _ d h3
  refine ⟨hunchanged, hall, ?_⟩
  intro hpost
  refine ⟨?_, ?_⟩
  · cases hl : mapLookup (scanDepositHistory s asset evs).1.watchingDeposits e.TransactionID with
    | none => rfl
    | some d =>
      obtain ⟨h1, h2, h3⟩ := hall d (Or.inl hl)
      exact absurd h3 (hpost d h1 h2)
  · intro d hd hdk
    obtain ⟨h1, h2, h3⟩ := hall d (Or.inr ⟨hd, hdk⟩)
    exact hpost d h1 h2 h3

theorem scanAll_lastTimes_mono (scans : List (String × List Deposit)) :
    ∀ (s : Strategy) (b : String) (t : Int), s.lastAssetDepositTimes b = some t →
      ∃ t', (scanAll s scans).1.lastAssetDepositTimes b = some t' ∧ t ≤ t' := by
  induction scans with
  | nil => intro s b t h; exact ⟨t, h, le_refl _⟩
  | cons sc rest ih =>
    intro s b t h
    obtain ⟨t1, h1, hle1⟩ := updateLastTime_mono sc.1 s.lastAssetDepositTimes
      (sortSlice sc.2) b t h
    obtain ⟨t2, h2, hle2⟩ := ih (scanDepositHistory s sc.1 sc.2).1 b t1
      (by rw [scan_lastTimes]; exact h1)
    exact ⟨t2, h2, le_trans hle1 hle2⟩

theorem reachable_scanAll {s : Strategy} (h : Reachable s)
    (scans : List (String × List Deposit)) : Reachable (scanAll s scans).1 := by
  obtain ⟨assets, scans0, rfl⟩ := h
  exact ⟨assets, scans0 ++ scans, scanAll_append scans0 scans _⟩

/-- C12 (as amended): let an earlier scan of asset `a`, from a reachable
state, have seen the record `e` in its batch or released it, and let any
scans follow. In a later scan of `a` whose sorted batch is `pre ++ e2 ::
post`, with `e2` a success report of the same transaction and time: the
watermark of `a` is by then at least that time, and if the transaction is not
tracked when the loop reaches `e2` (no pending or credited report has put it
back on the watchlist), the body leaves the watchlist as it is, whatever the
scan watches or releases under that id is a later report of the batch, and
without such a report the id is neither watched nor released. -/
theorem C12_not_taken_up_again (s : Strategy) (hs : Reachable s) (asset : String)
    (evs1 : List Deposit) (e : Deposit)
    (hseen : e ∈ evs1 ∨ e ∈ (scanDepositHistory s asset evs1).2)
    (mid : List (String × List Deposit)) (evs2 pre post : List Deposit) (e2 : Deposit)
    (hsplit : sortSlice evs2 = pre ++ e2 :: post)
    (hid : e2.TransactionID = e.TransactionID)
    (hstatus : e2.Status = DepositSuccess) (htime : e2.Time = e.Time)
    (huntracked : mapLookup
      (reconcileLoop asset
        (scanAll (scanDepositHistory s asset evs1).1 mid).1.lastAssetDepositTimes
        (scanAll (scanDepositHistory s asset evs1).1 mid).1.watchingDeposits pre)
      e2.TransactionID = none) :
    (∃ t, (scanAll (scanDepositHistory s asset evs1).1 mid).1.lastAssetDepositTimes asset
        = some t ∧ e.Time ≤ t) ∧
    reconcileLoop asset
        (scanAll (scanDepositHistory s asset evs1).1 mid).1.lastAssetDepositTimes
        (scanAll (scanDepositHistory s asset evs1).1 mid).1.watchingDeposits (pre ++ [e2]) =
      reconcileLoop asset
        (scanAll (scanDepositHistory s asset evs1).1 mid).1.lastAssetDepositTimes
        (scanAll (scanDepositHistory s asset evs1).1 mid).1.watchingDeposits pre ∧
    (∀ d, (mapLookup (scanDepositHistory (scanAll (scanDepositHistory s asset evs1).1 mid).1
            asset evs2).1.watchingDeposits e.TransactionID = some d ∨
        (d ∈ (scanDepositHistory (scanAll (scanDepositHistory s asset evs1).1 mid).1
            asset evs2).2 ∧ d.TransactionID = e.TransactionID)) →
      d ∈ post ∧ d.Asset = asset ∧ d.TransactionID = e.TransactionID) ∧
    ((∀ e' ∈ post, e'.Asset = asset → e'.TransactionID ≠ e.TransactionID) →
      mapLookup (scanDepositHistory (scanAll (scanDepositHistory s asset evs1).1 mid).1
          asset evs2).1.watchingDeposits e.TransactionID = none ∧
      ∀ d ∈ (scanDepositHistory (scanAll (scanDepositHistory s asset evs1).1 mid).1
          asset evs2).2, d.TransactionID ≠ e.TransactionID) := by
  obtain ⟨hw, hn⟩ := reachable_invariant hs
  have hmem : e ∈ evs1 := by
    rcases hseen with h | h
    · exact h
    · exact (scan_succeeded_source s asset evs1 hw hn e h).1
  have hwm : ∃ t, (scanAll (scanDepositHistory s asset evs1).1 mid).1.lastAssetDepositTimes
      asset = some t ∧ e.Time ≤ t := by
    obtain ⟨t1, h1, hle1⟩ := scan_lastTimes_ge s asset evs1 e hmem
    obtain ⟨t2, h2, hle2⟩ := scanAll_lastTimes_mono mid _ asset t1 h1
    exact ⟨t2, h2, le_trans hle1 hle2⟩
  have hw2 := (reachable_invariant (reachable_scanAll (reachable_scan hs asset evs1) mid)).1
  have hskip : firstSightingAdds asset
      (scanAll (scanDepositHistory s asset evs1).1 mid).1.lastAssetDepositTimes e2 = false := by
    have h1 : DepositSuccess ≠ DepositPending := by decide
    have h2 : DepositSuccess ≠ DepositCredited := by decide
    apply firstSightingAdds_false_of_le
    · rw [hstatus]; exact h1
    · rw [hstatus]; exact h2
    · rw [htime]; exact hwm
  have h := scan_unadmitted _ hw2 asset evs2 pre post e2 hsplit huntracked (Or.inr hskip)
  rw [hid] at h
  exact ⟨hwm, h.1, h.2.1, h.2.2⟩

/-- C12 witness: `tx1` is watched, released as success, and reported as
success once more with the same time; the last scan neither watches nor
releases it. -/
theorem C12_not_taken_up_again_witness :
    mapLookup (scanDepositHistory (scanAll (scanDepositHistory (Strategy.init ["USDT"]) "USDT"
        [tx1 1 DepositPending]).1 [("USDT", [tx1 1 DepositSuccess])]).1
        "USDT" [tx1 1 DepositSuccess]).1.watchingDeposits "tx1" = none ∧
      ∀ d ∈ (scanDepositHistory (scanAll (scanDepositHistory (Strategy.init ["USDT"]) "USDT"
        [tx1 1 DepositPending]).1 [("USDT", [tx1 1 DepositSuccess])]).1
        "USDT" [tx1 1 DepositSuccess]).2, d.TransactionID ≠ "tx1" :=
  (C12_not_taken_up_again (Strategy.init ["USDT"]) (reachable_init _) "USDT"
    [tx1 1 DepositPending] (tx1 1 DepositPending) (Or.inl (by decide))
    [("USDT", [tx1 1 DepositSuccess])] [tx1 1 DepositSuccess] [] [] (tx1 1 DepositSuccess)
    (by decide) (by decide) (by decide) (by decide) (by decide)).2.2.2
    (by intro e he; cases he)

/-- C12 counterexample: the first scan ignores `tx1` (success on first
sighting), the second sees it as pending and watches it, the third sees it as
success with the same time and releases it; likewise a released `tx1` that is
reported pending and then success again is released once more. -/
theorem C12_counterexample :
    (scanAll (Strategy.init ["USDT"]) ignoredRun).2 = [[], [], [tx1 1 DepositSuccess]] ∧
    (scanAll (Strategy.init ["USDT"]) [("USDT", [tx1 1 DepositSuccess]),
      ("USDT", [tx1 1 DepositPending, tx1 1 DepositSuccess])]).2 =
        [[], [tx1 1 DepositSuccess]] ∧
    (scanAll (Strategy.init ["USDT"]) [("USDT", [tx1 1 DepositPending]),
      ("USDT", [tx1 1 DepositSuccess]),
      ("USDT", [tx1 1 DepositPending, tx1 1 DepositSuccess])]).2 =
        [[], [tx1 1 DepositSuccess], [tx1 1 DepositSuccess]] := by
  decide

/-! ## C13: pending and credited records on first sighting -/

theorem reportsOf_eq_nil (asset k : String) (l : List Deposit)
    (h : ∀ e ∈ l, e.Asset = asset → e.TransactionID ≠ k) : reportsOf asset k l = [] := by
  unfold reportsOf
  rw [List.filter_eq_nil_iff]
  intro e he hc
  have hc2 : e.Asset = asset ∧ e.TransactionID = k := by simpa using hc
  exact h e he hc2.1 hc2.2

theorem released_false_of_status {d : Deposit} (h : d.Status ≠ DepositSuccess) :
    released d = false := by
  cases hr : released d with
  | false => rfl
  | true => exact absurd (released_status hr) h

/-- C13: in a scan of asset `a` whose sorted batch is `pre ++ e :: post`, a
record `e` of asset `a` with status pending or credited is stored by the loop
body, whatever the watermark is (and whether or not its id is tracked); when
no later record of the batch reports the same id, `e` is on the watchlist and
not in the released batch when the scan returns. -/
theorem C13_pending_credited_added (s : Strategy) (hw : WellFormed s.watchingDeposits)
    (asset : String) (evs pre post : List Deposit) (e : Deposit)
    (hsplit : sortSlice evs = pre ++ e :: post) (hasset : e.Asset = asset)
    (hstatus : e.Status = DepositPending ∨ e.Status = DepositCredited) :
    mapLookup (reconcileLoop asset s.lastAssetDepositTimes s.watchingDeposits (pre ++ [e]))
        e.TransactionID = some e ∧
    ((∀ e' ∈ post, e'.Asset = asset → e'.TransactionID ≠ e.TransactionID) →
      mapLookup (scanDepositHistory s asset evs).1.watchingDeposits e.TransactionID = some e ∧
        e ∉ (scanDepositHistory s asset evs).2 ∧
        e.TransactionID ∉ (scanDepositHistory s asset evs).2.map Deposit.TransactionID) := by
  have hadds := firstSightingAdds_of_status asset s.lastAssetDepositTimes e hstatus
  have hstep : ∀ c : Option Deposit,
      keyStep asset s.lastAssetDepositTimes e.TransactionID c e = some e := by
    intro c
    unfold keyStep
    rw [if_pos ⟨hasset, rfl, Or.inr hadds⟩]
  have hns : e.Status ≠ DepositSuccess := by
    have h1 : DepositPending ≠ DepositSuccess := by decide
    have h2 : DepositCredited ≠ DepositSuccess := by decide
    rcases hstatus with h | h
    · rw [h]; exact h1
    · rw [h]; exact h2
  refine ⟨?_, ?_⟩
  · rw [mapLookup_reconcileLoop, List.foldl_append]
    exact hstep _
  · intro hpost
    have hcell : (sortSlice evs).foldl (keyStep asset s.lastAssetDepositTimes e.TransactionID)
        (mapLookup s.watchingDeposits e.TransactionID) = some e := by
      rw [hsplit, List.foldl_append, List.foldl_cons, hstep, foldl_keyStep_some,
        reportsOf_eq_nil asset e.TransactionID post hpost]
      rfl
    have h := (scan_of_cell s asset evs hw e.TransactionID e hcell).1
      (released_false_of_status hns)
    refine ⟨h.1, ?_, h.2⟩
    intro hmem
    exact h.2 (List.mem_map.2 ⟨e, hmem, rfl⟩)

/-- C13 witness: the first scan of `USDT` sees `tx1` pending and watches it. -/
theorem C13_pending_credited_added_witness :
    mapLookup (scanDepositHistory (Strategy.init ["USDT"]) "USDT"
        [tx1 1 DepositPending]).1.watchingDeposits "tx1" = some (tx1 1 DepositPending) ∧
      tx1 1 DepositPending ∉
        (scanDepositHistory (Strategy.init ["USDT"]) "USDT" [tx1 1 DepositPending]).2 :=
  ⟨((C13_pending_credited_added (Strategy.init ["USDT"]) wellFormed_nil "USDT"
      [tx1 1 DepositPending] [] [] (tx1 1 DepositPending) (by decide) (by decide)
      (Or.inl (by decide))).2 (by intro e he; cases he)).1,
    ((C13_pending_credited_added (Strategy.init ["USDT"]) wellFormed_nil "USDT"
      [tx1 1 DepositPending] [] [] (tx1 1 DepositPending) (by decide) (by decide)
      (Or.inl (by decide))).2 (by intro e he; cases he)).2.1⟩

/-! ## C14: rejected and cancelled records, records of another asset -/

theorem reconcileStep_other_asset (asset : String) (lastTimes : String → Option Int)
    (w : Watchlist) (e : Deposit) (h : e.Asset ≠ asset) :
    reconcileStep asset lastTimes w e = w := by
  unfold reconcileStep
  rw [if_pos h]

theorem reconcileLoop_ofAsset (asset : String) (lastTimes : String → Option Int)
    (l : List Deposit) (w : Watchlist) :
    reconcileLoop asset lastTimes w l = reconcileLoop asset lastTimes w (ofAsset asset l) := by
  induction l generalizing w with
  | nil => rfl
  | cons x xs ih =>
    unfold ofAsset at ih ⊢
    by_cases h : x.Asset = asset
    · simp only [List.filter_cons, h, decide_True, if_true]
      simp only [reconcileLoop, List.foldl_cons] at ih ⊢
      exact ih _
    · simp only [List.filter_cons, h, decide_False, Bool.false_eq_true, if_false]
      simp only [reconcileLoop, List.foldl_cons] at ih ⊢
      rw [reconcileStep_other_asset asset lastTimes w x h]
      exact ih _

theorem reconcileLoop_drop_other_asset (asset : String) (lastTimes : String → Option Int)
    (w : Watchlist) (pre post : List Deposit) (e : Deposit) (h : e.Asset ≠ asset) :
    reconcileLoop asset lastTimes w (pre ++ e :: post) =
      reconcileLoop asset lastTimes w (pre ++ post) := by
  rw [reconcileLoop_append, reconcileLoop_append]
  simp only [reconcileLoop, List.foldl_cons]
  rw [reconcileStep_other_asset asset lastTimes _ e h]

/-- C14: in a scan of asset `a` whose sorted batch is `pre ++ e :: post`, a
record `e` whose id is not tracked when the loop reaches it and whose status
is none of success, pending, credited (rejected and cancelled among them) is
not stored, is not in the released batch, and without a later report of its id
in the batch the id is neither watched nor released. A record `e` of another
asset is skipped by the loop body: the loop leaves the watchlist it would
leave on the sorted batch without `e`, so the watchlist and the released
batch of the scan are those the gate loop makes of the sorted batch without
`e`; and the loop over any sequence of records leaves what it leaves over the
records of the scanned asset alone. -/
theorem C14_rejected_and_foreign (s : Strategy) (hw : WellFormed s.watchingDeposits)
    (asset : String) (evs : List Deposit) :
    (∀ pre post e, sortSlice evs = pre ++ e :: post →
      mapLookup (reconcileLoop asset s.lastAssetDepositTimes s.watchingDeposits pre)
        e.TransactionID = none →
      e.Status ≠ DepositSuccess → e.Status ≠ DepositPending → e.Status ≠ DepositCredited →
      reconcileLoop asset s.lastAssetDepositTimes s.watchingDeposits (pre ++ [e]) =
          reconcileLoop asset s.lastAssetDepositTimes s.watchingDeposits pre ∧
        e ∉ (scanDepositHistory s asset evs).2 ∧
        ((∀ e' ∈ post, e'.Asset = asset → e'.TransactionID ≠ e.TransactionID) →
          mapLookup (scanDepositHistory s asset evs).1.watchingDeposits e.TransactionID
              = none ∧
            ∀ d ∈ (scanDepositHistory s asset evs).2, d.TransactionID ≠ e.TransactionID)) ∧
    (∀ w e, e.Asset ≠ asset → reconcileStep asset s.lastAssetDepositTimes w e = w) ∧
    (∀ pre post e, sortSlice evs = pre ++ e :: post → e.Asset ≠ asset →
      ((scanDepositHistory s asset evs).1.watchingDeposits, (scanDepositHistory s asset evs).2) =
        gateLoop (reconcileLoop asset s.lastAssetDepositTimes s.watchingDeposits (pre ++ post))
          (reconcileLoop asset s.lastAssetDepositTimes s.watchingDeposits (pre ++ post)) []) ∧
    (∀ (w : Watchlist) (l : List Deposit),
      reconcileLoop asset s.lastAssetDepositTimes w l =
        reconcileLoop asset s.lastAssetDepositTimes w (ofAsset asset l)) := by
  refine ⟨?_, fun w e h => reconcileStep_other_asset asset _ w e h, ?_,
    fun w l => reconcileLoop_ofAsset asset _ l w⟩
  · intro pre post e hsplit huntracked h1 h2 h3
    have hskip : firstSightingAdds asset s.lastAssetDepositTimes e = false := by
      unfold firstSightingAdds
      simp [h1, h2, h3]
    have h := scan_unadmitted s hw asset evs pre post e hsplit huntracked (Or.inr hskip)
    refine ⟨h.1, ?_, h.2.2⟩
    intro hmem
    have hr := ((scan_mem_succeeded s asset evs hw e).1 hmem).2
    exact h1 (released_status hr)
  · intro pre post e hsplit he
    simp only [scanDepositHistory, hsplit,
      reconcileLoop_drop_other_asset asset _ _ pre post e he]

/-- C14 witness: a scan of `USDT` gets a rejected `USDT` record and a `BTC`
record; the rejected record is neither watched nor released, and the scan
ends with the watchlist and the released batch that the gate loop makes of
the sorted batch without the `BTC` record. -/
theorem C14_rejected_and_foreign_witness :
    (mapLookup (scanDepositHistory (Strategy.init ["USDT"]) "USDT"
        [tx3, btcRecord]).1.watchingDeposits "tx3" = none ∧
      ∀ d ∈ (scanDepositHistory (Strategy.init ["USDT"]) "USDT" [tx3, btcRecord]).2,
        d.TransactionID ≠ "tx3") ∧
    ((scanDepositHistory (Strategy.init ["USDT"]) "USDT" [tx3, btcRecord]).1.watchingDeposits,
        (scanDepositHistory (Strategy.init ["USDT"]) "USDT" [tx3, btcRecord]).2) =
      gateLoop
        (reconcileLoop "USDT" (Strategy.init ["USDT"]).lastAssetDepositTimes
          (Strategy.init ["USDT"]).watchingDeposits ([tx3] ++ []))
        (reconcileLoop "USDT" (Strategy.init ["USDT"]).lastAssetDepositTimes
          (Strategy.init ["USDT"]).watchingDeposits ([tx3] ++ [])) [] :=
  ⟨((C14_rejected_and_foreign (Strategy.init ["USDT"]) wellFormed_nil "USDT"
      [tx3, btcRecord]).1 [] [btcRecord] tx3 (by decide) (by decide) (by decide) (by decide)
      (by decide)).2.2 (by decide),
    (C14_rejected_and_foreign (Strategy.init ["USDT"]) wellFormed_nil "USDT"
      [tx3, btcRecord]).2.2.1 [tx3] [] btcRecord (by decide) (by decide)⟩

/-! ## C15: a report of a tracked transaction refreshes the record -/

theorem mem_reportsOf {asset k : String} {l : List Deposit} {e : Deposit} :
    e ∈ reportsOf asset k l ↔ e ∈ l ∧ e.Asset = asset ∧ e.TransactionID = k := by
  unfold reportsOf
  rw [List.mem_filter]
  simp

/-- C15: let the transaction `k` be tracked before a scan of asset `a` whose
batch holds a record of asset `a` for `k`. Every such record overwrites the
stored one when the loop reaches it, the last of them in time order is the
record held after the loop, and after the scan that record is either on the
watchlist (and the id is not released) or in the released batch (and the id
is no longer watched). In the scenario, `tx1` first seen pending with `3/16`
and then reported success with `16/16` and threshold 16 is released by the
second scan and the watchlist is empty. -/
theorem C15_state_refresh (s : Strategy) (hw : WellFormed s.watchingDeposits)
    (asset : String) (evs : List Deposit) (k : String) (x : Deposit)
    (htracked : mapLookup s.watchingDeposits k = some x)
    (hrep : ∃ e0 ∈ evs, e0.Asset = asset ∧ e0.TransactionID = k) :
    (∀ pre post e0, sortSlice evs = pre ++ e0 :: post → e0.Asset = asset →
      e0.TransactionID = k →
      mapLookup (reconcileLoop asset s.lastAssetDepositTimes s.watchingDeposits (pre ++ [e0])) k
        = some e0) ∧
    (∃ e, (reportsOf asset k (sortSlice evs)).getLast? = some e ∧
      e ∈ evs ∧ e.Asset = asset ∧ e.TransactionID = k ∧
      mapLookup (reconcileLoop asset s.lastAssetDepositTimes s.watchingDeposits
        (sortSlice evs)) k = some e ∧
      ((mapLookup (scanDepositHistory s asset evs).1.watchingDeposits k = some e ∧
          k ∉ (scanDepositHistory s asset evs).2.map Deposit.TransactionID) ∨
        (mapLookup (scanDepositHistory s asset evs).1.watchingDeposits k = none ∧
          e ∈ (scanDepositHistory s asset evs).2))) ∧
    ((scanDepositHistory (scanDepositHistory (Strategy.init ["USDT"]) "USDT"
        [tx1FirstSeen]).1 "USDT" [tx1Confirm "16/16" 16]).2 = [tx1Confirm "16/16" 16] ∧
      (scanDepositHistory (scanDepositHistory (Strategy.init ["USDT"]) "USDT"
        [tx1FirstSeen]).1 "USDT" [tx1Confirm "16/16" 16]).1.watchingDeposits = []) := by
  refine ⟨?_, ?_, by decide⟩
  · intro pre post e0 _ ha hk
    rw [mapLookup_reconcileLoop, List.foldl_append, htracked, foldl_keyStep_some]
    simp only [List.foldl_cons, List.foldl_nil]
    unfold keyStep
    rw [if_pos ⟨ha, hk, Or.inl rfl⟩]
  · obtain ⟨e0, he0, ha0, hk0⟩ := hrep
    have hmem0 : e0 ∈ reportsOf asset k (sortSlice evs) :=
      mem_reportsOf.2 ⟨(sortSlice_perm evs).mem_iff.2 he0, ha0, hk0⟩
    cases hl : (reportsOf asset k (sortSlice evs)).getLast? with
    | none =>
      rw [List.getLast?_eq_none_iff] at hl
      rw [hl] at hmem0
      cases hmem0
    | some e =>
      obtain ⟨h1, h2, h3⟩ := mem_reportsOf.1 (List.mem_of_getLast?_eq_some hl)
      have hcell := scan_cell_tracked s asset evs k x htracked
      rw [hl] at hcell
      have hcell2 : (sortSlice evs).foldl (keyStep asset s.lastAssetDepositTimes k)
          (mapLookup s.watchingDeposits k) = some e := hcell
      refine ⟨e, rfl, (sortSlice_perm evs).mem_iff.1 h1, h2, h3, ?_, ?_⟩
      · rw [mapLookup_reconcileLoop]; exact hcell2
      · have hscan := scan_of_cell s asset evs hw k e hcell2
        cases hr : released e with
        | false => exact Or.inl (hscan.1 hr)
        | true => exact Or.inr ⟨(hscan.2 hr).1, (hscan.2 hr).2.1⟩

/-- C15 witness: the scenario, through the general statement: after the
first scan `tx1` is tracked, the second scan reports it, and it ends up
released. -/
theorem C15_state_refresh_witness :
    ∃ e, (reportsOf "USDT" "tx1" (sortSlice [tx1Confirm "16/16" 16])).getLast? = some e ∧
      e ∈ [tx1Confirm "16/16" 16] ∧ e.Asset = "USDT" ∧ e.TransactionID = "tx1" ∧
      mapLookup (reconcileLoop "USDT"
        (scanDepositHistory (Strategy.init ["USDT"]) "USDT"
          [tx1FirstSeen]).1.lastAssetDepositTimes
        (scanDepositHistory (Strategy.init ["USDT"]) "USDT" [tx1FirstSeen]).1.watchingDeposits
        (sortSlice [tx1Confirm "16/16" 16])) "tx1" = some e ∧
      ((mapLookup (scanDepositHistory (scanDepositHistory (Strategy.init ["USDT"]) "USDT"
          [tx1FirstSeen]).1 "USDT" [tx1Confirm "16/16" 16]).1.watchingDeposits "tx1" = some e ∧
          "tx1" ∉ (scanDepositHistory (scanDepositHistory (Strategy.init ["USDT"]) "USDT"
            [tx1FirstSeen]).1 "USDT" [tx1Confirm "16/16" 16]).2.map Deposit.TransactionID) ∨
        (mapLookup (scanDepositHistory (scanDepositHistory (Strategy.init ["USDT"]) "USDT"
          [tx1FirstSeen]).1 "USDT" [tx1Confirm "16/16" 16]).1.watchingDeposits "tx1" = none ∧
          e ∈ (scanDepositHistory (scanDepositHistory (Strategy.init ["USDT"]) "USDT"
            [tx1FirstSeen]).1 "USDT" [tx1Confirm "16/16" 16]).2)) :=
  (C15_state_refresh (scanDepositHistory (Strategy.init ["USDT"]) "USDT" [tx1FirstSeen]).1
    (scan_wellFormed _ _ _ wellFormed_nil) "USDT" [tx1Confirm "16/16" 16] "tx1" tx1FirstSeen
    (by decide) ⟨tx1Confirm "16/16" 16, by decide, by decide, by decide⟩).2.1

/-! ## C16: a record leaves the watchlist only by being released -/

/-- C16: a transaction id tracked before a scan is after the scan either
still tracked and not in the released batch, or in the released batch and no
longer tracked. The record the loop leaves under the id stays on the watchlist
whenever its status is not success (rejected, cancelled, pending, credited or
any other), whether it is the old record or a report of this batch. -/
theorem C16_leaves_only_by_release (s : Strategy) (hw : WellFormed s.watchingDeposits)
    (asset : String) (evs : List Deposit) (k : String) (x : Deposit)
    (htracked : mapLookup s.watchingDeposits k = some x) :
    (((mapLookup (scanDepositHistory s asset evs).1.watchingDeposits k).isSome = true ∧
        k ∉ (scanDepositHistory s asset evs).2.map Deposit.TransactionID) ∨
      (mapLookup (scanDepositHistory s asset evs).1.watchingDeposits k = none ∧
        k ∈ (scanDepositHistory s asset evs).2.map Deposit.TransactionID)) ∧
    (∀ d, mapLookup (reconcileLoop asset s.lastAssetDepositTimes s.watchingDeposits
        (sortSlice evs)) k = some d → d.Status ≠ DepositSuccess →
      mapLookup (scanDepositHistory s asset evs).1.watchingDeposits k = some d ∧
        k ∉ (scanDepositHistory s asset evs).2.map Deposit.TransactionID) := by
  have hcell := scan_cell_tracked s asset evs k x htracked
  have hscan := scan_of_cell s asset evs hw k _ hcell
  refine ⟨?_, ?_⟩
  · cases hr : released ((reportsOf asset k (sortSlice evs)).getLast?.getD x) with
    | false =>
      left
      obtain ⟨h1, h2⟩ := hscan.1 hr
      exact ⟨by rw [h1]; rfl, h2⟩
    | true =>
      right
      obtain ⟨h1, h2, h3⟩ := hscan.2 hr
      exact ⟨h1, List.mem_map.2 ⟨_, h2, h3⟩⟩
  · intro d hd hns
    rw [mapLookup_reconcileLoop] at hd
    exact (scan_of_cell s asset evs hw k d hd).1 (released_false_of_status hns)

/-- C16 witness: `tx1` is watched as pending; a scan that reports it as
rejected keeps it on the watchlist. -/
theorem C16_leaves_only_by_release_witness :
    mapLookup (scanDepositHistory (scanDepositHistory (Strategy.init ["USDT"]) "USDT"
        [tx1 1 DepositPending]).1 "USDT" [tx1 1 DepositRejected]).1.watchingDeposits "tx1" =
      some (tx1 1 DepositRejected) ∧
    "tx1" ∉ (scanDepositHistory (scanDepositHistory (Strategy.init ["USDT"]) "USDT"
        [tx1 1 DepositPending]).1 "USDT" [tx1 1 DepositRejected]).2.map Deposit.TransactionID :=
  (C16_leaves_only_by_release (scanDepositHistory (Strategy.init ["USDT"]) "USDT"
    [tx1 1 DepositPending]).1 (scan_wellFormed _ _ _ wellFormed_nil) "USDT"
    [tx1 1 DepositRejected] "tx1" (tx1 1 DepositPending) (by decide)).2
    (tx1 1 DepositRejected) (by decide) (by decide)

/-! ## C17: a failure while one released deposit is handled -/

theorem transferIn_after (w : World) (d : Deposit) (amount : Int) (t tr : List Call) :
    transferIn w d amount (t ++ tr) = t ++ transferIn (w.after t) d amount tr := by
  unfold transferIn World.after
  simp only [List.append_assoc]
  split <;> simp

theorem transferDeposit_after (w : World) (d : Deposit) (t tr : List Call) :
    transferDeposit w d (t ++ tr) =
      (t ++ (transferDeposit (w.after t) d tr).1, (transferDeposit (w.after t) d tr).2) := by
  unfold transferDeposit
  have hw : (w.after t).Wait tr = w.Wait (t ++ tr) := rfl
  have hs : (w.after t).spotAccountQueryService = w.spotAccountQueryService := rfl
  have hq : (w.after t).QuerySpotAccount (tr ++ [Call.limiterWait]) =
      w.QuerySpotAccount (t ++ tr ++ [Call.limiterWait]) := by
    simp [World.after]
  have e1 : t ++ tr ++ [Call.limiterWait] = t ++ (tr ++ [Call.limiterWait]) := by simp
  have e2 : t ++ tr ++ [Call.limiterWait] ++ [Call.querySpotAccount] =
      t ++ (tr ++ [Call.limiterWait] ++ [Call.querySpotAccount]) := by simp
  have e3 : t ++ tr ++ [Call.limiterWait] ++ [Call.querySpotAccount] ++
        [Call.logError "balance not found"] =
      t ++ (tr ++ [Call.limiterWait] ++ [Call.querySpotAccount] ++
        [Call.logError "balance not found"]) := by simp
  simp only [hw, hs, hq]
  cases h1 : w.Wait (t ++ tr) with
  | false => simp
  | true =>
    simp only [Bool.true_eq_false, if_false]
    cases h2 : w.spotAccountQueryService with
    | true =>
      simp only [if_true]
      cases w.QuerySpotAccount (t ++ tr ++ [Call.limiterWait]) with
      | none => simp
      | some account =>
        simp only
        cases h3 : (account d.Asset).2 with
        | true =>
          simp only [if_true]
          split
          · simp
          · rw [e2, transferIn_after]
        | false =>
          simp only [Bool.false_eq_true, if_false]
          split
          · simp
          · rw [e3, transferIn_after]
    | false =>
      simp only [Bool.false_eq_true, if_false]
      rw [e1, transferIn_after]

theorem transferDeposit_trace (w : World) (d : Deposit) (t : List Call) :
    (transferDeposit w d t).1 = t ++ callsOf w d t ∧
      callsOf w d t = (transferDeposit (w.after t) d []).1 := by
  have h := transferDeposit_after w d t []
  rw [List.append_nil] at h
  have h2 : callsOf w d t = (transferDeposit (w.after t) d []).1 := by
    unfold callsOf
    rw [h]
    simp
  exact ⟨by rw [h2, h], h2⟩

theorem transferDeposit_flag (w : World) (d : Deposit) (t : List Call)
    (h : w.Wait t = true) : (transferDeposit w d t).2 = true := by
  unfold transferDeposit
  have h1 : ¬ w.Wait t = false := by rw [h]; exact Bool.noConfusion
  simp only [if_neg h1]
  split
  · split
    · rfl
    · split <;> split <;> rfl
  · rfl

theorem transferLoop_cons (w : World) (d : Deposit) (ds : List Deposit) (t : List Call) :
    transferLoop w (d :: ds) t =
      if (transferDeposit w d t).2 = true then transferLoop w ds (transferDeposit w d t).1
      else ((transferDeposit w d t).1, false) := rfl

theorem transferLoop_flag (w : World) (hnc : ∀ t, w.Wait t = true) (ds : List Deposit)
    (t : List Call) : (transferLoop w ds t).2 = true := by
  induction ds generalizing t with
  | nil => rfl
  | cons d ds ih =>
    rw [transferLoop_cons, if_pos (transferDeposit_flag w d t (hnc t))]
    exact ih _

theorem transferLoop_append (w : World) (hnc : ∀ t, w.Wait t = true) (ds1 ds2 : List Deposit)
    (t : List Call) :
    transferLoop w (ds1 ++ ds2) t = transferLoop w ds2 (transferLoop w ds1 t).1 := by
  induction ds1 generalizing t with
  | nil => rfl
  | cons d ds ih =>
    rw [List.cons_append, transferLoop_cons, transferLoop_cons,
      if_pos (transferDeposit_flag w d t (hnc t)), if_pos (transferDeposit_flag w d t (hnc t))]
    exact ih _

theorem transferLoop_extends (w : World) (ds : List Deposit) (t : List Call) :
    ∃ rest, (transferLoop w ds t).1 = t ++ rest := by
  induction ds generalizing t with
  | nil => exact ⟨[], by simp [transferLoop]⟩
  | cons d ds ih =>
    rw [transferLoop_cons]
    split
    · obtain ⟨rest, hrest⟩ := ih (transferDeposit w d t).1
      refine ⟨callsOf w d t ++ rest, ?_⟩
      rw [hrest, (transferDeposit_trace w d t).1, List.append_assoc]
    · exact ⟨callsOf w d t, (transferDeposit_trace w d t).1⟩

theorem transferCalls_transferDeposit (w : World) (d : Deposit) (trace : List Call)
    (account : Account) (hwait : w.Wait trace = true) (hsvc : w.spotAccountQueryService = true)
    (hq : w.QuerySpotAccount (trace ++ [Call.limiterWait]) = some account)
    (hok : (account d.Asset).2 = true) :
    transferCalls (transferDeposit w d trace).1 =
      transferCalls trace ++
        (if 0 < min (account d.Asset).1.Available d.Amount
         then [(d.Asset, min (account d.Asset).1.Available d.Amount)] else []) := by
  have hwait2 : ¬ w.Wait trace = false := by rw [hwait]; exact Bool.noConfusion
  unfold transferDeposit
  simp only [if_neg hwait2, hsvc, if_true, hq, hok]
  by_cases hpos : 0 < min (account d.Asset).1.Available d.Amount
  · have hc : ¬ (min (account d.Asset).1.Available d.Amount = 0 ∨
        min (account d.Asset).1.Available d.Amount < 0) := by
      rintro (h | h)
      · rw [h] at hpos; exact absurd hpos (lt_irrefl _)
      · exact absurd hpos (not_lt.2 (le_of_lt h))
    rw [if_neg hc, if_pos hpos, transferCalls_transferIn]
    simp [transferCalls_append, transferCalls]
  · have hc : min (account d.Asset).1.Available d.Amount = 0 ∨
        min (account d.Asset).1.Available d.Amount < 0 := by
      rcases lt_or_eq_of_le (not_lt.1 hpos) with h | h
      · exact Or.inr h
      · exact Or.inl h
    rw [if_pos hc, if_neg hpos]
    simp [transferCalls_append, transferCalls]

theorem transferIn_take (w : World) (d : Deposit) (amount : Int) (x y : Call) :
    (transferIn w d amount [x]).take 1 = [x] ∧
      (transferIn w d amount [x, y]).take 2 = [x, y] ∧
      (transferIn w d amount [x, y]).take 1 = [x] := by
  unfold transferIn
  simp only
  refine ⟨?_, ?_, ?_⟩ <;> split <;> simp

theorem callsOf_take (w : World) (d : Deposit) (t : List Call) :
    (callsOf w d t).take 1 = [Call.limiterWait] ∧
      (w.Wait t = true → w.spotAccountQueryService = true →
        (callsOf w d t).take 2 = [Call.limiterWait, Call.querySpotAccount]) := by
  rw [(transferDeposit_trace w d t).2]
  unfold transferDeposit
  have hw : (w.after t).Wait [] = w.Wait t := by simp [World.after]
  have hs : (w.after t).spotAccountQueryService = w.spotAccountQueryService := rfl
  simp only [hw, hs, List.nil_append]
  cases h1 : w.Wait t with
  | false => exact ⟨by simp, fun h => Bool.noConfusion h⟩
  | true =>
    simp only [Bool.true_eq_false, if_false]
    cases h2 : w.spotAccountQueryService with
    | false =>
      simp only [Bool.false_eq_true, if_false]
      exact ⟨(transferIn_take _ d d.Amount Call.limiterWait Call.limiterWait).1,
        fun _ h => absurd h (by simp)⟩
    | true =>
      simp only [if_true]
      cases (w.after t).QuerySpotAccount [Call.limiterWait] with
      | none => exact ⟨by simp, fun _ _ => by simp⟩
      | some account =>
        simp only
        cases h3 : (account d.Asset).2 with
        | true =>
          simp only [if_true]
          split
          · exact ⟨by simp, fun _ _ => by simp⟩
          · exact ⟨(transferIn_take _ d _ Call.limiterWait Call.querySpotAccount).2.2,
              fun _ _ => (transferIn_take _ d _ Call.limiterWait Call.querySpotAccount).2.1⟩
        | false =>
          simp only [Bool.false_eq_true, if_false]
          split
          · exact ⟨by simp, fun _ _ => by simp⟩
          · have e : transferIn (w.after t) d d.Amount
                ([Call.limiterWait] ++ [Call.querySpotAccount] ++
                  [Call.logError "balance not found"]) =
                [Call.limiterWait, Call.querySpotAccount] ++
                  transferIn ((w.after t).after [Call.limiterWait, Call.querySpotAccount]) d
                    d.Amount [Call.logError "balance not found"] := by
              rw [← transferIn_after]
              rfl
            rw [e]
            exact ⟨by simp, fun _ _ => by simp⟩

/-- C17: let the limiter never fail (no cancellation) and let the released
batch be `ds1 ++ d :: ds2`. Whatever the balance queries and transfers of the
earlier deposits `ds1` returned, the loop runs to the end of the batch; the
body for `d` runs on the trace they left and its calls are part of the final
trace; they begin with the limiter wait and, when the exchange offers the spot
account query, the balance query; when that query succeeds and lists the
asset, the transfer call is issued with the capped amount exactly when it is
positive; and these calls depend on nothing but the answers of the world to
the body of `d` itself: any run in which the world answers that body alike
makes the same calls. -/
theorem C17_deposit_failure_isolated (w : World) (hnc : ∀ t, w.Wait t = true)
    (ds1 : List Deposit) (d : Deposit) (ds2 : List Deposit) (trace : List Call) :
    (transferLoop w (ds1 ++ d :: ds2) trace).2 = true ∧
    (∃ rest, (transferLoop w (ds1 ++ d :: ds2) trace).1 =
      (transferLoop w ds1 trace).1 ++ callsOf w d (transferLoop w ds1 trace).1 ++ rest) ∧
    (callsOf w d (transferLoop w ds1 trace).1).take 1 = [Call.limiterWait] ∧
    (w.spotAccountQueryService = true →
      (callsOf w d (transferLoop w ds1 trace).1).take 2 =
        [Call.limiterWait, Call.querySpotAccount]) ∧
    (∀ account, w.spotAccountQueryService = true →
      w.QuerySpotAccount ((transferLoop w ds1 trace).1 ++ [Call.limiterWait]) = some account →
      (account d.Asset).2 = true →
      transferCalls (callsOf w d (transferLoop w ds1 trace).1) =
        if 0 < min (account d.Asset).1.Available d.Amount
        then [(d.Asset, min (account d.Asset).1.Available d.Amount)] else []) ∧
    (∀ (w2 : World) (t2 : List Call), w2.after t2 = w.after (transferLoop w ds1 trace).1 →
      callsOf w2 d t2 = callsOf w d (transferLoop w ds1 trace).1) := by
  refine ⟨transferLoop_flag w hnc _ _, ?_, (callsOf_take w d _).1,
    fun hs => (callsOf_take w d _).2 (hnc _) hs, ?_, ?_⟩
  · rw [transferLoop_append w hnc ds1 (d :: ds2) trace, transferLoop_cons,
      if_pos (transferDeposit_flag w d _ (hnc _))]
    obtain ⟨rest, hrest⟩ := transferLoop_extends w ds2
      (transferDeposit w d (transferLoop w ds1 trace).1).1
    exact ⟨rest, by rw [hrest, (transferDeposit_trace w d _).1]⟩
  · intro account hs hq hok
    have h := transferCalls_transferDeposit w d (transferLoop w ds1 trace).1 account (hnc _)
      hs hq hok
    rw [(transferDeposit_trace w d _).1, transferCalls_append] at h
    exact List.append_cancel_left h
  · intro w2 t2 h
    rw [(transferDeposit_trace w2 d t2).2, (transferDeposit_trace w d _).2, h]

/-- C17 witness: the balance query for the first deposit fails and every
transfer fails; the second deposit of 7 `USDT` still gets its balance query
and its transfer call of 7. -/
theorem C17_deposit_failure_isolated_witness :
    (transferLoop firstQueryFailsWorld [tx1 1 DepositSuccess, tx2] []).2 = true ∧
    (callsOf firstQueryFailsWorld tx2
      (transferLoop firstQueryFailsWorld [tx1 1 DepositSuccess] []).1).take 2 =
        [Call.limiterWait, Call.querySpotAccount] ∧
    transferCalls (callsOf firstQueryFailsWorld tx2
      (transferLoop firstQueryFailsWorld [tx1 1 DepositSuccess] []).1) = [("USDT", 7)] :=
  ⟨(C17_deposit_failure_isolated firstQueryFailsWorld (fun _ => rfl)
      [tx1 1 DepositSuccess] tx2 [] []).1,
    (C17_deposit_failure_isolated firstQueryFailsWorld (fun _ => rfl)
      [tx1 1 DepositSuccess] tx2 [] []).2.2.2.1 rfl,
    (C17_deposit_failure_isolated firstQueryFailsWorld (fun _ => rfl)
      [tx1 1 DepositSuccess] tx2 [] []).2.2.2.2.1 account40 rfl (by rfl) (by decide)⟩

/-! ## C18: reading back a well formed confirmation text -/

theorem digitChar_decimal :
    ∀ n, n < 10 → isDecimalDigit (Nat.digitChar n) = true ∧ (Nat.digitChar n).toNat - 48 = n := by
  decide

theorem parseDigits_toDigitsCore (fuel : Nat) :
    ∀ (n : Nat) (ds : List Char), n < fuel →
      ∃ k, ∀ acc, parseDigits (Nat.toDigitsCore 10 fuel n ds) acc =
        parseDigits ds (acc * 10 ^ k + n) := by
  induction fuel with
  | zero => intro n ds h; exact absurd h (Nat.not_lt_zero n)
  | succ fuel ih =>
    intro n ds hn
    obtain ⟨hdig, hval⟩ := digitChar_decimal (n % 10) (Nat.mod_lt n (by norm_num))
    have hcons : ∀ acc, parseDigits (Nat.digitChar (n % 10) :: ds) acc =
        parseDigits ds (acc * 10 + n % 10) := by
      intro acc
      simp only [parseDigits, hdig, if_true, hval]
    by_cases h0 : n / 10 = 0
    · refine ⟨1, fun acc => ?_⟩
      have hlt : n % 10 = n := by
        have := Nat.div_add_mod n 10
        omega
      simp only [Nat.toDigitsCore, h0, if_true]
      rw [hcons, hlt, pow_one]
    · have hlt : n / 10 < fuel := by
        have := Nat.div_add_mod n 10
        omega
      obtain ⟨k, hk⟩ := ih (n / 10) (Nat.digitChar (n % 10) :: ds) hlt
      refine ⟨k + 1, fun acc => ?_⟩
      simp only [Nat.toDigitsCore, h0, if_false]
      rw [hk, hcons]
      congr 1
      have := Nat.div_add_mod n 10
      rw [pow_succ]
      nlinarith [Nat.div_add_mod n 10]

theorem parseDigits_toDigits (n : Nat) : parseDigits (Nat.toDigits 10 n) 0 = some n := by
  obtain ⟨k, hk⟩ := parseDigits_toDigitsCore (n + 1) n [] (Nat.lt_succ_self n)
  unfold Nat.toDigits
  rw [hk 0]
  simp [parseDigits]

theorem toDigitsCore_ne_nil (fuel n : Nat) (ds : List Char) (h : ds ≠ []) :
    Nat.toDigitsCore 10 fuel n ds ≠ [] := by
  induction fuel generalizing n ds with
  | zero => simpa [Nat.toDigitsCore] using h
  | succ fuel ih =>
    simp only [Nat.toDigitsCore]
    split
    · simp
    · exact ih _ _ (by simp)

theorem toDigits_ne_nil (n : Nat) : Nat.toDigits 10 n ≠ [] := by
  unfold Nat.toDigits
  simp only [Nat.toDigitsCore]
  split
  · simp
  · exact toDigitsCore_ne_nil _ _ _ (by simp)

theorem toDigits_decimal (n : Nat) : ∀ c ∈ Nat.toDigits 10 n, isDecimalDigit c = true :=
  parseDigits_some _ _ _ (parseDigits_toDigits n)

theorem Atoi_toDigits (n : Nat) (h : n ≤ 2 ^ 63 - 1) :
    (Atoi (Nat.toDigits 10 n)).1 = (n : Int) := by
  have hp := parseDigits_toDigits n
  have hd := toDigits_decimal n
  cases hl : Nat.toDigits 10 n with
  | nil => exact absurd hl (toDigits_ne_nil n)
  | cons c rest =>
    rw [hl] at hp hd
    have hc : isDecimalDigit c = true := hd c (List.mem_cons_self _ _)
    have h1 : c ≠ '-' := by
      intro h1; rw [h1] at hc; exact absurd hc (by decide)
    have h2 : c ≠ '+' := by
      intro h2; rw [h2] at hc; exact absurd hc (by decide)
    have hu : unsigned (c :: rest) = c :: rest := by
      unfold unsigned
      exact if_neg (fun hs => hs.elim h2 h1)
    have hhead : ¬ (c :: rest).head? = some '-' := by
      simpa using h1
    have hmax : n ≤ maxUint64 := by unfold maxUint64; omega
    have hloop : ParseUint (c :: rest) = (n, none) :=
      parseUintLoop_of_parseDigits _ _ _ hp hmax
    have hne : ¬ ((n, (none : Option NumError)).2 = some NumError.ErrSyntax) := by simp
    have h63 : ¬ n ≥ 2 ^ 63 := by omega
    rw [Atoi_fst, ParseInt_unsigned, hu, hloop, if_neg hne, if_neg (fun hx => h63 hx.2),
      if_neg (fun hx => hhead hx.1), if_neg hhead]

/-- C18: for all natural numbers `c` and `r` up to `2^63 - 1`, a deposit
whose `Confirmation` is the decimal text of `c`, a slash and the decimal text
of `r` has `GetCurrentConfirmation = (c, r)`. -/
theorem C18_confirmation_round_trip (d : Deposit) (c r : Nat)
    (hc : c ≤ 2 ^ 63 - 1) (hr : r ≤ 2 ^ 63 - 1)
    (h : d.Confirmation = Nat.repr c ++ "/" ++ Nat.repr r) :
    d.GetCurrentConfirmation = ((c : Int), (r : Int)) := by
  have hnot : isDecimalDigit '/' ≠ true := by decide
  have hslash : ∀ n, '/' ∉ Nat.toDigits 10 n :=
    fun n hm => hnot (toDigits_decimal n '/' hm)
  have hlist : d.Confirmation.toList = Nat.toDigits 10 c ++ '/' :: Nat.toDigits 10 r := by
    rw [h]
    simp [Nat.repr, List.asString]
  rw [getCurrentConfirmation_parts d (Nat.toDigits 10 c) (Nat.toDigits 10 r) []
    (by rw [hlist, splitSlash_append _ _ (hslash c), splitSlash_no_slash _ (hslash r)]),
    Atoi_toDigits c hc, Atoi_toDigits r hr]

/-- C18 witness: the text `7/16` gives `(7, 16)`. -/
theorem C18_confirmation_round_trip_witness :
    (tx1Confirm "7/16" 16).GetCurrentConfirmation = (7, 16) :=
  C18_confirmation_round_trip (tx1Confirm "7/16" 16) 7 16 (by norm_num) (by norm_num) (by decide)

/-! ## C19: what a scan leaves behind and what it releases -/

/-- C19: in a reachable state no watched record is a success record that
passes the confirmation test, and the same holds after one more scan; so
every deposit in the released batch of a scan of asset `a` from a reachable
state is a record of asset `a` (one that the batch of this scan reported). -/
theorem C19_released_of_scanned_asset (s : Strategy) (hs : Reachable s) :
    (∀ e ∈ s.watchingDeposits,
      ¬ (e.2.Status = DepositSuccess ∧
        ¬ (e.2.GetCurrentConfirmation.2 > 0 ∧ e.2.UnlockConfirm > 0 ∧
          e.2.GetCurrentConfirmation.1 < e.2.UnlockConfirm))) ∧
    (∀ asset evs,
      (∀ e ∈ (scanDepositHistory s asset evs).1.watchingDeposits,
        ¬ (e.2.Status = DepositSuccess ∧
          ¬ (e.2.GetCurrentConfirmation.2 > 0 ∧ e.2.UnlockConfirm > 0 ∧
            e.2.GetCurrentConfirmation.1 < e.2.UnlockConfirm))) ∧
      (∀ d ∈ (scanDepositHistory s asset evs).2, d.Asset = asset ∧ d ∈ evs)) := by
  obtain ⟨hw, hn⟩ := reachable_invariant hs
  have hconv : ∀ d : Deposit, released d = false →
      ¬ (d.Status = DepositSuccess ∧
        ¬ (d.GetCurrentConfirmation.2 > 0 ∧ d.UnlockConfirm > 0 ∧
          d.GetCurrentConfirmation.1 < d.UnlockConfirm)) := by
    intro d hd hc
    rw [(released_iff d).2 hc] at hd
    exact Bool.noConfusion hd
  refine ⟨fun e he => hconv _ (hn e he), fun asset evs => ⟨?_, ?_⟩⟩
  · intro e he
    exact hconv _ (scan_not_released s asset evs hw e he)
  · intro d hd
    obtain ⟨h1, h2, _⟩ := scan_succeeded_source s asset evs hw hn d hd
    exact ⟨h2, h1⟩

/-- C19 witness: with `tx9` (asset `BTC`) and `tx0` (asset `USDT`) watched, a
scan of `USDT` that reports `tx1` releases it, a record of `USDT`. -/
theorem C19_released_of_scanned_asset_witness :
    tx1 1 DepositSuccess ∈ (scanDepositHistory (scanAll (Strategy.init ["USDT", "BTC"])
        [("USDT", [tx0]), ("BTC", [tx9])]).1 "USDT" [tx1 1 DepositSuccess]).2 ∧
      (tx1 1 DepositSuccess).Asset = "USDT" ∧
      tx1 1 DepositSuccess ∈ [tx1 1 DepositSuccess] :=
  ⟨by decide,
    ((C19_released_of_scanned_asset (scanAll (Strategy.init ["USDT", "BTC"])
      [("USDT", [tx0]), ("BTC", [tx9])]).1
      (reachable_scanAll (reachable_init _) _)).2 "USDT" [tx1 1 DepositSuccess]).2
      (tx1 1 DepositSuccess) (by decide)⟩

/-! ## C20: the valid price of a ticker -/

/-- C20: `GetValidPrice` is `Last` when that is not zero, else `Buy` when
that is not zero, else `Sell` when that is not zero, else `Open`; so it is
zero exactly when `Last`, `Buy`, `Sell` and `Open` are all zero. -/
theorem C20_valid_price (t : Ticker) :
    (t.Last ≠ 0 → t.GetValidPrice = t.Last) ∧
    (t.Last = 0 → t.Buy ≠ 0 → t.GetValidPrice = t.Buy) ∧
    (t.Last = 0 → t.Buy = 0 → t.Sell ≠ 0 → t.GetValidPrice = t.Sell) ∧
    (t.Last = 0 → t.Buy = 0 → t.Sell = 0 → t.GetValidPrice = t.Open) ∧
    (t.GetValidPrice = 0 ↔ t.Last = 0 ∧ t.Buy = 0 ∧ t.Sell = 0 ∧ t.Open = 0) := by
  unfold Ticker.GetValidPrice
  by_cases h1 : t.Last = 0
  · by_cases h2 : t.Buy = 0
    · by_cases h3 : t.Sell = 0
      · simp [h1, h2, h3]
      · simp [h1, h2, h3]
    · simp [h1, h2]
  · simp [h1]

/-- C20 witness: a ticker with no last price and no bid takes the ask. -/
theorem C20_valid_price_witness :
    ({ Sell := 5, Open := 3 } : Ticker).GetValidPrice = 5 :=
  (C20_valid_price { Sell := 5, Open := 3 }).2.2.1 (by decide) (by decide) (by decide)

end Deposit2Transfer
